import Mathlib

/-!
Verification development for the schedule-reflow repository.

The embedding models instants as natural numbers counting whole minutes
since the Unix epoch (1970-01-01T00:00:00Z, which fell on a Thursday), in
UTC.  All date arithmetic in the source operates on whole minutes and
whole hours, so this granularity is exact for the behaviours under study.
JavaScript Map and Set objects are modelled as association lists and
duplicate-free lists that mirror their insertion-order iteration
semantics.  Loops with early exits become structural recursions; the two
day-count safety ceilings of the source (365 days in calculateEndDate,
30 days in findNextShiftStart) become explicit fuel arguments with the
same bounds.  Functions that can throw return Except String.
-/

/-- Minutes in a day. -/
def minutesPerDay : Nat := 1440

/-- Epoch-day index of an instant. -/
def dayOf (t : Nat) : Nat := t / minutesPerDay

/-- Midnight (start of day) of the day containing an instant. -/
def dayStartOf (t : Nat) : Nat := dayOf t * minutesPerDay

/-- Source: currentDate.plus({days: 1}).startOf('day'). -/
def nextDayStart (t : Nat) : Nat := (dayOf t + 1) * minutesPerDay

/-- Hour-of-day of an instant (UTC). -/
def hourOf (t : Nat) : Nat := t % minutesPerDay / 60

/-- JavaScript weekday of an instant: 0 = Sunday .. 6 = Saturday.
1970-01-01 (epoch day 0) was a Thursday, i.e. JS weekday 4.  The source
obtains this value by converting the Luxon weekday (1 = Monday .. 7 =
Sunday) with jsWeekday := luxonWeekday = 7 ? 0 : luxonWeekday, which is
exactly the JS weekday of the same instant. -/
def jsWeekdayOf (t : Nat) : Nat := (dayOf t + 4) % 7

/-- Build an instant from an epoch-day index, hour and minute. -/
def mkInstant (epochDay h m : Nat) : Nat := epochDay * minutesPerDay + h * 60 + m

/-- Shift record from reflow/types.ts. -/
structure Shift where
  dayOfWeek : Nat
  startHour : Nat
  endHour : Nat
deriving DecidableEq, Repr

/-- MaintenanceWindow record from reflow/types.ts (the informational
reason string is dropped; no behaviour reads it). -/
structure MaintenanceWindow where
  startDate : Nat
  endDate : Nat
deriving DecidableEq, Repr

/-- Payload of a work-order document, from reflow/types.ts. -/
structure WorkOrderData where
  workOrderNumber : String
  workCenterId : String
  startDate : Nat
  endDate : Nat
  durationMinutes : Nat
  isMaintenance : Bool
  dependsOnWorkOrderIds : List String
deriving DecidableEq, Repr

/-- Work-order document envelope. -/
structure WorkOrderDocument where
  docId : String
  data : WorkOrderData
deriving DecidableEq, Repr

/-- Payload of a work-center document, from reflow/types.ts. -/
structure WorkCenterData where
  name : String
  shifts : List Shift
  maintenanceWindows : List MaintenanceWindow
deriving DecidableEq, Repr

/-- Work-center document envelope. -/
structure WorkCenterDocument where
  docId : String
  data : WorkCenterData
deriving DecidableEq, Repr

namespace DateUtils

/-- Source: DateUtils.getShiftForDay.  The Luxon-to-JS weekday conversion
is already folded into jsWeekdayOf, so this takes the JS weekday. -/
def getShiftForDay (jsWeekday : Nat) (shifts : List Shift) : Option Shift :=
  shifts.find? (fun shift => shift.dayOfWeek == jsWeekday)

/-- Source: DateUtils.getEffectiveShiftEnd.  The first argument plays the
role of the shiftStart parameter (the call site passes workStart). -/
def getEffectiveShiftEnd (shiftStart shiftEnd : Nat)
    (maintenanceWindows : List MaintenanceWindow) : Nat :=
  maintenanceWindows.foldl
    (fun effectiveEnd w =>
      if w.startDate < shiftEnd ∧ w.endDate > shiftStart then
        if w.startDate > shiftStart ∧ w.startDate < effectiveEnd then
          w.startDate
        else effectiveEnd
      else effectiveEnd)
    shiftEnd

/-- Error message of the 365-day ceiling in calculateEndDate. -/
def calcErrMsg : String :=
  "Could not schedule work order within 365 days. Check shifts and maintenance windows."

/-- Day-stepping loop of DateUtils.calculateEndDate.  The fuel argument
counts the loop iterations still allowed: the source runs at most 365
iterations (daysProcessed) and throws after the loop whenever
daysProcessed reached 365, even if the work completed in the final
iteration.  Callers only invoke this with remaining > 0. -/
def calcLoop (shifts : List Shift) (maintenanceWindows : List MaintenanceWindow) :
    Nat → Nat → Nat → Except String Nat
  | 0, _, _ => .error calcErrMsg
  | fuel + 1, current, remaining =>
    match getShiftForDay (jsWeekdayOf current) shifts with
    | none => calcLoop shifts maintenanceWindows fuel (nextDayStart current) remaining
    | some shift =>
      let shiftStart := dayStartOf current + shift.startHour * 60
      let shiftEnd := dayStartOf current + shift.endHour * 60
      let workStart := max current shiftStart
      if workStart ≥ shiftEnd then
        calcLoop shifts maintenanceWindows fuel (nextDayStart current) remaining
      else
        let effectiveEnd := getEffectiveShiftEnd workStart shiftEnd maintenanceWindows
        let availableMinutes := effectiveEnd - workStart
        if availableMinutes = 0 then
          calcLoop shifts maintenanceWindows fuel (nextDayStart current) remaining
        else
          let minutesToWork := min remaining availableMinutes
          if remaining - minutesToWork > 0 then
            calcLoop shifts maintenanceWindows fuel (nextDayStart current)
              (remaining - minutesToWork)
          else
            if fuel = 0 then .error calcErrMsg
            else .ok (workStart + minutesToWork)

/-- Source: DateUtils.calculateEndDate. -/
def calculateEndDate (startDate : Nat) (durationMinutes : Nat) (shifts : List Shift)
    (maintenanceWindows : List MaintenanceWindow) : Except String Nat :=
  if durationMinutes = 0 then .ok startDate
  else calcLoop shifts maintenanceWindows 365 startDate durationMinutes

/-- Source: DateUtils.overlapsMaintenance. -/
def overlapsMaintenance (startDate endDate : Nat)
    (maintenanceWindows : List MaintenanceWindow) : Bool :=
  maintenanceWindows.any (fun w => startDate < w.endDate && endDate > w.startDate)

/-- Source: DateUtils.isDuringShift. -/
def isDuringShift (date : Nat) (shifts : List Shift) : Bool :=
  match getShiftForDay (jsWeekdayOf date) shifts with
  | none => false
  | some shift => shift.startHour ≤ hourOf date && hourOf date < shift.endHour

/-- Source: DateUtils.timePeriodsOverlap. -/
def timePeriodsOverlap (start1 end1 start2 end2 : Nat) : Bool :=
  start1 < end2 && end1 > start2

/-- Error message of the 30-day ceiling in findNextShiftStart. -/
def noShiftMsg : String := "No shift found in the next 30 days"

/-- Day-stepping loop of DateUtils.findNextShiftStart (30 iterations). -/
def findLoop (shifts : List Shift) : Nat → Nat → Except String Nat
  | 0, _ => .error noShiftMsg
  | fuel + 1, current =>
    match getShiftForDay (jsWeekdayOf current) shifts with
    | some shift =>
      let shiftStart := dayStartOf current + shift.startHour * 60
      if shiftStart > current then .ok shiftStart
      else findLoop shifts fuel (nextDayStart current)
    | none => findLoop shifts fuel (nextDayStart current)

/-- Source: DateUtils.findNextShiftStart. -/
def findNextShiftStart (fromDate : Nat) (shifts : List Shift) : Except String Nat :=
  findLoop shifts 30 fromDate

/-- Second half of DateUtils.getEarliestStartTime: snap the earliest
feasible instant forward to a valid shift instant. -/
def snapToShift (earliestPossible : Nat) (shifts : List Shift) : Except String Nat :=
  match getShiftForDay (jsWeekdayOf earliestPossible) shifts with
  | none => findNextShiftStart earliestPossible shifts
  | some shift =>
    let shiftStart := dayStartOf earliestPossible + shift.startHour * 60
    let shiftEnd := dayStartOf earliestPossible + shift.endHour * 60
    if earliestPossible < shiftStart then .ok shiftStart
    else if earliestPossible < shiftEnd then .ok earliestPossible
    else findNextShiftStart earliestPossible shifts

/-- Source: DateUtils.getEarliestStartTime.  The reduce over
parentEndTimes starts from the epoch string, i.e. instant 0. -/
def getEarliestStartTime (parentEndTimes : List Nat) (workCenterAvailableFrom : Nat)
    (shifts : List Shift) : Except String Nat :=
  let latestParentEnd := parentEndTimes.foldl (fun latest current =>
    if current > latest then current else latest) 0
  let earliestPossible := max workCenterAvailableFrom latestParentEnd
  snapToShift earliestPossible shifts

end DateUtils

/-! ## JavaScript Map and Set models

A JavaScript Map is an association list: set on a fresh key appends,
set on an existing key overwrites in place, and iteration follows
first-insertion order.  A Set of strings is a duplicate-free list with
insertion-order iteration. -/

/-- Lookup in a Map model (first matching key). -/
def alGet {α : Type} : List (String × α) → String → Option α
  | [], _ => none
  | p :: rest, k => if p.1 = k then some p.2 else alGet rest k

/-- Lookup with default. -/
def alGetD {α : Type} (l : List (String × α)) (k : String) (d : α) : α :=
  (alGet l k).getD d

/-- Map.set: overwrite in place if the key exists, else append. -/
def alSet {α : Type} : List (String × α) → String → α → List (String × α)
  | [], k, v => [(k, v)]
  | p :: rest, k, v =>
    if p.1 = k then (k, v) :: rest else p :: alSet rest k v

/-- Map.has. -/
def alHas {α : Type} (l : List (String × α)) (k : String) : Bool :=
  (alGet l k).isSome

/-- Set.add: append if absent. -/
def slAdd (s : List String) (x : String) : List String :=
  if x ∈ s then s else s ++ [x]

/-- Dependency graph state, from reflow/dependency-graph.ts: adjacency
(workOrderId to the Set of dependent workOrderIds), in-degree per node
(number of parents; the topological sort clone can go negative, hence
Int), and the node table. -/
structure DependencyGraph where
  adjacencyList : List (String × List String)
  inDegree : List (String × Int)
  workOrders : List (String × WorkOrderDocument)
deriving Repr

namespace DependencyGraph

/-- First loop of buildGraph: initialise every node. -/
def initGraph (workOrders : List WorkOrderDocument) : DependencyGraph :=
  workOrders.foldl
    (fun g wo =>
      { workOrders := alSet g.workOrders wo.docId wo
        adjacencyList := alSet g.adjacencyList wo.docId []
        inDegree := alSet g.inDegree wo.docId 0 })
    ⟨[], [], []⟩

/-- Inner loop of buildGraph: add the edges of one work order, failing
when a declared parent does not exist. -/
def addEdges (childId : String) : List String → DependencyGraph →
    Except String DependencyGraph
  | [], g => .ok g
  | parentId :: rest, g =>
    if alHas g.adjacencyList parentId then
      addEdges childId rest
        { g with adjacencyList :=
            alSet g.adjacencyList parentId (slAdd (alGetD g.adjacencyList parentId []) childId) }
    else
      .error ("Work order " ++ childId ++ " depends on " ++ parentId ++ ", but "
        ++ parentId ++ " does not exist")

/-- Second loop of buildGraph: set each in-degree to the length of the
dependsOnWorkOrderIds list and add the edges. -/
def addAllEdges : List WorkOrderDocument → DependencyGraph → Except String DependencyGraph
  | [], g => .ok g
  | wo :: rest, g => do
    let parentIds := wo.data.dependsOnWorkOrderIds
    let g := { g with inDegree := alSet g.inDegree wo.docId (parentIds.length : Int) }
    let g ← addEdges wo.docId parentIds g
    addAllEdges rest g

/-- Source: DependencyGraph constructor / buildGraph. -/
def buildGraph (workOrders : List WorkOrderDocument) : Except String DependencyGraph :=
  addAllEdges workOrders (initGraph workOrders)

/-- Node ids of the graph, in Map iteration order. -/
def nodeIds (g : DependencyGraph) : List String :=
  g.workOrders.map (fun p => p.1)

/-- DFS of hasCycles.  Returns (cycleFound, visited).  The neighbour
loop of the source, with its early return on a found cycle, is the fold
that stops updating once the flag is set.  The recursion stack is
passed downward only, matching the add/delete discipline of the source.
Fuel bounds the recursion depth; callers pass enough fuel for the depth
bound (number of nodes + 1), and exhaustion conservatively reports a
cycle. -/
def dfsCycle (adj : List (String × List String)) :
    Nat → String → List String → List String → Bool × List String
  | 0, _, visited, _ => (true, visited)
  | fuel + 1, nodeId, visited, stack =>
    let visited := slAdd visited nodeId
    let stack := slAdd stack nodeId
    (alGetD adj nodeId []).foldl
      (fun acc neighborId =>
        if acc.1 then acc
        else if neighborId ∉ acc.2 then dfsCycle adj fuel neighborId acc.2 stack
        else if neighborId ∈ stack then (true, acc.2)
        else acc)
      (false, visited)

/-- Source: DependencyGraph.hasCycles.  The outer loop runs the DFS from
every not-yet-visited node. -/
def hasCycles (g : DependencyGraph) : Bool :=
  (nodeIds g |>.foldl
    (fun acc nodeId =>
      if acc.1 then acc
      else if nodeId ∈ acc.2 then acc
      else dfsCycle g.adjacencyList ((nodeIds g).length + 1) nodeId acc.2 [])
    ((false, []) : Bool × List String)).1

/-- DFS of getCycle.  The recursion stack is an ordered list (push on
entry, pop on exit); a repeated neighbour yields the stack slice from
its first occurrence.  The parent map of the source is dead state
(never read for the result) and is omitted. -/
def dfsPath (adj : List (String × List String)) :
    Nat → String → List String → List String → Option (List String) × List String
  | 0, _, visited, _ => (none, visited)
  | fuel + 1, nodeId, visited, stack =>
    let visited := slAdd visited nodeId
    let stack := stack ++ [nodeId]
    (alGetD adj nodeId []).foldl
      (fun acc neighborId =>
        match acc.1 with
        | some _ => acc
        | none =>
          if neighborId ∉ acc.2 then dfsPath adj fuel neighborId acc.2 stack
          else if neighborId ∈ stack then
            (some (stack.drop (stack.indexOf neighborId)), acc.2)
          else acc)
      (none, visited)

/-- Source: DependencyGraph.getCycle. -/
def getCycle (g : DependencyGraph) : Option (List String) :=
  (nodeIds g |>.foldl
    (fun acc nodeId =>
      match acc.1 with
      | some _ => acc
      | none =>
        if nodeId ∈ acc.2 then acc
        else dfsPath g.adjacencyList ((nodeIds g).length + 1) nodeId acc.2 [])
    ((none, []) : Option (List String) × List String)).1

/-- Join a cycle with the arrow separator used by the source messages. -/
def joinArrow : List String → String
  | [] => ""
  | [x] => x
  | x :: rest => x ++ " → " ++ joinArrow rest

/-- Decrement step applied to each child when a node is dequeued by the
Kahn loop: update the child's in-degree and enqueue it when the new
degree reaches zero. -/
def kahnFoldF (acc : List (String × Int) × List String) (childId : String) :
    List (String × Int) × List String :=
  let newDegree := alGetD acc.1 childId 0 - 1
  (alSet acc.1 childId newDegree,
   if newDegree = 0 then acc.2 ++ [childId] else acc.2)

/-- Kahn loop of topologicalSort.  One iteration dequeues the head of
the queue, emits its work order, decrements the in-degrees of its
children, and enqueues children that reach zero.  Each node is enqueued
at most once (the tracked in-degree strictly decreases and passes zero
at most once), so nodes + 1 units of fuel always outlast the queue;
exhaustion returns the state unchanged. -/
def kahnLoop (adj : List (String × List String))
    (wos : List (String × WorkOrderDocument)) :
    Nat → List String → List (String × Int) → List WorkOrderDocument →
    List WorkOrderDocument × List String
  | 0, queue, _, result => (result, queue)
  | _ + 1, [], _, result => (result, [])
  | fuel + 1, nodeId :: queue, degrees, result =>
    match alGet wos nodeId with
    | none =>
      -- The source dereferences workOrders.get(nodeId)! unconditionally;
      -- queue members are always node ids, so this branch is unreachable.
      kahnLoop adj wos fuel queue degrees result
    | some workOrder =>
      let step := (alGetD adj nodeId []).foldl kahnFoldF (degrees, queue)
      kahnLoop adj wos fuel step.2 step.1 (result ++ [workOrder])

/-- Error message of the defensive count check in topologicalSort. -/
def countErrMsg : String := "Cycle detected in dependency graph"

/-- Source: DependencyGraph.topologicalSort (Kahn's algorithm). -/
def topologicalSort (g : DependencyGraph) : Except String (List WorkOrderDocument) :=
  if hasCycles g then
    .error ("Circular dependency detected: " ++ joinArrow ((getCycle g).getD [])
      ++ ". Cannot create valid schedule.")
  else
    let queue := (g.inDegree.filter (fun p => p.2 = 0)).map (fun p => p.1)
    let run := kahnLoop g.adjacencyList g.workOrders (g.workOrders.length + 1)
      queue g.inDegree []
    if run.1.length ≠ g.workOrders.length then .error countErrMsg
    else .ok run.1

/-- Source: DependencyGraph.getParents. -/
def getParents (g : DependencyGraph) (workOrderId : String) :
    Except String (List WorkOrderDocument) :=
  match alGet g.workOrders workOrderId with
  | none => .error ("Work order " ++ workOrderId ++ " not found")
  | some workOrder =>
    .ok (workOrder.data.dependsOnWorkOrderIds.filterMap (alGet g.workOrders))

/-- Convenience: build the graph and topologically sort, mirroring the
construct-then-sort usage of the callers. -/
def topologicalSortOf (workOrders : List WorkOrderDocument) :
    Except String (List WorkOrderDocument) := do
  let g ← buildGraph workOrders
  topologicalSort g

end DependencyGraph

/-- Violation tags from reflow/types.ts. -/
inductive ViolationType where
  | WORK_CENTER_OVERLAP
  | DEPENDENCY_NOT_MET
  | OUTSIDE_SHIFT
  | DURING_MAINTENANCE
deriving DecidableEq, Repr

/-- Constraint violation record (structured details are represented by
the fields the claims inspect; the message mirrors the source text). -/
structure ConstraintViolation where
  type : ViolationType
  workOrderId : String
  message : String
deriving DecidableEq, Repr

/-- Build a document Map keyed by docId (Map constructor semantics:
later duplicate keys overwrite earlier ones). -/
def mkWcMap (workCenters : List WorkCenterDocument) : List (String × WorkCenterDocument) :=
  workCenters.foldl (fun m wc => alSet m wc.docId wc) []

namespace ConstraintChecker

/-- Grouping step of checkWorkCenterConflicts: group work orders by work
center id, preserving encounter order of both keys and members. -/
def byWorkCenter (workOrders : List WorkOrderDocument) :
    List (String × List WorkOrderDocument) :=
  workOrders.foldl
    (fun m wo => alSet m wo.data.workCenterId (alGetD m wo.data.workCenterId [] ++ [wo]))
    []

/-- Comparator of the sort in checkWorkCenterConflicts (ascending start
date).  The JavaScript numeric comparator yields a stable ascending
sort; the model uses the stable structural insertion sort. -/
def startLe (a b : WorkOrderDocument) : Prop :=
  a.data.startDate ≤ b.data.startDate

instance : DecidableRel startLe := fun a b => Nat.decLe _ _

instance : IsTotal WorkOrderDocument startLe :=
  ⟨fun a b => Nat.le_total a.data.startDate b.data.startDate⟩

instance : IsTrans WorkOrderDocument startLe :=
  ⟨fun _ _ _ hab hbc => Nat.le_trans hab hbc⟩

/-- Source: ConstraintChecker.checkWorkCenterConflicts.  Per work
center, sort by start date and test each consecutive pair. -/
def checkWorkCenterConflicts (workOrders : List WorkOrderDocument)
    (workCenterMap : List (String × WorkCenterDocument)) : List ConstraintViolation :=
  (byWorkCenter workOrders).foldl
    (fun acc entry =>
      let workCenterName :=
        match alGet workCenterMap entry.1 with
        | some wc => wc.data.name
        | none => entry.1
      let sorted := entry.2.insertionSort startLe
      acc ++ (sorted.zip sorted.tail).filterMap
        (fun pr =>
          if DateUtils.timePeriodsOverlap pr.1.data.startDate pr.1.data.endDate
              pr.2.data.startDate pr.2.data.endDate then
            some { type := .WORK_CENTER_OVERLAP
                   workOrderId := pr.2.docId
                   message := "Work order " ++ pr.2.data.workOrderNumber
                     ++ " overlaps with " ++ pr.1.data.workOrderNumber
                     ++ " on work center " ++ workCenterName }
          else none))
    []

/-- Source: ConstraintChecker.checkDependencies.  Builds a dependency
graph (which fails on unknown parent ids, propagating as an exception)
and flags every parent whose end exceeds the child start. -/
def checkDependencies (workOrders : List WorkOrderDocument) :
    Except String (List ConstraintViolation) := do
  let dag ← DependencyGraph.buildGraph workOrders
  workOrders.foldlM
    (fun acc wo => do
      let parents ← DependencyGraph.getParents dag wo.docId
      .ok (acc ++ parents.filterMap
        (fun parent =>
          if parent.data.endDate > wo.data.startDate then
            some { type := .DEPENDENCY_NOT_MET
                   workOrderId := wo.docId
                   message := "Work order " ++ wo.data.workOrderNumber
                     ++ " starts before its dependency "
                     ++ parent.data.workOrderNumber ++ " completes" }
          else none)))
    []

/-- Source: ConstraintChecker.checkShiftBoundaries. -/
def checkShiftBoundaries (workOrders : List WorkOrderDocument)
    (workCenterMap : List (String × WorkCenterDocument)) : List ConstraintViolation :=
  workOrders.foldl
    (fun acc wo =>
      match alGet workCenterMap wo.data.workCenterId with
      | none => acc
      | some workCenter =>
        let shifts := workCenter.data.shifts
        let acc :=
          if DateUtils.isDuringShift wo.data.startDate shifts then acc
          else acc ++ [{ type := .OUTSIDE_SHIFT, workOrderId := wo.docId
                         message := "Work order " ++ wo.data.workOrderNumber
                           ++ " starts outside shift hours" }]
        if DateUtils.isDuringShift wo.data.endDate shifts then acc
        else acc ++ [{ type := .OUTSIDE_SHIFT, workOrderId := wo.docId
                       message := "Work order " ++ wo.data.workOrderNumber
                         ++ " ends outside shift hours" }])
    []

/-- Source: ConstraintChecker.checkMaintenanceConflicts. -/
def checkMaintenanceConflicts (workOrders : List WorkOrderDocument)
    (workCenterMap : List (String × WorkCenterDocument)) : List ConstraintViolation :=
  workOrders.foldl
    (fun acc wo =>
      match alGet workCenterMap wo.data.workCenterId with
      | none => acc
      | some workCenter =>
        if DateUtils.overlapsMaintenance wo.data.startDate wo.data.endDate
            workCenter.data.maintenanceWindows then
          acc ++ [{ type := .DURING_MAINTENANCE, workOrderId := wo.docId
                    message := "Work order " ++ wo.data.workOrderNumber
                      ++ " is scheduled during maintenance window" }]
        else acc)
    []

/-- Source: ConstraintChecker.validate — the four passes concatenated in
order. -/
def validate (workOrders : List WorkOrderDocument)
    (workCenters : List WorkCenterDocument) : Except String (List ConstraintViolation) := do
  let workCenterMap := mkWcMap workCenters
  let conflicts := checkWorkCenterConflicts workOrders workCenterMap
  let deps ← checkDependencies workOrders
  let shifts := checkShiftBoundaries workOrders workCenterMap
  let maint := checkMaintenanceConflicts workOrders workCenterMap
  .ok (conflicts ++ deps ++ shifts ++ maint)

end ConstraintChecker

/-- Change record from reflow/types.ts. -/
structure WorkOrderChange where
  workOrderId : String
  workOrderNumber : String
  field : String
  oldValue : Nat
  newValue : Nat
  delayMinutes : Int
  reason : String
deriving DecidableEq, Repr

/-- Result record from reflow/types.ts. -/
structure ReflowResult where
  updatedWorkOrders : List WorkOrderDocument
  changes : List WorkOrderChange
  explanation : String
  isValid : Bool
  violations : List String
deriving DecidableEq, Repr

/-- Input record from reflow/types.ts.  The manufacturingOrders list is
carried through by the source but never consulted, so it is omitted. -/
structure ReflowInput where
  workOrders : List WorkOrderDocument
  workCenters : List WorkCenterDocument
deriving DecidableEq, Repr

namespace ReflowService

/-- Join with a comma separator. -/
def joinComma : List String → String
  | [] => ""
  | [x] => x
  | x :: rest => x ++ ", " ++ joinComma rest

/-- Join with a semicolon separator. -/
def joinSemi : List String → String
  | [] => ""
  | [x] => x
  | x :: rest => x ++ "; " ++ joinSemi rest

/-- Source: ReflowService.getChangeReason.  The source re-samples
DateTime.utc here; the embedding threads the single sampled now. -/
def getChangeReason (parents : List WorkOrderDocument) (wcAvailable now : Nat) : String :=
  let reasons :=
    (if parents.length > 0 then
      ["waiting for dependencies: " ++ joinComma (parents.map (fun p => p.data.workOrderNumber))]
     else [])
    ++ (if wcAvailable > now then ["work center occupied"] else [])
  if reasons.length > 0 then joinSemi reasons else "optimizing schedule"

/-- Scheduling state threaded through the main pass: updated work
orders so far, change log so far, and the per-work-center availability
map. -/
def SchedState : Type :=
  List WorkOrderDocument × List WorkOrderChange × List (String × Nat)

/-- Availability initialisation of step 4 of reflow: each work center
starts at its first shift start strictly after now. -/
def initAvailability (now : Nat) : List WorkCenterDocument → List (String × Nat) →
    Except String (List (String × Nat))
  | [], m => .ok m
  | wc :: rest, m => do
    let nextShift ← DateUtils.findNextShiftStart now wc.data.shifts
    initAvailability now rest (alSet m wc.docId nextShift)

/-- One iteration of step 5 of reflow: schedule a single work order. -/
def scheduleStep (dag : DependencyGraph) (workCenterMap : List (String × WorkCenterDocument))
    (now : Nat) (st : SchedState) (workOrder : WorkOrderDocument) :
    Except String SchedState := do
  let (updatedWorkOrders, changes, availability) := st
  if workOrder.data.isMaintenance then
    .ok (updatedWorkOrders ++ [workOrder], changes, availability)
  else do
    let workCenter ←
      match alGet workCenterMap workOrder.data.workCenterId with
      | some wc => Except.ok wc
      | none => Except.error ("Work center " ++ workOrder.data.workCenterId ++ " not found")
    let parents ← DependencyGraph.getParents dag workOrder.docId
    let parentEndTimes := parents.map (fun p =>
      match updatedWorkOrders.find? (fun u => u.docId == p.docId) with
      | some updated => updated.data.endDate
      | none => p.data.endDate)
    let parentEndTimes := if parentEndTimes.isEmpty then [0] else parentEndTimes
    let wcAvailable := alGetD availability workCenter.docId now
    let newStartDate ← DateUtils.getEarliestStartTime parentEndTimes wcAvailable
      workCenter.data.shifts
    let newEndDate ← DateUtils.calculateEndDate newStartDate workOrder.data.durationMinutes
      workCenter.data.shifts workCenter.data.maintenanceWindows
    let availability := alSet availability workCenter.docId newEndDate
    let updatedWorkOrder : WorkOrderDocument :=
      { workOrder with data :=
          { workOrder.data with startDate := newStartDate, endDate := newEndDate } }
    let changes :=
      if workOrder.data.startDate ≠ newStartDate ∨ workOrder.data.endDate ≠ newEndDate then
        let delayMinutes : Int := (newStartDate : Int) - (workOrder.data.startDate : Int)
        let reason := getChangeReason parents wcAvailable now
        changes
          ++ [{ workOrderId := workOrder.docId
                workOrderNumber := workOrder.data.workOrderNumber
                field := "startDate", oldValue := workOrder.data.startDate
                newValue := newStartDate, delayMinutes := delayMinutes, reason := reason }]
          ++ [{ workOrderId := workOrder.docId
                workOrderNumber := workOrder.data.workOrderNumber
                field := "endDate", oldValue := workOrder.data.endDate
                newValue := newEndDate, delayMinutes := delayMinutes, reason := reason }]
      else changes
    .ok (updatedWorkOrders ++ [updatedWorkOrder], changes, availability)

/-- Main loop of step 5 of reflow over the topologically ordered work
orders. -/
def scheduleLoop (dag : DependencyGraph) (workCenterMap : List (String × WorkCenterDocument))
    (now : Nat) : List WorkOrderDocument → SchedState → Except String SchedState
  | [], st => .ok st
  | workOrder :: rest, st => do
    let st ← scheduleStep dag workCenterMap now st workOrder
    scheduleLoop dag workCenterMap now rest st

/-- Source: ReflowService.generateExplanation. -/
def generateExplanation (totalOrders changedOrders : Nat) (isValid : Bool)
    (violations : List ConstraintViolation) : String :=
  let base := "Reflow completed: " ++ toString totalOrders ++ " work orders processed.\n"
    ++ toString changedOrders ++ " work orders rescheduled.\n"
  if isValid then base ++ "✓ Schedule is valid - all constraints satisfied.\n"
  else base ++ "✗ Schedule has " ++ toString violations.length ++ " constraint violations.\n"
    ++ joinSemi ((violations.take 5).map (fun v => v.message))

/-- Body of ReflowService.reflow up to its try/catch: any raised error
propagates as Except.error. -/
def reflowPipeline (input : ReflowInput) (now : Nat) : Except String ReflowResult := do
  let dag ← DependencyGraph.buildGraph input.workOrders
  if DependencyGraph.hasCycles dag then
    let cycle := (DependencyGraph.getCycle dag).getD []
    .ok { updatedWorkOrders := [], changes := []
          explanation := "Cannot create valid schedule: Circular dependency detected ("
            ++ DependencyGraph.joinArrow cycle ++ ")"
          isValid := false
          violations := ["Circular dependency: " ++ DependencyGraph.joinArrow cycle] }
  else do
    let orderedWorkOrders ← DependencyGraph.topologicalSort dag
    let workCenterMap := mkWcMap input.workCenters
    let availability ← initAvailability now input.workCenters []
    let st ← scheduleLoop dag workCenterMap now orderedWorkOrders ([], [], availability)
    let (updatedWorkOrders, changes, _) := st
    let violations ← ConstraintChecker.validate updatedWorkOrders input.workCenters
    let isValid := violations.length = 0
    let explanation := generateExplanation input.workOrders.length (changes.length / 2)
      isValid violations
    .ok { updatedWorkOrders := updatedWorkOrders, changes := changes
          explanation := explanation, isValid := isValid
          violations := violations.map (fun v => v.message) }

/-- Source: ReflowService.reflow.  The time source (DateTime.utc, read
once when availability is initialised) is the explicit now parameter.
The catch-all converts any internal failure into an invalid empty
result. -/
def reflow (input : ReflowInput) (now : Nat) : ReflowResult :=
  match reflowPipeline input now with
  | .ok result => result
  | .error e =>
    { updatedWorkOrders := [], changes := []
      explanation := "Reflow failed: " ++ e
      isValid := false
      violations := [e] }

end ReflowService

/-! ## Basic lemmas about the time model and the Map and Set models -/

theorem minutesPerDay_pos : 0 < minutesPerDay := by decide

theorem dayOf_mul_add (d r : Nat) (h : r < minutesPerDay) :
    dayOf (d * minutesPerDay + r) = d := by
  simp only [dayOf, minutesPerDay] at *
  omega

theorem lt_nextDayStart (t : Nat) : t < nextDayStart t := by
  simp only [nextDayStart, dayOf, minutesPerDay]
  omega

theorem dayOf_nextDayStart (t : Nat) : dayOf (nextDayStart t) = dayOf t + 1 := by
  simp only [nextDayStart, dayOf, minutesPerDay]
  omega

theorem dayStartOf_le (t : Nat) : dayStartOf t ≤ t := by
  simp only [dayStartOf, dayOf, minutesPerDay]
  omega

theorem dayStartOf_nextDayStart (t : Nat) : dayStartOf (nextDayStart t) = nextDayStart t := by
  simp only [dayStartOf, nextDayStart, dayOf, minutesPerDay]
  omega

deriving instance DecidableEq for Except

theorem alGet_alSet_self {α : Type} (l : List (String × α)) (k : String) (v : α) :
    alGet (alSet l k v) k = some v := by
  induction l with
  | nil => simp [alSet, alGet]
  | cons p rest ih =>
    by_cases h : p.1 = k
    · simp [alSet, h, alGet]
    · simp [alSet, h, alGet, ih]

theorem alGet_alSet_ne {α : Type} (l : List (String × α)) (k k' : String) (v : α)
    (h : k' ≠ k) : alGet (alSet l k v) k' = alGet l k' := by
  induction l with
  | nil => simp [alSet, alGet, Ne.symm h]
  | cons p rest ih =>
    by_cases hp : p.1 = k
    · subst hp
      simp [alSet, alGet, Ne.symm h]
    · by_cases hp' : p.1 = k'
      · simp [alSet, hp, alGet, hp', h]
      · simp [alSet, hp, alGet, hp', ih]

theorem alSet_keys_mem {α : Type} (l : List (String × α)) (k : String) (v : α)
    (h : k ∈ l.map Prod.fst) : (alSet l k v).map Prod.fst = l.map Prod.fst := by
  induction l with
  | nil => simp at h
  | cons p rest ih =>
    by_cases hp : p.1 = k
    · simp [alSet, hp]
    · simp only [List.map_cons, List.mem_cons] at h
      rcases h with h | h
      · exact absurd h.symm hp
      · simp [alSet, hp, ih h]

theorem alSet_keys_not_mem {α : Type} (l : List (String × α)) (k : String) (v : α)
    (h : k ∉ l.map Prod.fst) : (alSet l k v).map Prod.fst = l.map Prod.fst ++ [k] := by
  induction l with
  | nil => simp [alSet]
  | cons p rest ih =>
    simp only [List.map_cons, List.mem_cons] at h
    push_neg at h
    simp [alSet, Ne.symm h.1, ih h.2]

theorem alGet_eq_none_of_not_mem {α : Type} (l : List (String × α)) (k : String)
    (h : k ∉ l.map Prod.fst) : alGet l k = none := by
  induction l with
  | nil => rfl
  | cons p rest ih =>
    simp only [List.map_cons, List.mem_cons] at h
    push_neg at h
    simp [alGet, Ne.symm h.1, ih h.2]

theorem alGet_isSome_of_mem {α : Type} (l : List (String × α)) (k : String)
    (h : k ∈ l.map Prod.fst) : (alGet l k).isSome := by
  induction l with
  | nil => simp at h
  | cons p rest ih =>
    by_cases hp : p.1 = k
    · simp [alGet, hp]
    · simp only [List.map_cons, List.mem_cons] at h
      rcases h with h | h
      · exact absurd h.symm hp
      · simp [alGet, hp, ih h]

theorem mem_slAdd (s : List String) (x y : String) :
    y ∈ slAdd s x ↔ y ∈ s ∨ y = x := by
  unfold slAdd
  split
  · next h => constructor
              · exact fun hy => Or.inl hy
              · rintro (hy | rfl)
                · exact hy
                · exact h
  · simp

theorem slAdd_nodup (s : List String) (x : String) (h : s.Nodup) : (slAdd s x).Nodup := by
  unfold slAdd
  split
  · exact h
  · next hx => simpa [List.nodup_append, h] using hx

theorem slAdd_subset (s : List String) (x : String) : s ⊆ slAdd s x := by
  intro y hy
  exact (mem_slAdd s x y).mpr (Or.inl hy)

namespace DateUtils

theorem findLoop_lt (shifts : List Shift) :
    ∀ (fuel current r : Nat), findLoop shifts fuel current = .ok r → current < r := by
  intro fuel
  induction fuel with
  | zero => intro c r h; simp [findLoop] at h
  | succ f ih =>
    intro c r h
    rw [findLoop] at h
    cases hs : getShiftForDay (jsWeekdayOf c) shifts with
    | some sh =>
      rw [hs] at h
      simp only at h
      split at h
      · next hgt => cases h; exact hgt
      · exact Nat.lt_trans (lt_nextDayStart c) (ih _ _ h)
    | none =>
      rw [hs] at h
      exact Nat.lt_trans (lt_nextDayStart c) (ih _ _ h)

theorem findNextShiftStart_lt (fromDate : Nat) (shifts : List Shift) (r : Nat)
    (h : findNextShiftStart fromDate shifts = .ok r) : fromDate < r :=
  findLoop_lt shifts 30 fromDate r h

theorem calcLoop_le (shifts : List Shift) (mws : List MaintenanceWindow) :
    ∀ (fuel current remaining r : Nat),
      calcLoop shifts mws fuel current remaining = .ok r → current ≤ r := by
  intro fuel
  induction fuel with
  | zero => intro c rem r h; simp [calcLoop] at h
  | succ f ih =>
    intro c rem r h
    rw [calcLoop] at h
    cases hs : getShiftForDay (jsWeekdayOf c) shifts with
    | none =>
      rw [hs] at h
      exact Nat.le_trans (Nat.le_of_lt (lt_nextDayStart c)) (ih _ _ _ h)
    | some sh =>
      rw [hs] at h
      simp only at h
      split at h
      · exact Nat.le_trans (Nat.le_of_lt (lt_nextDayStart c)) (ih _ _ _ h)
      · split at h
        · exact Nat.le_trans (Nat.le_of_lt (lt_nextDayStart c)) (ih _ _ _ h)
        · split at h
          · exact Nat.le_trans (Nat.le_of_lt (lt_nextDayStart c)) (ih _ _ _ h)
          · split at h
            · exact absurd h (by simp)
            · cases h
              exact Nat.le_trans (Nat.le_max_left _ _) (Nat.le_add_right _ _)

theorem calculateEndDate_le (startDate durationMinutes : Nat) (shifts : List Shift)
    (mws : List MaintenanceWindow) (r : Nat)
    (h : calculateEndDate startDate durationMinutes shifts mws = .ok r) :
    startDate ≤ r := by
  unfold calculateEndDate at h
  split at h
  · cases h; exact Nat.le_refl _
  · exact calcLoop_le shifts mws 365 _ _ _ h

theorem latestFold_ge_init (xs : List Nat) (a : Nat) :
    a ≤ xs.foldl (fun latest current => if current > latest then current else latest) a := by
  induction xs generalizing a with
  | nil => exact Nat.le_refl _
  | cons x rest ih =>
    simp only [List.foldl_cons]
    split
    · next hgt => exact Nat.le_trans (Nat.le_of_lt hgt) (ih x)
    · exact ih a

theorem latestFold_ge_mem (xs : List Nat) (a x : Nat) (hx : x ∈ xs) :
    x ≤ xs.foldl (fun latest current => if current > latest then current else latest) a := by
  induction xs generalizing a with
  | nil => simp at hx
  | cons y rest ih =>
    simp only [List.mem_cons] at hx
    simp only [List.foldl_cons]
    rcases hx with rfl | hx
    · split
      · next => exact latestFold_ge_init rest x
      · next hle =>
        exact Nat.le_trans (Nat.le_of_not_lt hle) (latestFold_ge_init rest a)
    · exact ih _ hx

theorem snapToShift_ge (earliestPossible : Nat) (shifts : List Shift) (r : Nat)
    (h : snapToShift earliestPossible shifts = .ok r) : earliestPossible ≤ r := by
  unfold snapToShift at h
  cases hs : getShiftForDay (jsWeekdayOf earliestPossible) shifts with
  | none =>
    rw [hs] at h
    exact Nat.le_of_lt (findNextShiftStart_lt _ _ _ h)
  | some sh =>
    rw [hs] at h
    simp only at h
    split at h
    · next hlt => cases h; exact Nat.le_of_lt hlt
    · split at h
      · cases h; exact Nat.le_refl _
      · exact Nat.le_of_lt (findNextShiftStart_lt _ _ _ h)

theorem getEarliestStartTime_ge (parentEndTimes : List Nat) (wcAvailable : Nat)
    (shifts : List Shift) (r : Nat)
    (h : getEarliestStartTime parentEndTimes wcAvailable shifts = .ok r) :
    wcAvailable ≤ r ∧ ∀ x ∈ parentEndTimes, x ≤ r := by
  unfold getEarliestStartTime at h
  have hsnap := snapToShift_ge _ _ _ h
  constructor
  · exact Nat.le_trans (Nat.le_max_left _ _) hsnap
  · intro x hx
    exact Nat.le_trans (Nat.le_trans (latestFold_ge_mem _ _ _ hx) (Nat.le_max_right _ _)) hsnap

end DateUtils

namespace DateUtils

theorem getShiftForDay_mem {w : Nat} {shifts : List Shift} {sh : Shift}
    (h : getShiftForDay w shifts = some sh) : sh ∈ shifts :=
  List.mem_of_find?_eq_some h

/-- Shift-start instants strictly after a given instant on the days
startDay, startDay + 1, ..., startDay + horizon - 1: the instants the
30-day scan of findNextShiftStart ranges over.  On each day the shift
in force is the first table entry for that weekday (at most one shift
per weekday in this model). -/
def candScan (shifts : List Shift) (fromDate : Nat) : Nat → Nat → List Nat
  | _, 0 => []
  | startDay, horizon + 1 =>
    (match getShiftForDay ((startDay + 4) % 7) shifts with
     | some sh =>
       if fromDate < startDay * minutesPerDay + sh.startHour * 60 then
         [startDay * minutesPerDay + sh.startHour * 60]
       else []
     | none => [])
    ++ candScan shifts fromDate (startDay + 1) horizon

/-- Shift-start instants strictly after fromDate within the 30-day scan
horizon of findNextShiftStart. -/
def nextShiftCandidates (fromDate : Nat) (shifts : List Shift) : List Nat :=
  candScan shifts fromDate (dayOf fromDate) 30

theorem candScan_gt (shifts : List Shift) (fromDate : Nat) :
    ∀ (startDay horizon : Nat), ∀ x ∈ candScan shifts fromDate startDay horizon,
      fromDate < x := by
  intro startDay horizon
  induction horizon generalizing startDay with
  | zero => intro x hx; simp [candScan] at hx
  | succ h ih =>
    intro x hx
    rw [candScan] at hx
    rcases List.mem_append.mp hx with hx | hx
    · cases hs : getShiftForDay ((startDay + 4) % 7) shifts with
      | none => rw [hs] at hx; simp at hx
      | some sh =>
        rw [hs] at hx
        simp only at hx
        split at hx
        · next hlt => rw [List.mem_singleton] at hx; subst hx; exact hlt
        · simp at hx
    · exact ih (startDay + 1) x hx

theorem candScan_ge_day (shifts : List Shift) (fromDate : Nat) :
    ∀ (startDay horizon : Nat), ∀ x ∈ candScan shifts fromDate startDay horizon,
      startDay * minutesPerDay ≤ x := by
  intro startDay horizon
  induction horizon generalizing startDay with
  | zero => intro x hx; simp [candScan] at hx
  | succ h ih =>
    intro x hx
    rw [candScan] at hx
    rcases List.mem_append.mp hx with hx | hx
    · cases hs : getShiftForDay ((startDay + 4) % 7) shifts with
      | none => rw [hs] at hx; simp at hx
      | some sh =>
        rw [hs] at hx
        simp only at hx
        split at hx
        · rw [List.mem_singleton] at hx; subst hx; exact Nat.le_add_right _ _
        · simp at hx
    · calc startDay * minutesPerDay ≤ (startDay + 1) * minutesPerDay := by
            exact Nat.mul_le_mul_right _ (Nat.le_succ _)
        _ ≤ x := ih (startDay + 1) x hx

end DateUtils

namespace DateUtils

theorem candScan_congr (shifts : List Shift)
    (hH : ∀ sh ∈ shifts, 1 ≤ sh.startHour ∧ sh.startHour < 24) :
    ∀ (horizon startDay c c' : Nat), c ≤ startDay * minutesPerDay →
      c' ≤ startDay * minutesPerDay →
      candScan shifts c startDay horizon = candScan shifts c' startDay horizon := by
  intro horizon
  induction horizon with
  | zero => intro startDay c c' _ _; rfl
  | succ h ih =>
    intro startDay c c' hc hc'
    rw [candScan, candScan]
    have htail := ih (startDay + 1) c c'
      (Nat.le_trans hc (Nat.mul_le_mul_right _ (Nat.le_succ _)))
      (Nat.le_trans hc' (Nat.mul_le_mul_right _ (Nat.le_succ _)))
    cases hs : getShiftForDay ((startDay + 4) % 7) shifts with
    | none => rw [htail]
    | some sh =>
      have hsh := hH sh (getShiftForDay_mem hs)
      have hgt : startDay * minutesPerDay < startDay * minutesPerDay + sh.startHour * 60 := by
        have : 1 ≤ sh.startHour := hsh.1
        omega
      simp only
      rw [if_pos (Nat.lt_of_le_of_lt hc hgt), if_pos (Nat.lt_of_le_of_lt hc' hgt), htail]

theorem findLoop_spec (shifts : List Shift)
    (hH : ∀ sh ∈ shifts, 1 ≤ sh.startHour ∧ sh.startHour < 24) :
    ∀ (fuel current : Nat),
      (∀ r, findLoop shifts fuel current = .ok r →
        r ∈ candScan shifts current (dayOf current) fuel ∧
        ∀ x ∈ candScan shifts current (dayOf current) fuel, r ≤ x) ∧
      (∀ e, findLoop shifts fuel current = .error e →
        candScan shifts current (dayOf current) fuel = [] ∧ e = noShiftMsg) := by
  intro fuel
  induction fuel with
  | zero =>
    intro c
    constructor
    · intro r h; simp [findLoop] at h
    · intro e h
      rw [findLoop] at h
      cases h
      exact ⟨rfl, rfl⟩
  | succ f ih =>
    intro c
    have hnext : dayOf (nextDayStart c) = dayOf c + 1 := dayOf_nextDayStart c
    have hcle : c ≤ (dayOf c + 1) * minutesPerDay := Nat.le_of_lt (lt_nextDayStart c)
    have hnle : nextDayStart c ≤ (dayOf c + 1) * minutesPerDay := Nat.le_refl _
    have hswap : candScan shifts (nextDayStart c) (dayOf c + 1) f
        = candScan shifts c (dayOf c + 1) f :=
      candScan_congr shifts hH f (dayOf c + 1) (nextDayStart c) c hnle hcle
    constructor
    · intro r h
      rw [findLoop] at h
      cases hs : getShiftForDay (jsWeekdayOf c) shifts with
      | some sh =>
        rw [hs] at h
        have hsh := hH sh (getShiftForDay_mem hs)
        have hweek : ((dayOf c + 4) % 7) = jsWeekdayOf c := rfl
        simp only at h
        split at h
        · next hgt =>
          cases h
          rw [candScan, hweek, hs]
          rw [show dayOf c * minutesPerDay = dayStartOf c from rfl]
          simp only [if_pos hgt]
          constructor
          · exact List.mem_append.mpr (Or.inl (List.mem_singleton.mpr rfl))
          · intro x hx
            rcases List.mem_append.mp hx with hx | hx
            · rw [List.mem_singleton] at hx
              exact Nat.le_of_eq hx.symm
            · have hge := candScan_ge_day shifts c (dayOf c + 1) f x hx
              have : dayStartOf c + sh.startHour * 60 < (dayOf c + 1) * minutesPerDay := by
                have h24 : sh.startHour < 24 := hsh.2
                simp only [dayStartOf, minutesPerDay] at *
                omega
              exact Nat.le_trans (Nat.le_of_lt this) hge
        · next hgt =>
          have := ((ih (nextDayStart c)).1 r h)
          rw [hnext, hswap] at this
          rw [candScan, hweek, hs]
          rw [show dayOf c * minutesPerDay = dayStartOf c from rfl]
          simp only [if_neg hgt, List.nil_append]
          exact this
      | none =>
        rw [hs] at h
        have := ((ih (nextDayStart c)).1 r h)
        rw [hnext, hswap] at this
        have hweek : ((dayOf c + 4) % 7) = jsWeekdayOf c := rfl
        rw [candScan, hweek, hs]
        simpa using this
    · intro e h
      rw [findLoop] at h
      cases hs : getShiftForDay (jsWeekdayOf c) shifts with
      | some sh =>
        rw [hs] at h
        have hweek : ((dayOf c + 4) % 7) = jsWeekdayOf c := rfl
        simp only at h
        split at h
        · cases h
        · next hgt =>
          have := ((ih (nextDayStart c)).2 e h)
          rw [hnext, hswap] at this
          rw [candScan, hweek, hs]
          rw [show dayOf c * minutesPerDay = dayStartOf c from rfl]
          simp only [if_neg hgt, List.nil_append]
          exact this
      | none =>
        rw [hs] at h
        have := ((ih (nextDayStart c)).2 e h)
        rw [hnext, hswap] at this
        have hweek : ((dayOf c + 4) % 7) = jsWeekdayOf c := rfl
        rw [candScan, hweek, hs]
        simpa using this

end DateUtils

/-! ## Claim C1: the maintenance-fragmentation example -/

/-- Monday-to-Friday 08:00 to 17:00 shift table used by the repository
test scenarios. -/
def weekdayShifts : List Shift :=
  [⟨1, 8, 17⟩, ⟨2, 8, 17⟩, ⟨3, 8, 17⟩, ⟨4, 8, 17⟩, ⟨5, 8, 17⟩]

/-- Start of the C1 example: Wednesday 2025-01-15 (epoch day 20103) at
08:00, a day with an 08:00 to 17:00 shift. -/
def c1start : Nat := mkInstant 20103 8 0

/-- Maintenance window of the C1 example: 10:00 to 14:00 on the same
Wednesday. -/
def c1maintenance : List MaintenanceWindow :=
  [⟨mkInstant 20103 10 0, mkInstant 20103 14 0⟩]

/-- C1: the claim states that a 300-minute order starting 08:00 on an
08:00 to 17:00 shift day carrying a 10:00 to 14:00 maintenance window
completes at 15:00 the same day.  The code instead works 120 minutes up
to the maintenance start and then defers all remaining work to the next
day, so the result is not 15:00 on the start day. -/
theorem claimC1_counterexample :
    DateUtils.calculateEndDate c1start 300 weekdayShifts c1maintenance
      = .ok (mkInstant 20104 11 0) ∧ mkInstant 20104 11 0 ≠ mkInstant 20103 15 0 :=
  ⟨rfl, by decide⟩

/-- C1 (amended): the 300-minute order starting Wednesday 08:00 with a
10:00 to 14:00 maintenance window completes at 11:00 the NEXT day: 120
minutes run 08:00 to 10:00 before the window (a 120-minute order indeed
completes at 10:00), and the remaining 180 minutes are deferred to the
next shift day 08:00 to 11:00 (a 180-minute order starting Thursday
08:00 completes at 11:00); work never resumes after the maintenance
window on the same day. -/
theorem claimC1_theorem :
    DateUtils.calculateEndDate c1start 300 weekdayShifts c1maintenance
        = .ok (mkInstant 20104 11 0)
      ∧ DateUtils.calculateEndDate c1start 120 weekdayShifts c1maintenance
        = .ok (mkInstant 20103 10 0)
      ∧ DateUtils.calculateEndDate (mkInstant 20104 8 0) 180 weekdayShifts c1maintenance
        = .ok (mkInstant 20104 11 0) :=
  ⟨rfl, rfl, rfl⟩

/-! ## Claim C9: findNextShiftStart -/

/-- Shift table whose every entry starts at hour 0 (midnight), one per
weekday. -/
def zeroStartShifts : List Shift :=
  [⟨0, 0, 17⟩, ⟨1, 0, 17⟩, ⟨2, 0, 17⟩, ⟨3, 0, 17⟩, ⟨4, 0, 17⟩, ⟨5, 0, 17⟩, ⟨6, 0, 17⟩]

/-- C9: the claim states that findNextShiftStart fails if and only if no
shift-start instant strictly after the origin exists within the 30-day
horizon, for any shift table including startHour = 0.  With shifts that
start at hour 0, the next-day shift start (instant 1440, strictly after
instant 0 and well inside the horizon) exists, yet the scan compares
each day's shift start against that day's own midnight cursor, never
finds it strictly later, and fails. -/
theorem claimC9_counterexample :
    mkInstant 1 0 0 ∈ DateUtils.nextShiftCandidates 0 zeroStartShifts
      ∧ DateUtils.findNextShiftStart 0 zeroStartShifts = .error DateUtils.noShiftMsg :=
  ⟨by decide, rfl⟩

/-- C9 (amended): provided every shift starts at an hour between 1 and
23, findNextShiftStart returns the earliest shift-start instant strictly
after the origin whenever one exists within the 30-day scan horizon, and
fails with the no-shift-found error exactly when none exists.  Shift
starts at hour 0 coincide with the scanned day's midnight cursor and are
skipped, which is what the counterexample exhibits. -/
theorem claimC9_amended (fromDate : Nat) (shifts : List Shift)
    (hH : ∀ sh ∈ shifts, 1 ≤ sh.startHour ∧ sh.startHour < 24) :
    (∀ r, DateUtils.findNextShiftStart fromDate shifts = .ok r →
        r ∈ DateUtils.nextShiftCandidates fromDate shifts ∧
        ∀ x ∈ DateUtils.nextShiftCandidates fromDate shifts, r ≤ x)
      ∧ (∀ e, DateUtils.findNextShiftStart fromDate shifts = .error e →
        DateUtils.nextShiftCandidates fromDate shifts = [] ∧ e = DateUtils.noShiftMsg) :=
  DateUtils.findLoop_spec shifts hH 30 fromDate

/-- C9 witness: on the Monday-to-Friday 08:00 shift table, scanning from
Monday 09:00 returns Tuesday 08:00, which is the least candidate. -/
theorem claimC9_witness :
    mkInstant 20102 8 0 ∈ DateUtils.nextShiftCandidates (mkInstant 20101 9 0) weekdayShifts
      ∧ ∀ x ∈ DateUtils.nextShiftCandidates (mkInstant 20101 9 0) weekdayShifts,
        mkInstant 20102 8 0 ≤ x :=
  (claimC9_amended (mkInstant 20101 9 0) weekdayShifts (by decide)).1
    (mkInstant 20102 8 0) rfl

/-! ## Acyclicity of the depends-on relation (statement vocabulary) -/

/-- Dependency list of the work order carrying a given id (first match,
as a JavaScript Map built from the list would resolve it). -/
def depsOf (wos : List WorkOrderDocument) (v : String) : List String :=
  match wos.find? (fun wo => wo.docId == v) with
  | some wo => wo.data.dependsOnWorkOrderIds
  | none => []

/-- Ids reachable from v through 1 to n+1 depends-on steps. -/
def reachWithin (wos : List WorkOrderDocument) : Nat → String → List String
  | 0, v => depsOf wos v
  | n + 1, v => depsOf wos v ++ (depsOf wos v).flatMap (reachWithin wos n)

/-- The depends-on relation of a work-order list is acyclic: no id
reaches itself through a nonempty chain of at most length + 1 depends-on
steps (paths longer than the node count always revisit a node, so this
bound is exhaustive). -/
def AcyclicWos (wos : List WorkOrderDocument) : Prop :=
  ∀ wo ∈ wos, wo.docId ∉ reachWithin wos wos.length wo.docId

instance (wos : List WorkOrderDocument) : Decidable (AcyclicWos wos) :=
  List.decidableBAll _ wos

/-- Dissect a successful Except bind. -/
theorem exceptBind_ok {α β : Type} (x : Except String α) (f : α → Except String β) (b : β)
    (h : (x >>= f) = .ok b) : ∃ a, x = .ok a ∧ f a = .ok b := by
  cases x with
  | ok a => exact ⟨a, rfl, h⟩
  | error e => simp [Bind.bind, Except.bind] at h

namespace ReflowService

/-- Updated copy of a work order with fresh dates. -/
def withDates (wo : WorkOrderDocument) (s e : Nat) : WorkOrderDocument :=
  { wo with data := { wo.data with startDate := s, endDate := e } }

theorem withDates_self (wo : WorkOrderDocument) :
    withDates wo wo.data.startDate wo.data.endDate = wo := by
  cases wo with
  | mk docId data => cases data; rfl

/-- Parent end times resolved against the already-updated prefix. -/
def resolvedParentEnds (updated : List WorkOrderDocument)
    (parents : List WorkOrderDocument) : List Nat :=
  let parentEndTimes := parents.map (fun p =>
    match updated.find? (fun u => u.docId == p.docId) with
    | some u => u.data.endDate
    | none => p.data.endDate)
  if parentEndTimes.isEmpty then [0] else parentEndTimes

theorem scheduleStep_ok_cases (dag : DependencyGraph)
    (wcMap : List (String × WorkCenterDocument)) (now : Nat)
    (st : SchedState) (wo : WorkOrderDocument) (st' : SchedState)
    (h : scheduleStep dag wcMap now st wo = .ok st') :
    (wo.data.isMaintenance = true ∧ st' = (st.1 ++ [wo], st.2.1, st.2.2))
    ∨ (wo.data.isMaintenance = false ∧
       ∃ workCenter newStartDate newEndDate parents,
         alGet wcMap wo.data.workCenterId = some workCenter ∧
         DependencyGraph.getParents dag wo.docId = .ok parents ∧
         DateUtils.getEarliestStartTime (resolvedParentEnds st.1 parents)
           (alGetD st.2.2 workCenter.docId now) workCenter.data.shifts
           = .ok newStartDate ∧
         DateUtils.calculateEndDate newStartDate wo.data.durationMinutes
           workCenter.data.shifts workCenter.data.maintenanceWindows = .ok newEndDate ∧
         st'.1 = st.1 ++ [withDates wo newStartDate newEndDate] ∧
         st'.2.2 = alSet st.2.2 workCenter.docId newEndDate ∧
         (wo.data.startDate = newStartDate ∧ wo.data.endDate = newEndDate →
           st'.2.1 = st.2.1)) := by
  obtain ⟨updated, changes, availability⟩ := st
  rw [scheduleStep] at h
  simp only at h
  by_cases hm : wo.data.isMaintenance
  · rw [if_pos hm] at h
    cases h
    exact Or.inl ⟨hm, rfl⟩
  · rw [if_neg hm] at h
    refine Or.inr ⟨Bool.eq_false_iff.mpr hm, ?_⟩
    cases halg : alGet wcMap wo.data.workCenterId with
    | none =>
      rw [halg] at h
      simp [Bind.bind, Except.bind] at h
    | some wc =>
      rw [halg] at h
      obtain ⟨wc2, hwc2, h⟩ := exceptBind_ok _ _ _ h
      cases hwc2
      obtain ⟨parents, hpar, h⟩ := exceptBind_ok _ _ _ h
      obtain ⟨s, hs, h⟩ := exceptBind_ok _ _ _ h
      obtain ⟨e, he, h⟩ := exceptBind_ok _ _ _ h
      cases h
      refine ⟨wc, s, e, parents, rfl, hpar, ?_, he, rfl, rfl, ?_⟩
      · exact hs
      · intro hdates
        simp only [← hdates.1, ← hdates.2]
        rw [if_neg]
        simp
end ReflowService

namespace ReflowService

/-- Invariant-preservation combinator for the scheduling loop. -/
theorem scheduleLoop_inv {P : SchedState → Prop} (dag : DependencyGraph)
    (wcMap : List (String × WorkCenterDocument)) (now : Nat)
    (hstep : ∀ st wo st', P st → scheduleStep dag wcMap now st wo = .ok st' → P st') :
    ∀ (l : List WorkOrderDocument) (st st' : SchedState),
      scheduleLoop dag wcMap now l st = .ok st' → P st → P st' := by
  intro l
  induction l with
  | nil =>
    intro st st' h hP
    rw [scheduleLoop] at h
    cases h
    exact hP
  | cons wo rest ih =>
    intro st st' h hP
    rw [scheduleLoop] at h
    obtain ⟨st1, hst1, h⟩ := exceptBind_ok _ _ _ h
    exact ih st1 st' h (hstep st wo st1 hP hst1)

/-- Dissection of a successful run of the reflow pipeline. -/
theorem reflowPipeline_ok_cases (input : ReflowInput) (now : Nat) (r : ReflowResult)
    (h : reflowPipeline input now = .ok r) :
    ∃ dag, DependencyGraph.buildGraph input.workOrders = .ok dag ∧
      ((DependencyGraph.hasCycles dag = true ∧ r.updatedWorkOrders = [] ∧ r.changes = []
          ∧ r.isValid = false ∧ r.violations ≠ [])
       ∨ (DependencyGraph.hasCycles dag = false ∧
          ∃ ordered avail st violations,
            DependencyGraph.topologicalSort dag = .ok ordered ∧
            initAvailability now input.workCenters [] = .ok avail ∧
            scheduleLoop dag (mkWcMap input.workCenters) now ordered ([], [], avail)
              = .ok st ∧
            ConstraintChecker.validate st.1 input.workCenters = .ok violations ∧
            r.updatedWorkOrders = st.1 ∧ r.changes = st.2.1 ∧
            r.isValid = decide (violations.length = 0) ∧
            r.violations = violations.map (fun v => v.message))) := by
  rw [reflowPipeline] at h
  obtain ⟨dag, hdag, h⟩ := exceptBind_ok _ _ _ h
  refine ⟨dag, hdag, ?_⟩
  by_cases hcyc : DependencyGraph.hasCycles dag = true
  · rw [if_pos hcyc] at h
    cases h
    exact Or.inl ⟨hcyc, rfl, rfl, rfl, by simp⟩
  · rw [if_neg hcyc] at h
    refine Or.inr ⟨Bool.eq_false_iff.mpr hcyc, ?_⟩
    obtain ⟨ordered, hord, h⟩ := exceptBind_ok _ _ _ h
    obtain ⟨avail, havail, h⟩ := exceptBind_ok _ _ _ h
    obtain ⟨st, hst, h⟩ := exceptBind_ok _ _ _ h
    obtain ⟨u, c, av⟩ := st
    obtain ⟨viol, hviol, h⟩ := exceptBind_ok _ _ _ h
    cases h
    exact ⟨ordered, avail, (u, c, av), viol, hord, havail, hst, hviol, rfl, rfl, rfl, rfl⟩

end ReflowService

/-- Half-open same-work-center exclusivity between two scheduled
non-maintenance work orders. -/
def SameCenterNoOverlap (a b : WorkOrderDocument) : Prop :=
  a.data.workCenterId = b.data.workCenterId →
  a.data.isMaintenance = false → b.data.isMaintenance = false →
  ¬(a.data.startDate < b.data.endDate ∧ b.data.startDate < a.data.endDate)

theorem alGet_mem {α : Type} (l : List (String × α)) (k : String) (v : α)
    (h : alGet l k = some v) : (k, v) ∈ l := by
  induction l with
  | nil => simp [alGet] at h
  | cons p rest ih =>
    by_cases hp : p.1 = k
    · rw [alGet, if_pos hp] at h
      cases h
      subst hp
      exact List.mem_cons_self _ _
    · rw [alGet, if_neg hp] at h
      exact List.mem_cons_of_mem _ (ih h)

theorem mkWcMap_keyed (wcs : List WorkCenterDocument) :
    ∀ p ∈ mkWcMap wcs, p.2.docId = p.1 := by
  have main : ∀ (l : List WorkCenterDocument) (m : List (String × WorkCenterDocument)),
      (∀ p ∈ m, p.2.docId = p.1) →
      ∀ p ∈ l.foldl (fun m wc => alSet m wc.docId wc) m, p.2.docId = p.1 := by
    intro l
    induction l with
    | nil => intro m hm; exact hm
    | cons wc rest ih =>
      intro m hm
      apply ih
      intro p hp
      -- membership in alSet m wc.docId wc
      have : ∀ (mm : List (String × WorkCenterDocument)),
          (∀ q ∈ mm, q.2.docId = q.1) → ∀ q ∈ alSet mm wc.docId wc, q.2.docId = q.1 := by
        intro mm
        induction mm with
        | nil =>
          intro _ q hq
          simp only [alSet, List.mem_singleton] at hq
          subst hq
          rfl
        | cons pp rest2 ih2 =>
          intro hmm q hq
          rw [alSet] at hq
          split at hq
          · rcases List.mem_cons.mp hq with rfl | hq
            · rfl
            · exact hmm q (List.mem_cons_of_mem _ hq)
          · rcases List.mem_cons.mp hq with rfl | hq
            · exact hmm q (List.mem_cons_self _ _)
            · exact ih2 (fun q hq => hmm q (List.mem_cons_of_mem _ hq)) q hq
      exact this m hm p hp
  intro p hp
  exact main wcs [] (by simp) p hp

theorem mkWcMap_get_docId (wcs : List WorkCenterDocument) (k : String)
    (wc : WorkCenterDocument) (h : alGet (mkWcMap wcs) k = some wc) : wc.docId = k :=
  mkWcMap_keyed wcs (k, wc) (alGet_mem _ _ _ h)

/-- Induction invariant for C3: every scheduled non-maintenance order
ends no later than its work center's recorded availability, and the
scheduled prefix is pairwise exclusive per work center. -/
def C3Inv (st : ReflowService.SchedState) : Prop :=
  (∀ u ∈ st.1, u.data.isMaintenance = false →
    ∃ t, alGet st.2.2 u.data.workCenterId = some t ∧ u.data.endDate ≤ t)
  ∧ st.1.Pairwise SameCenterNoOverlap

theorem scheduleStep_C3Inv (dag : DependencyGraph) (wcs : List WorkCenterDocument)
    (now : Nat) (st : ReflowService.SchedState) (wo : WorkOrderDocument)
    (st' : ReflowService.SchedState)
    (hP : C3Inv st)
    (h : ReflowService.scheduleStep dag (mkWcMap wcs) now st wo = .ok st') :
    C3Inv st' := by
  rcases ReflowService.scheduleStep_ok_cases dag (mkWcMap wcs) now st wo st' h with
    ⟨hm, hst'⟩ | ⟨hm, wc, s, e, parents, hwc, hpar, hs, he, hupd, havl, _⟩
  · subst hst'
    constructor
    · intro u hu humaint
      rcases List.mem_append.mp hu with hu | hu
      · exact hP.1 u hu humaint
      · rw [List.mem_singleton] at hu
        subst hu
        rw [hm] at humaint
        cases humaint
    · refine List.pairwise_append.mpr ⟨hP.2, List.pairwise_singleton _ _, ?_⟩
      intro a _ b hb
      rw [List.mem_singleton] at hb
      subst hb
      intro _ _ hbm
      rw [hm] at hbm
      cases hbm
  · have hkey : wc.docId = wo.data.workCenterId := mkWcMap_get_docId wcs _ wc hwc
    have hse : s ≤ e :=
      DateUtils.calculateEndDate_le s wo.data.durationMinutes _ _ e he
    have havs : alGetD st.2.2 wc.docId now ≤ s :=
      (DateUtils.getEarliestStartTime_ge _ _ _ s hs).1
    obtain ⟨u1, c1, av1⟩ := st'
    simp only at hupd havl
    subst hupd havl
    constructor
    · intro u hu humaint
      rcases List.mem_append.mp hu with hu | hu
      · obtain ⟨t, ht, hle⟩ := hP.1 u hu humaint
        by_cases hwceq : u.data.workCenterId = wc.docId
        · refine ⟨e, ?_, ?_⟩
          · rw [hwceq]
            exact alGet_alSet_self _ _ _
          · rw [hwceq] at ht
            have : alGetD st.2.2 wc.docId now = t := by
              simp [alGetD, ht]
            omega
        · exact ⟨t, by rw [alGet_alSet_ne _ _ _ _ hwceq]; exact ht, hle⟩
      · rw [List.mem_singleton] at hu
        subst hu
        refine ⟨e, ?_, Nat.le_refl e⟩
        simp only [ReflowService.withDates, ← hkey]
        exact alGet_alSet_self _ _ _
    · refine List.pairwise_append.mpr ⟨hP.2, List.pairwise_singleton _ _, ?_⟩
      intro a ha b hb
      rw [List.mem_singleton] at hb
      subst hb
      intro hsame hma _
      simp only [ReflowService.withDates] at hsame ⊢
      obtain ⟨t, ht, hle⟩ := hP.1 a ha hma
      rw [hsame, ← hkey] at ht
      have hteq : alGetD st.2.2 wc.docId now = t := by
        simp [alGetD, ht]
      rintro ⟨_, h2⟩
      omega

/-- C3: for every acyclic input on which reflow succeeds (non-empty
updatedWorkOrders), no two non-maintenance work orders assigned to the
same work center have overlapping half-open start/end intervals in the
returned updatedWorkOrders. -/
theorem claimC3_theorem (input : ReflowInput) (now : Nat)
    (hacyc : AcyclicWos input.workOrders)
    (hne : (ReflowService.reflow input now).updatedWorkOrders ≠ []) :
    (ReflowService.reflow input now).updatedWorkOrders.Pairwise SameCenterNoOverlap := by
  unfold ReflowService.reflow at hne ⊢
  cases hp : ReflowService.reflowPipeline input now with
  | error e =>
    rw [hp] at hne
    exact absurd rfl hne
  | ok r =>
    rw [hp] at hne
    replace hne : r.updatedWorkOrders ≠ [] := hne
    show List.Pairwise SameCenterNoOverlap r.updatedWorkOrders
    obtain ⟨dag, hdag, hcase⟩ := ReflowService.reflowPipeline_ok_cases input now r hp
    rcases hcase with ⟨_, hupd, _⟩ | ⟨_, ordered, avail, st, viol, hord, havail, hloop, _, hupd, _⟩
    · rw [hupd] at hne
      simp at hne
    · rw [hupd]
      have hinv := @ReflowService.scheduleLoop_inv C3Inv dag
        (mkWcMap input.workCenters) now
        (fun st wo st' hP h => scheduleStep_C3Inv dag input.workCenters now st wo st' hP h)
        ordered ([], [], avail) st hloop ⟨by simp, List.Pairwise.nil⟩
      exact hinv.2

/-- Sampled now used by the concrete reflow scenarios: Monday
2025-01-13 at 07:00 UTC. -/
def mondayNow : Nat := mkInstant 20101 7 0

/-- One work center with the weekday shift table. -/
def c3center : WorkCenterDocument := ⟨"wc-1", ⟨"Line 1", weekdayShifts, []⟩⟩

/-- Two independent non-maintenance orders on the same work center. -/
def c3input : ReflowInput :=
  ⟨[⟨"wo-1", ⟨"WO-001", "wc-1", mkInstant 20101 8 0, mkInstant 20101 10 0, 120, false, []⟩⟩,
    ⟨"wo-2", ⟨"WO-002", "wc-1", mkInstant 20101 10 0, mkInstant 20101 12 0, 120, false, []⟩⟩],
   [c3center]⟩

/-- C3 witness: the two-order scenario is acyclic, reflow returns a
non-empty schedule, and the conclusion of the theorem holds on it. -/
theorem claimC3_witness :
    AcyclicWos c3input.workOrders
      ∧ (ReflowService.reflow c3input mondayNow).updatedWorkOrders ≠ []
      ∧ (ReflowService.reflow c3input mondayNow).updatedWorkOrders.Pairwise
          SameCenterNoOverlap :=
  ⟨by decide, by decide, claimC3_theorem c3input mondayNow (by decide) (by decide)⟩

theorem mem_keys_of_alGet_isSome {α : Type} (l : List (String × α)) (k : String)
    (h : (alGet l k).isSome) : k ∈ l.map Prod.fst := by
  induction l with
  | nil => simp [alGet] at h
  | cons p rest ih =>
    by_cases hp : p.1 = k
    · subst hp
      simp
    · rw [alGet, if_neg hp] at h
      exact List.mem_cons_of_mem _ (ih h)

namespace DependencyGraph

/-- Number of adjacency entries that list v as a child and whose key has
been emitted. -/
def adjParentsIn (adj : List (String × List String)) (v : String)
    (emitted : List String) : Nat :=
  (adj.filter (fun p => decide (p.1 ∈ emitted) && decide (v ∈ p.2))).length

/-- Static well-formedness of a built dependency graph, as used by the
topological sort. -/
structure KahnWF (adj : List (String × List String))
    (wos : List (String × WorkOrderDocument)) : Prop where
  keysNodup : (wos.map Prod.fst).Nodup
  keyed : ∀ p ∈ wos, p.2.docId = p.1
  adjKeys : adj.map Prod.fst = wos.map Prod.fst
  adjVals : ∀ p ∈ adj, p.2.Nodup ∧ ∀ c ∈ p.2, c ∈ wos.map Prod.fst

theorem kahnFold_spec (cs : List String) (hnd : cs.Nodup) :
    ∀ (D : List (String × Int)) (q : List String),
      (∀ c ∈ cs, (alGet D c).isSome) →
      (∀ x, alGet (cs.foldl kahnFoldF (D, q)).1 x =
          if x ∈ cs then (alGet D x).map (fun d => d - 1) else alGet D x)
      ∧ (cs.foldl kahnFoldF (D, q)).2
          = q ++ cs.filter (fun c => decide (alGetD D c 0 = 1))
      ∧ (cs.foldl kahnFoldF (D, q)).1.map Prod.fst = D.map Prod.fst := by
  induction cs with
  | nil =>
    intro D q _
    refine ⟨fun x => by simp, by simp, rfl⟩
  | cons c rest ih =>
    intro D q hsome
    have hcD : (alGet D c).isSome := hsome c (List.mem_cons_self _ _)
    obtain ⟨d, hd⟩ := Option.isSome_iff_exists.mp hcD
    have hcmem : c ∈ D.map Prod.fst := mem_keys_of_alGet_isSome D c hcD
    have hcrest : c ∉ rest := (List.nodup_cons.mp hnd).1
    have hndrest : rest.Nodup := (List.nodup_cons.mp hnd).2
    have hgetD : alGetD D c 0 = d := by simp [alGetD, hd]
    have hD1self : alGet (alSet D c (alGetD D c 0 - 1)) c = some (d - 1) := by
      rw [hgetD]
      exact alGet_alSet_self D c (d - 1)
    have hD1other : ∀ x, x ≠ c →
        alGet (alSet D c (alGetD D c 0 - 1)) x = alGet D x := by
      intro x hx
      exact alGet_alSet_ne D c x _ hx
    have hfold : (c :: rest).foldl kahnFoldF (D, q)
        = rest.foldl kahnFoldF
            (alSet D c (alGetD D c 0 - 1),
             if alGetD D c 0 - 1 = 0 then q ++ [c] else q) := rfl
    have hsome1 : ∀ c' ∈ rest, (alGet (alSet D c (alGetD D c 0 - 1)) c').isSome := by
      intro c' hc'
      have hne : c' ≠ c := fun he => hcrest (he ▸ hc')
      rw [hD1other c' hne]
      exact hsome c' (List.mem_cons_of_mem _ hc')
    obtain ⟨ih1, ih2, ih3⟩ := ih hndrest (alSet D c (alGetD D c 0 - 1))
      (if alGetD D c 0 - 1 = 0 then q ++ [c] else q) hsome1
    refine ⟨?_, ?_, ?_⟩
    · intro x
      rw [hfold, ih1 x]
      by_cases hx : x ∈ rest
      · have hne : x ≠ c := fun he => hcrest (he ▸ hx)
        rw [if_pos hx, if_pos (List.mem_cons_of_mem _ hx), hD1other x hne]
      · by_cases hxc : x = c
        · subst hxc
          rw [if_neg hx, if_pos (List.mem_cons_self _ _), hD1self, hd]
          rfl
        · rw [if_neg hx, if_neg (by simp [hxc, hx]), hD1other x hxc]
    · rw [hfold, ih2]
      have hfiltrest : rest.filter
            (fun c' => decide (alGetD (alSet D c (alGetD D c 0 - 1)) c' 0 = 1))
          = rest.filter (fun c' => decide (alGetD D c' 0 = 1)) := by
        apply List.filter_congr
        intro c' hc'
        have hne : c' ≠ c := fun he => hcrest (he ▸ hc')
        rw [alGetD, hD1other c' hne]
        rfl
      rw [hfiltrest]
      by_cases hone : alGetD D c 0 = 1
      · have : alGetD D c 0 - 1 = 0 := by omega
        rw [if_pos this, List.filter_cons, if_pos (by simp [hone])]
        simp
      · have : ¬(alGetD D c 0 - 1 = 0) := by omega
        rw [if_neg this, List.filter_cons, if_neg (by simp [hone])]
    · rw [hfold, ih3]
      exact alSet_keys_mem D c _ hcmem

end DependencyGraph

theorem alGet_of_mem_nodup {α : Type} (l : List (String × α)) (k : String) (a : α)
    (hnd : (l.map Prod.fst).Nodup) (h : (k, a) ∈ l) : alGet l k = some a := by
  induction l with
  | nil => simp at h
  | cons p rest ih =>
    rcases List.mem_cons.mp h with h | h
    · subst h
      simp [alGet]
    · have hk : k ∈ rest.map Prod.fst :=
        List.mem_map.mpr ⟨(k, a), h, rfl⟩
      have hne : p.1 ≠ k := by
        intro he
        exact (List.nodup_cons.mp hnd).1 (he ▸ hk)
      rw [alGet, if_neg hne]
      exact ih (List.nodup_cons.mp hnd).2 h

theorem snoc_eq_append_cons {α : Type} (l : List α) (x : α) (pre : List α) (u : α)
    (suf : List α) (h : l ++ [x] = pre ++ u :: suf) :
    (pre = l ∧ u = x ∧ suf = []) ∨ (∃ suf0, suf = suf0 ++ [x] ∧ l = pre ++ u :: suf0) := by
  rcases List.eq_nil_or_concat suf with rfl | ⟨suf0, y, rfl⟩
  · obtain ⟨hl, ht⟩ := List.append_inj' h rfl
    left
    refine ⟨hl.symm, ?_, rfl⟩
    simpa using ht.symm
  · have h2 : l ++ [x] = (pre ++ u :: suf0) ++ [y] := by
      rw [List.append_assoc, List.cons_append]
      simpa [List.concat_eq_append] using h
    obtain ⟨hl, ht⟩ := List.append_inj' h2 rfl
    have hxy : x = y := by simpa using ht
    right
    exact ⟨suf0, by rw [List.concat_eq_append, hxy], hl⟩

namespace DependencyGraph

theorem adjParentsIn_cons (p : String × List String) (rest : List (String × List String))
    (x : String) (emitted : List String) :
    adjParentsIn (p :: rest) x emitted =
      (if p.1 ∈ emitted ∧ x ∈ p.2 then 1 else 0) + adjParentsIn rest x emitted := by
  by_cases h1 : p.1 ∈ emitted
  · by_cases h2 : x ∈ p.2
    · simp [adjParentsIn, List.filter_cons, h1, h2]
      omega
    · simp [adjParentsIn, List.filter_cons, h1, h2]
  · simp [adjParentsIn, List.filter_cons, h1]

theorem adjParentsIn_append_notkey (adj : List (String × List String)) (x v : String)
    (emitted : List String) (hv : v ∉ adj.map Prod.fst) :
    adjParentsIn adj x (emitted ++ [v]) = adjParentsIn adj x emitted := by
  unfold adjParentsIn
  congr 1
  apply List.filter_congr
  intro p hp
  have hne : p.1 ≠ v := by
    intro he
    exact hv (List.mem_map.mpr ⟨p, hp, he⟩)
  simp [List.mem_append, hne]

theorem adjParentsIn_snoc (adj : List (String × List String))
    (hkeys : (adj.map Prod.fst).Nodup) (x v : String) (emitted : List String)
    (hv : v ∉ emitted) :
    adjParentsIn adj x (emitted ++ [v]) =
      adjParentsIn adj x emitted + (if x ∈ alGetD adj v [] then 1 else 0) := by
  induction adj with
  | nil => simp [adjParentsIn, alGetD, alGet]
  | cons p rest ih =>
    rw [List.map_cons] at hkeys
    have hnd := List.nodup_cons.mp hkeys
    rw [adjParentsIn_cons, adjParentsIn_cons]
    by_cases hpv : p.1 = v
    · have hrest : v ∉ rest.map Prod.fst := hpv ▸ hnd.1
      have hgd : alGetD (p :: rest) v [] = p.2 := by
        simp [alGetD, alGet, hpv]
      have hmem1 : p.1 ∈ emitted ++ [v] := by
        simp [hpv]
      have hmem0 : p.1 ∉ emitted := hpv ▸ hv
      rw [hgd, adjParentsIn_append_notkey rest x v emitted hrest]
      by_cases h2 : x ∈ p.2
      · rw [if_pos (show p.1 ∈ emitted ++ [v] ∧ x ∈ p.2 from ⟨hmem1, h2⟩),
          if_neg (show ¬(p.1 ∈ emitted ∧ x ∈ p.2) from fun hc => hmem0 hc.1),
          if_pos h2]
        omega
      · rw [if_neg (show ¬(p.1 ∈ emitted ++ [v] ∧ x ∈ p.2) from fun hc => h2 hc.2),
          if_neg (show ¬(p.1 ∈ emitted ∧ x ∈ p.2) from fun hc => h2 hc.2),
          if_neg h2]
        omega
    · have hgd : alGetD (p :: rest) v [] = alGetD rest v [] := by
        simp [alGetD, alGet, hpv]
      have hiff : (p.1 ∈ emitted ++ [v] ∧ x ∈ p.2) ↔ (p.1 ∈ emitted ∧ x ∈ p.2) := by
        simp [List.mem_append, hpv]
      rw [hgd, ih hnd.2, if_congr hiff rfl rfl]
      omega

end DependencyGraph

namespace DependencyGraph

/-- A node of a built graph is clean when its stored in-degree is the
length of its dependency list and its adjacency parents are exactly the
members of that list.  This holds for every node when the input ids are
pairwise distinct; duplicated ids can break the adjacency half. -/
def CleanNode (adj : List (String × List String))
    (wos : List (String × WorkOrderDocument)) (D0 : List (String × Int))
    (c : String) : Prop :=
  ∀ doc, alGet wos c = some doc →
    alGet D0 c = some ((doc.data.dependsOnWorkOrderIds.length : Int)) ∧
    ∀ p, (∃ l, alGet adj p = some l ∧ c ∈ l) ↔ p ∈ doc.data.dependsOnWorkOrderIds

theorem cleanNode_deps_done (adj : List (String × List String))
    (wos : List (String × WorkOrderDocument)) (D0 : List (String × Int))
    (hkeys : (adj.map Prod.fst).Nodup) (c : String) (doc : WorkOrderDocument)
    (emitted : List String)
    (hclean : CleanNode adj wos D0 c) (hdoc : alGet wos c = some doc)
    (hcount : adjParentsIn adj c emitted = doc.data.dependsOnWorkOrderIds.length) :
    doc.data.dependsOnWorkOrderIds.Nodup ∧
      ∀ p ∈ doc.data.dependsOnWorkOrderIds, p ∈ emitted := by
  set L := (adj.filter (fun p => decide (p.1 ∈ emitted) && decide (c ∈ p.2))).map
    Prod.fst with hL
  have hLsub : L.Sublist (adj.map Prod.fst) :=
    List.Sublist.map Prod.fst (List.filter_sublist adj)
  have hLnd : L.Nodup := List.Nodup.sublist hLsub hkeys
  have hLdeps : ∀ p ∈ L, p ∈ doc.data.dependsOnWorkOrderIds := by
    intro p hp
    rw [hL] at hp
    obtain ⟨entry, hentry, hpe⟩ := List.mem_map.mp hp
    have hcond := List.of_mem_filter hentry
    simp only [Bool.and_eq_true, decide_eq_true_eq] at hcond
    have hget : alGet adj entry.1 = some entry.2 :=
      alGet_of_mem_nodup adj entry.1 entry.2 hkeys (by
        have := List.mem_of_mem_filter hentry
        simpa using this)
    have := ((hclean doc hdoc).2 entry.1).mp ⟨entry.2, hget, hcond.2⟩
    rw [← hpe]
    exact this
  have hLemit : ∀ p ∈ L, p ∈ emitted := by
    intro p hp
    rw [hL] at hp
    obtain ⟨entry, hentry, hpe⟩ := List.mem_map.mp hp
    have hcond := List.of_mem_filter hentry
    simp only [Bool.and_eq_true, decide_eq_true_eq] at hcond
    rw [← hpe]
    exact hcond.1
  have hsp : L.Subperm doc.data.dependsOnWorkOrderIds :=
    List.Nodup.subperm hLnd hLdeps
  have hlen : L.length = doc.data.dependsOnWorkOrderIds.length := by
    rw [hL, List.length_map]
    exact hcount
  have hperm : L.Perm doc.data.dependsOnWorkOrderIds :=
    List.Subperm.perm_of_length_le hsp (by omega)
  constructor
  · exact hperm.nodup_iff.mp hLnd
  · intro p hp
    exact hLemit p (hperm.symm.subset hp)

end DependencyGraph

namespace DependencyGraph

/-- Loop invariant of Kahn's algorithm over the state (queue, current
in-degree map, emitted work orders). -/
structure KahnInv (adj : List (String × List String))
    (wos : List (String × WorkOrderDocument)) (D0 : List (String × Int))
    (q : List String) (D : List (String × Int))
    (res : List WorkOrderDocument) : Prop where
  resDocs : ∀ u ∈ res, alGet wos u.docId = some u
  resNodup : (res.map WorkOrderDocument.docId).Nodup
  qNodup : q.Nodup
  qKeys : ∀ v ∈ q, v ∈ wos.map Prod.fst
  qFresh : ∀ v ∈ q, v ∉ res.map WorkOrderDocument.docId
  doneNonpos : ∀ v, v ∈ q ∨ v ∈ res.map WorkOrderDocument.docId →
    ∃ dv, alGet D v = some dv ∧ dv ≤ 0
  pendingPos : ∀ v ∈ wos.map Prod.fst, v ∉ q → v ∉ res.map WorkOrderDocument.docId →
    ∃ dv, alGet D v = some dv ∧ 1 ≤ dv
  account : ∀ v d0, alGet D0 v = some d0 →
    alGet D v = some (d0 - (adjParentsIn adj v (res.map WorkOrderDocument.docId) : Int))
  qReady : ∀ v ∈ q, CleanNode adj wos D0 v → ∀ doc, alGet wos v = some doc →
    doc.data.dependsOnWorkOrderIds.Nodup ∧
    ∀ p ∈ doc.data.dependsOnWorkOrderIds, p ∈ res.map WorkOrderDocument.docId
  resOrdered : ∀ pre u suf, res = pre ++ u :: suf → CleanNode adj wos D0 u.docId →
    u.data.dependsOnWorkOrderIds.Nodup ∧
    ∀ p ∈ u.data.dependsOnWorkOrderIds, p ∈ pre.map WorkOrderDocument.docId

theorem kahnStep_inv (adj : List (String × List String))
    (wos : List (String × WorkOrderDocument)) (D0 : List (String × Int))
    (hwf : KahnWF adj wos)
    (v : String) (qtail : List String) (D : List (String × Int))
    (res : List WorkOrderDocument) (u : WorkOrderDocument)
    (hinv : KahnInv adj wos D0 (v :: qtail) D res)
    (hu : alGet wos v = some u) :
    KahnInv adj wos D0 ((alGetD adj v []).foldl kahnFoldF (D, qtail)).2
      ((alGetD adj v []).foldl kahnFoldF (D, qtail)).1 (res ++ [u]) := by
  have hadjnd : (adj.map Prod.fst).Nodup := hwf.adjKeys ▸ hwf.keysNodup
  -- facts about the children list
  have hcs : (alGetD adj v []).Nodup ∧ ∀ c ∈ alGetD adj v [], c ∈ wos.map Prod.fst := by
    cases hal : alGet adj v with
    | none =>
      have hnil : alGetD adj v [] = [] := by simp [alGetD, hal]
      rw [hnil]
      exact ⟨List.nodup_nil, by simp⟩
    | some l =>
      have hl : alGetD adj v [] = l := by simp [alGetD, hal]
      rw [hl]
      exact hwf.adjVals (v, l) (alGet_mem adj v l hal)
  set cs := alGetD adj v [] with hcsdef
  have hvq : v ∈ v :: qtail := List.mem_cons_self _ _
  have hvK : v ∈ wos.map Prod.fst := hinv.qKeys v hvq
  have hvres : v ∉ res.map WorkOrderDocument.docId := hinv.qFresh v hvq
  have huid : u.docId = v := hwf.keyed (v, u) (alGet_mem wos v u hu)
  have hqtnd : qtail.Nodup := (List.nodup_cons.mp hinv.qNodup).2
  have hvqt : v ∉ qtail := (List.nodup_cons.mp hinv.qNodup).1
  -- totality of the degree map on node ids
  have htot : ∀ w ∈ wos.map Prod.fst, (alGet D w).isSome := by
    intro w hw
    by_cases hq : w ∈ v :: qtail
    · obtain ⟨dv, hdv, _⟩ := hinv.doneNonpos w (Or.inl hq)
      simp [hdv]
    · by_cases hr : w ∈ res.map WorkOrderDocument.docId
      · obtain ⟨dv, hdv, _⟩ := hinv.doneNonpos w (Or.inr hr)
        simp [hdv]
      · obtain ⟨dv, hdv, _⟩ := hinv.pendingPos w hw hq hr
        simp [hdv]
  obtain ⟨hD', hq', hkeys'⟩ := kahnFold_spec cs hcs.1 D qtail
    (fun c hc => htot c (hcs.2 c hc))
  set news := cs.filter (fun c => decide (alGetD D c 0 = 1)) with hnews
  -- the value of the pre-step degree of each newly enqueued node is 1
  have hnewsval : ∀ c ∈ news, alGet D c = some 1 := by
    intro c hc
    have hcc : c ∈ cs := List.mem_of_mem_filter hc
    have hcond := List.of_mem_filter hc
    simp only [decide_eq_true_eq] at hcond
    obtain ⟨d, hd⟩ := Option.isSome_iff_exists.mp (htot c (hcs.2 c hcc))
    rw [hd]
    have : alGetD D c 0 = d := by simp [alGetD, hd]
    rw [this] at hcond
    rw [hcond]
  have hnewsout : ∀ c ∈ news, c ∉ v :: qtail ∧ c ∉ res.map WorkOrderDocument.docId := by
    intro c hc
    constructor
    · intro hin
      obtain ⟨dv, hdv, hle⟩ := hinv.doneNonpos c (Or.inl hin)
      rw [hnewsval c hc] at hdv
      cases hdv
      omega
    · intro hin
      obtain ⟨dv, hdv, hle⟩ := hinv.doneNonpos c (Or.inr hin)
      rw [hnewsval c hc] at hdv
      cases hdv
      omega
  have hnewsK : ∀ c ∈ news, c ∈ wos.map Prod.fst := by
    intro c hc
    exact hcs.2 c (List.mem_of_mem_filter hc)
  have hnewsnd : news.Nodup := List.Nodup.sublist (List.filter_sublist cs) hcs.1
  have hresids : (res ++ [u]).map WorkOrderDocument.docId
      = res.map WorkOrderDocument.docId ++ [v] := by
    simp [huid]
  -- the degree equation after the fold, relative to the new emitted set
  have haccount' : ∀ w d0, alGet D0 w = some d0 →
      alGet ((cs.foldl kahnFoldF (D, qtail)).1) w
        = some (d0 - (adjParentsIn adj w ((res ++ [u]).map WorkOrderDocument.docId) : Int)) := by
    intro w d0 hd0
    have hold := hinv.account w d0 hd0
    rw [hresids, adjParentsIn_snoc adj hadjnd w v _ hvres, hD' w]
    by_cases hw : w ∈ cs
    · rw [if_pos hw, hold, if_pos hw]
      simp only [Option.map_some']
      congr 1
      push_cast
      ring
    · rw [if_neg hw, hold, if_neg hw]
      first
      | rfl
      | (congr 1; push_cast; ring)
  refine
    { resDocs := ?_, resNodup := ?_, qNodup := ?_, qKeys := ?_, qFresh := ?_
      doneNonpos := ?_, pendingPos := ?_, account := haccount'
      qReady := ?_, resOrdered := ?_ }
  · intro w hw
    rcases List.mem_append.mp hw with hw | hw
    · exact hinv.resDocs w hw
    · rw [List.mem_singleton] at hw
      subst hw
      rw [huid]
      exact hu
  · rw [hresids]
    simp only [List.nodup_append]
    exact ⟨hinv.resNodup, List.nodup_singleton v,
      fun a ha hb => (List.mem_singleton.mp hb ▸ hvres) (List.mem_singleton.mp hb ▸ ha)⟩
  · rw [hq']
    simp only [List.nodup_append]
    refine ⟨hqtnd, hnewsnd, ?_⟩
    intro a ha hb
    exact (hnewsout a hb).1 (List.mem_cons_of_mem _ ha)
  · intro w hw
    rw [hq'] at hw
    rcases List.mem_append.mp hw with hw | hw
    · exact hinv.qKeys w (List.mem_cons_of_mem _ hw)
    · exact hnewsK w hw
  · intro w hw
    rw [hq'] at hw
    rw [hresids]
    rcases List.mem_append.mp hw with hw | hw
    · intro hc
      rcases List.mem_append.mp hc with hc | hc
      · exact hinv.qFresh w (List.mem_cons_of_mem _ hw) hc
      · rw [List.mem_singleton] at hc
        exact hvqt (hc ▸ hw)
    · intro hc
      rcases List.mem_append.mp hc with hc | hc
      · exact (hnewsout w hw).2 hc
      · rw [List.mem_singleton] at hc
        subst hc
        obtain ⟨dv, hdv, hle⟩ := hinv.doneNonpos w (Or.inl hvq)
        rw [hnewsval w hw] at hdv
        cases hdv
        omega
  · intro w hw
    rw [hq', hresids] at hw
    have hw' : w ∈ qtail ∨ w ∈ news ∨ w ∈ res.map WorkOrderDocument.docId ∨ w = v := by
      rcases hw with hw | hw
      · rcases List.mem_append.mp hw with hw | hw
        · exact Or.inl hw
        · exact Or.inr (Or.inl hw)
      · rcases List.mem_append.mp hw with hw | hw
        · exact Or.inr (Or.inr (Or.inl hw))
        · exact Or.inr (Or.inr (Or.inr (List.mem_singleton.mp hw)))
    rw [hD' w]
    rcases hw' with hw' | hw' | hw' | hw'
    · obtain ⟨dv, hdv, hle⟩ := hinv.doneNonpos w (Or.inl (List.mem_cons_of_mem _ hw'))
      by_cases hwc : w ∈ cs
      · rw [if_pos hwc, hdv]
        exact ⟨dv - 1, rfl, by omega⟩
      · rw [if_neg hwc]
        exact ⟨dv, hdv, hle⟩
    · have hwc : w ∈ cs := List.mem_of_mem_filter hw'
      rw [if_pos hwc, hnewsval w hw']
      exact ⟨0, rfl, by omega⟩
    · obtain ⟨dv, hdv, hle⟩ := hinv.doneNonpos w (Or.inr hw')
      by_cases hwc : w ∈ cs
      · rw [if_pos hwc, hdv]
        exact ⟨dv - 1, rfl, by omega⟩
      · rw [if_neg hwc]
        exact ⟨dv, hdv, hle⟩
    · subst hw'
      obtain ⟨dv, hdv, hle⟩ := hinv.doneNonpos w (Or.inl hvq)
      by_cases hwc : w ∈ cs
      · rw [if_pos hwc, hdv]
        exact ⟨dv - 1, rfl, by omega⟩
      · rw [if_neg hwc]
        exact ⟨dv, hdv, hle⟩
  · intro w hwK hwq hwres
    rw [hq'] at hwq
    rw [hresids] at hwres
    have hwqt : w ∉ qtail := fun hc => hwq (List.mem_append.mpr (Or.inl hc))
    have hwnews : w ∉ news := fun hc => hwq (List.mem_append.mpr (Or.inr hc))
    have hwres0 : w ∉ res.map WorkOrderDocument.docId :=
      fun hc => hwres (List.mem_append.mpr (Or.inl hc))
    have hwv : w ≠ v := fun hc =>
      hwres (List.mem_append.mpr (Or.inr (List.mem_singleton.mpr hc)))
    have hwq0 : w ∉ v :: qtail := by
      intro hc
      rcases List.mem_cons.mp hc with hc | hc
      · exact hwv hc
      · exact hwqt hc
    obtain ⟨dv, hdv, hge⟩ := hinv.pendingPos w hwK hwq0 hwres0
    rw [hD' w]
    by_cases hwc : w ∈ cs
    · rw [if_pos hwc, hdv]
      refine ⟨dv - 1, rfl, ?_⟩
      by_cases hone : dv = 1
      · exfalso
        apply hwnews
        rw [hnews]
        refine List.mem_filter.mpr ⟨hwc, ?_⟩
        simp [alGetD, hdv, hone]
      · omega
    · rw [if_neg hwc]
      exact ⟨dv, hdv, hge⟩
  · intro w hw hclean doc hdoc
    rw [hq'] at hw
    rw [hresids]
    rcases List.mem_append.mp hw with hw | hw
    · obtain ⟨hnd, hsub⟩ := hinv.qReady w (List.mem_cons_of_mem _ hw) hclean doc hdoc
      exact ⟨hnd, fun p hp => List.mem_append.mpr (Or.inl (hsub p hp))⟩
    · -- newly enqueued: its pre-step degree was 1, so with the new
      -- emitted set the counted parents reach the full dependency list
      obtain ⟨hd0, _⟩ := hclean doc hdoc
      have hacc := hinv.account w _ hd0
      rw [hnewsval w hw] at hacc
      have hcount : (doc.data.dependsOnWorkOrderIds.length : Int)
          - (adjParentsIn adj w (res.map WorkOrderDocument.docId) : Int) = 1 := by
        have hval := Option.some.inj hacc
        omega
      have hwc : w ∈ cs := List.mem_of_mem_filter hw
      have hcount' : adjParentsIn adj w (res.map WorkOrderDocument.docId ++ [v])
          = doc.data.dependsOnWorkOrderIds.length := by
        rw [adjParentsIn_snoc adj hadjnd w v _ hvres, if_pos hwc]
        omega
      exact cleanNode_deps_done adj wos D0 hadjnd w doc _ hclean hdoc hcount'
  · intro pre w suf hsplit hclean
    rcases snoc_eq_append_cons res u pre w suf hsplit with ⟨hpre, hwu, _⟩ | ⟨suf0, _, hres⟩
    · subst hpre
      have hcl : CleanNode adj wos D0 v := by
        rw [hwu, huid] at hclean
        exact hclean
      have hready := hinv.qReady v hvq hcl u hu
      constructor
      · rw [hwu]
        exact hready.1
      · rw [hwu]
        exact hready.2
    · exact hinv.resOrdered pre w suf0 hres hclean

end DependencyGraph

namespace DependencyGraph

theorem adjParentsIn_nil (adj : List (String × List String)) (v : String) :
    adjParentsIn adj v [] = 0 := by
  unfold adjParentsIn
  rw [List.filter_eq_nil.mpr]
  · rfl
  · intro p _
    simp

/-- Combined well-formedness of a built graph. -/
structure GraphWF (g : DependencyGraph) : Prop where
  keysNodup : (g.workOrders.map Prod.fst).Nodup
  keyed : ∀ p ∈ g.workOrders, p.2.docId = p.1
  adjKeys : g.adjacencyList.map Prod.fst = g.workOrders.map Prod.fst
  adjVals : ∀ p ∈ g.adjacencyList, p.2.Nodup ∧ ∀ c ∈ p.2, c ∈ g.workOrders.map Prod.fst
  degKeys : g.inDegree.map Prod.fst = g.workOrders.map Prod.fst
  degNonneg : ∀ p ∈ g.inDegree, 0 ≤ p.2

theorem GraphWF.toKahnWF {g : DependencyGraph} (hwf : GraphWF g) :
    KahnWF g.adjacencyList g.workOrders :=
  ⟨hwf.keysNodup, hwf.keyed, hwf.adjKeys, hwf.adjVals⟩

theorem resIds_subset_keys (wos : List (String × WorkOrderDocument))
    (res : List WorkOrderDocument)
    (hdocs : ∀ u ∈ res, alGet wos u.docId = some u) :
    ∀ v ∈ res.map WorkOrderDocument.docId, v ∈ wos.map Prod.fst := by
  intro v hv
  obtain ⟨u, hu, rfl⟩ := List.mem_map.mp hv
  exact mem_keys_of_alGet_isSome wos u.docId (by simp [hdocs u hu])

theorem kahnLoop_spec (adj : List (String × List String))
    (wos : List (String × WorkOrderDocument)) (D0 : List (String × Int))
    (hwf : KahnWF adj wos) :
    ∀ (fuel : Nat) (q : List String) (D : List (String × Int))
      (res : List WorkOrderDocument),
      KahnInv adj wos D0 q D res →
      (wos.map Prod.fst).length + 1 ≤ fuel + res.length →
      ∃ Df resf, kahnLoop adj wos fuel q D res = (resf, []) ∧
        KahnInv adj wos D0 [] Df resf := by
  intro fuel
  induction fuel with
  | zero =>
    intro q D res hinv hfuel
    exfalso
    have hsub : res.map WorkOrderDocument.docId ⊆ wos.map Prod.fst :=
      fun v hv => resIds_subset_keys wos res hinv.resDocs v hv
    have := List.Subperm.length_le (List.Nodup.subperm hinv.resNodup hsub)
    rw [List.length_map] at this
    omega
  | succ fuel ih =>
    intro q D res hinv hfuel
    cases q with
    | nil =>
      refine ⟨D, res, ?_, hinv⟩
      rw [kahnLoop]
    | cons v qtail =>
      have hvK : v ∈ wos.map Prod.fst := hinv.qKeys v (List.mem_cons_self _ _)
      obtain ⟨u, hu⟩ := Option.isSome_iff_exists.mp (alGet_isSome_of_mem wos v hvK)
      have hstep := kahnStep_inv adj wos D0 hwf v qtail D res u hinv hu
      have hrun : kahnLoop adj wos (fuel + 1) (v :: qtail) D res
          = kahnLoop adj wos fuel ((alGetD adj v []).foldl kahnFoldF (D, qtail)).2
              ((alGetD adj v []).foldl kahnFoldF (D, qtail)).1 (res ++ [u]) := by
        rw [kahnLoop, hu]
      rw [hrun]
      apply ih _ _ _ hstep
      simp only [List.length_append, List.length_singleton]
      omega

theorem kahnInv_init (g : DependencyGraph) (hwf : GraphWF g) :
    KahnInv g.adjacencyList g.workOrders g.inDegree
      ((g.inDegree.filter (fun p => p.2 = 0)).map (fun p => p.1)) g.inDegree [] := by
  have hdegnd : (g.inDegree.map Prod.fst).Nodup := hwf.degKeys ▸ hwf.keysNodup
  have hseed : ∀ v ∈ (g.inDegree.filter (fun p => p.2 = 0)).map (fun p => p.1),
      alGet g.inDegree v = some 0 := by
    intro v hv
    obtain ⟨p, hp, hpe⟩ := List.mem_map.mp hv
    have hmem := List.mem_of_mem_filter hp
    have hz := List.of_mem_filter hp
    simp only [decide_eq_true_eq] at hz
    have : alGet g.inDegree p.1 = some p.2 :=
      alGet_of_mem_nodup _ _ _ hdegnd (by simpa using hmem)
    rw [← hpe, this, hz]
  refine
    { resDocs := by simp, resNodup := by simp, qNodup := ?_, qKeys := ?_
      qFresh := by simp, doneNonpos := ?_, pendingPos := ?_, account := ?_
      qReady := ?_, resOrdered := by simp }
  · have hsub : ((g.inDegree.filter (fun p => p.2 = 0)).map (fun p => p.1)).Sublist
        (g.inDegree.map Prod.fst) := by
      have := @List.filter_sublist _ (fun p => decide (p.2 = 0)) g.inDegree
      exact List.Sublist.map _ this
    exact List.Nodup.sublist hsub hdegnd
  · intro v hv
    obtain ⟨p, hp, hpe⟩ := List.mem_map.mp hv
    have hmem := List.mem_of_mem_filter hp
    rw [← hwf.degKeys]
    rw [← hpe]
    exact List.mem_map.mpr ⟨p, hmem, rfl⟩
  · intro v hv
    rcases hv with hv | hv
    · exact ⟨0, hseed v hv, Int.le_refl 0⟩
    · simp at hv
  · intro v hvK hvq _
    have hv : v ∈ g.inDegree.map Prod.fst := hwf.degKeys ▸ hvK
    obtain ⟨d, hd⟩ := Option.isSome_iff_exists.mp (alGet_isSome_of_mem _ _ hv)
    have hdmem : (v, d) ∈ g.inDegree := alGet_mem _ _ _ hd
    have hnn : 0 ≤ d := hwf.degNonneg (v, d) hdmem
    refine ⟨d, hd, ?_⟩
    by_cases hz : d = 0
    · exfalso
      apply hvq
      refine List.mem_map.mpr ⟨(v, d), ?_, rfl⟩
      refine List.mem_filter.mpr ⟨hdmem, ?_⟩
      simp [hz]
    · omega
  · intro v d0 hd0
    rw [List.map_nil, adjParentsIn_nil]
    simpa using hd0
  · intro v hv hclean doc hdoc
    have hz := hseed v hv
    obtain ⟨hd0, _⟩ := hclean doc hdoc
    rw [hd0] at hz
    have : (doc.data.dependsOnWorkOrderIds.length : Int) = 0 := Option.some.inj hz
    have hlen : doc.data.dependsOnWorkOrderIds.length = 0 := by exact_mod_cast this
    rw [List.length_eq_zero.mp hlen]
    exact ⟨List.nodup_nil, by simp⟩

theorem topologicalSort_ok_inv (g : DependencyGraph) (hwf : GraphWF g)
    (res : List WorkOrderDocument) (h : topologicalSort g = .ok res) :
    ∃ Df, KahnInv g.adjacencyList g.workOrders g.inDegree [] Df res
      ∧ res.length = g.workOrders.length := by
  unfold topologicalSort at h
  split at h
  · cases h
  · obtain ⟨Df, resf, hrun, hinv⟩ := kahnLoop_spec g.adjacencyList g.workOrders
      g.inDegree hwf.toKahnWF (g.workOrders.length + 1)
      ((g.inDegree.filter (fun p => p.2 = 0)).map (fun p => p.1)) g.inDegree []
      (kahnInv_init g hwf) (by simp [List.length_map])
    simp only at h
    rw [hrun] at h
    split at h
    · cases h
    · next hlen =>
      cases h
      exact ⟨Df, hinv, by simpa using hlen⟩

theorem topologicalSort_not_ok (g : DependencyGraph)
    (hnc : hasCycles g = false)
    (h : ∀ res, topologicalSort g ≠ .ok res) :
    topologicalSort g = .error countErrMsg := by
  unfold topologicalSort
  rw [if_neg (by simp [hnc])]
  simp only
  split
  · rfl
  · next hlen =>
    exfalso
    apply h ((kahnLoop g.adjacencyList g.workOrders (g.workOrders.length + 1)
      ((g.inDegree.filter (fun p => decide (p.2 = 0))).map (fun p => p.1))
      g.inDegree []).1)
    unfold topologicalSort
    rw [if_neg (by simp [hnc])]
    simp only
    rw [if_neg hlen]

end DependencyGraph

theorem mem_alSet {α : Type} (l : List (String × α)) (k : String) (v : α) (q : String × α)
    (h : q ∈ alSet l k v) : q = (k, v) ∨ q ∈ l := by
  induction l with
  | nil => simpa [alSet] using h
  | cons p rest ih =>
    rw [alSet] at h
    split at h
    · rcases List.mem_cons.mp h with h | h
      · exact Or.inl h
      · exact Or.inr (List.mem_cons_of_mem _ h)
    · rcases List.mem_cons.mp h with h | h
      · exact Or.inr (h ▸ List.mem_cons_self _ _)
      · rcases ih h with h | h
        · exact Or.inl h
        · exact Or.inr (List.mem_cons_of_mem _ h)

theorem alSet_keys_superset {α : Type} (l : List (String × α)) (k : String) (v : α) :
    ∀ k', k' ∈ l.map Prod.fst ∨ k' = k → k' ∈ (alSet l k v).map Prod.fst := by
  intro k' hk'
  by_cases hmem : k ∈ l.map Prod.fst
  · rw [alSet_keys_mem l k v hmem]
    rcases hk' with h | rfl
    · exact h
    · exact hmem
  · rw [alSet_keys_not_mem l k v hmem]
    rcases hk' with h | rfl
    · exact List.mem_append.mpr (Or.inl h)
    · exact List.mem_append.mpr (Or.inr (List.mem_singleton.mpr rfl))

theorem alSet_keys_nodup {α : Type} (l : List (String × α)) (k : String) (v : α)
    (h : (l.map Prod.fst).Nodup) : ((alSet l k v).map Prod.fst).Nodup := by
  by_cases hmem : k ∈ l.map Prod.fst
  · rw [alSet_keys_mem l k v hmem]
    exact h
  · rw [alSet_keys_not_mem l k v hmem]
    simp only [List.nodup_append]
    exact ⟨h, List.nodup_singleton k,
      fun a ha hb => hmem ((List.mem_singleton.mp hb) ▸ ha)⟩

namespace DependencyGraph

/-- Well-formedness bundle maintained across graph construction. -/
def MidWF (g : DependencyGraph) : Prop :=
  (g.workOrders.map Prod.fst).Nodup ∧
  (∀ p ∈ g.workOrders, p.2.docId = p.1) ∧
  g.adjacencyList.map Prod.fst = g.workOrders.map Prod.fst ∧
  (∀ p ∈ g.adjacencyList, p.2.Nodup ∧ ∀ c ∈ p.2, c ∈ g.workOrders.map Prod.fst) ∧
  g.inDegree.map Prod.fst = g.workOrders.map Prod.fst ∧
  (∀ p ∈ g.inDegree, 0 ≤ p.2)

theorem initGraph_midWF (wos : List WorkOrderDocument) :
    MidWF (initGraph wos) ∧ ∀ wo ∈ wos, wo.docId ∈ (initGraph wos).workOrders.map Prod.fst := by
  have main : ∀ (l : List WorkOrderDocument) (g : DependencyGraph),
      MidWF g → (∀ p ∈ g.adjacencyList, p.2 = []) →
      MidWF (l.foldl (fun g wo =>
        { workOrders := alSet g.workOrders wo.docId wo
          adjacencyList := alSet g.adjacencyList wo.docId []
          inDegree := alSet g.inDegree wo.docId 0 }) g)
      ∧ (∀ p ∈ (l.foldl (fun g wo =>
          { workOrders := alSet g.workOrders wo.docId wo
            adjacencyList := alSet g.adjacencyList wo.docId []
            inDegree := alSet g.inDegree wo.docId 0 }) g).adjacencyList, p.2 = [])
      ∧ (∀ k, k ∈ g.workOrders.map Prod.fst ∨ (∃ wo ∈ l, wo.docId = k) →
          k ∈ (l.foldl (fun g wo =>
            { workOrders := alSet g.workOrders wo.docId wo
              adjacencyList := alSet g.adjacencyList wo.docId []
              inDegree := alSet g.inDegree wo.docId 0 }) g).workOrders.map Prod.fst) := by
    intro l
    induction l with
    | nil =>
      intro g hwf hadj
      refine ⟨hwf, hadj, ?_⟩
      intro k hk
      rcases hk with hk | ⟨wo, hwo, _⟩
      · exact hk
      · simp at hwo
    | cons wo rest ih =>
      intro g hwf hadj
      obtain ⟨hnd, hkeyed, hadjk, hadjv, hdegk, hdegn⟩ := hwf
      set g1 : DependencyGraph :=
        { workOrders := alSet g.workOrders wo.docId wo
          adjacencyList := alSet g.adjacencyList wo.docId []
          inDegree := alSet g.inDegree wo.docId 0 } with hg1
      have hwf1 : MidWF g1 := by
        refine ⟨alSet_keys_nodup _ _ _ hnd, ?_, ?_, ?_, ?_, ?_⟩
        · intro p hp
          rcases mem_alSet _ _ _ p hp with rfl | hp
          · rfl
          · exact hkeyed p hp
        · show (alSet g.adjacencyList wo.docId []).map Prod.fst
            = (alSet g.workOrders wo.docId wo).map Prod.fst
          by_cases hmem : wo.docId ∈ g.workOrders.map Prod.fst
          · rw [alSet_keys_mem _ _ _ hmem, alSet_keys_mem _ _ _ (hadjk ▸ hmem), hadjk]
          · rw [alSet_keys_not_mem _ _ _ hmem,
              alSet_keys_not_mem _ _ _ (fun hc => hmem (hadjk ▸ hc)), hadjk]
        · intro p hp
          rcases mem_alSet _ _ _ p hp with rfl | hp
          · exact ⟨List.nodup_nil, by simp⟩
          · obtain ⟨h1, h2⟩ := hadjv p hp
            exact ⟨h1, fun c hc =>
              alSet_keys_superset _ _ _ c (Or.inl (h2 c hc))⟩
        · show (alSet g.inDegree wo.docId 0).map Prod.fst
            = (alSet g.workOrders wo.docId wo).map Prod.fst
          by_cases hmem : wo.docId ∈ g.workOrders.map Prod.fst
          · rw [alSet_keys_mem _ _ _ hmem, alSet_keys_mem _ _ _ (hdegk ▸ hmem), hdegk]
          · rw [alSet_keys_not_mem _ _ _ hmem,
              alSet_keys_not_mem _ _ _ (fun hc => hmem (hdegk ▸ hc)), hdegk]
        · intro p hp
          rcases mem_alSet _ _ _ p hp with rfl | hp
          · exact Int.le_refl 0
          · exact hdegn p hp
      have hadj1 : ∀ p ∈ g1.adjacencyList, p.2 = [] := by
        intro p hp
        rcases mem_alSet _ _ _ p hp with rfl | hp
        · rfl
        · exact hadj p hp
      obtain ⟨ihwf, ihadj, ihkeys⟩ := ih g1 hwf1 hadj1
      refine ⟨ihwf, ihadj, ?_⟩
      intro k hk
      apply ihkeys
      rcases hk with hk | ⟨wo', hwo', hk⟩
      · exact Or.inl (alSet_keys_superset _ _ _ k (Or.inl hk))
      · rcases List.mem_cons.mp hwo' with rfl | hwo'
        · exact Or.inl (alSet_keys_superset _ _ _ k (Or.inr hk.symm))
        · exact Or.inr ⟨wo', hwo', hk⟩
  obtain ⟨hwf, _, hkeys⟩ := main wos ⟨[], [], []⟩
    ⟨List.nodup_nil, by simp, rfl, by simp, rfl, by simp⟩ (by simp)
  exact ⟨hwf, fun wo hwo => hkeys wo.docId (Or.inr ⟨wo, hwo, rfl⟩)⟩

end DependencyGraph

namespace DependencyGraph

theorem addEdges_pres (childId : String) :
    ∀ (parents : List String) (g g' : DependencyGraph),
      MidWF g → childId ∈ g.workOrders.map Prod.fst →
      addEdges childId parents g = .ok g' →
      MidWF g' ∧ g'.workOrders = g.workOrders ∧ g'.inDegree = g.inDegree := by
  intro parents
  induction parents with
  | nil =>
    intro g g' hwf _ h
    rw [addEdges] at h
    cases h
    exact ⟨hwf, rfl, rfl⟩
  | cons pid rest ih =>
    intro g g' hwf hchild h
    rw [addEdges] at h
    split at h
    · next hhas =>
      obtain ⟨hnd, hkeyed, hadjk, hadjv, hdegk, hdegn⟩ := hwf
      have hpid : pid ∈ g.adjacencyList.map Prod.fst := by
        unfold alHas at hhas
        exact mem_keys_of_alGet_isSome _ _ (by simpa using hhas)
      have hwf1 : MidWF
          { g with adjacencyList :=
              alSet g.adjacencyList pid (slAdd (alGetD g.adjacencyList pid []) childId) } := by
        refine ⟨hnd, hkeyed, ?_, ?_, hdegk, hdegn⟩
        · show (alSet g.adjacencyList pid _).map Prod.fst = g.workOrders.map Prod.fst
          rw [alSet_keys_mem _ _ _ hpid, hadjk]
        · intro p hp
          rcases mem_alSet _ _ _ p hp with rfl | hp
          · have hold : ∀ l, alGet g.adjacencyList pid = some l →
                l.Nodup ∧ ∀ c ∈ l, c ∈ g.workOrders.map Prod.fst := by
              intro l hl
              exact hadjv (pid, l) (alGet_mem _ _ _ hl)
            cases hl : alGet g.adjacencyList pid with
            | none =>
              have : alGetD g.adjacencyList pid [] = [] := by simp [alGetD, hl]
              rw [this]
              constructor
              · exact slAdd_nodup [] childId List.nodup_nil
              · intro c hc
                rcases (mem_slAdd [] childId c).mp hc with hc | rfl
                · simp at hc
                · exact hchild
            | some l =>
              have : alGetD g.adjacencyList pid [] = l := by simp [alGetD, hl]
              rw [this]
              obtain ⟨h1, h2⟩ := hold l hl
              constructor
              · exact slAdd_nodup l childId h1
              · intro c hc
                rcases (mem_slAdd l childId c).mp hc with hc | rfl
                · exact h2 c hc
                · exact hchild
          · exact hadjv p hp
      obtain ⟨ihwf, ihw, ihd⟩ := ih _ g' hwf1 hchild h
      exact ⟨ihwf, ihw, ihd⟩
    · cases h

theorem addAllEdges_pres :
    ∀ (l : List WorkOrderDocument) (g g' : DependencyGraph),
      MidWF g → (∀ wo ∈ l, wo.docId ∈ g.workOrders.map Prod.fst) →
      addAllEdges l g = .ok g' →
      MidWF g' ∧ g'.workOrders = g.workOrders := by
  intro l
  induction l with
  | nil =>
    intro g g' hwf _ h
    rw [addAllEdges] at h
    cases h
    exact ⟨hwf, rfl⟩
  | cons wo rest ih =>
    intro g g' hwf hids h
    rw [addAllEdges] at h
    obtain ⟨hnd, hkeyed, hadjk, hadjv, hdegk, hdegn⟩ := hwf
    have hid : wo.docId ∈ g.workOrders.map Prod.fst := hids wo (List.mem_cons_self _ _)
    set g1 : DependencyGraph :=
      { g with inDegree :=
          alSet g.inDegree wo.docId ((wo.data.dependsOnWorkOrderIds.length : Int)) } with hg1
    have hwf1 : MidWF g1 := by
      refine ⟨hnd, hkeyed, hadjk, hadjv, ?_, ?_⟩
      · show (alSet g.inDegree wo.docId _).map Prod.fst = g.workOrders.map Prod.fst
        rw [alSet_keys_mem _ _ _ (hdegk ▸ hid), hdegk]
      · intro p hp
        rcases mem_alSet _ _ _ p hp with rfl | hp
        · exact Int.ofNat_nonneg _
        · exact hdegn p hp
    obtain ⟨g2, hg2, h⟩ := exceptBind_ok _ _ _ h
    obtain ⟨hwf2, hw2, _⟩ := addEdges_pres wo.docId wo.data.dependsOnWorkOrderIds
      g1 g2 hwf1 hid hg2
    obtain ⟨ihwf, ihw⟩ := ih g2 g' hwf2
      (fun w hw => by rw [hw2]; exact hids w (List.mem_cons_of_mem _ hw)) h
    refine ⟨ihwf, ?_⟩
    rw [ihw, hw2]

theorem buildGraph_wf (wos : List WorkOrderDocument) (g : DependencyGraph)
    (h : buildGraph wos = .ok g) : GraphWF g := by
  unfold buildGraph at h
  obtain ⟨hinit, hids⟩ := initGraph_midWF wos
  obtain ⟨⟨hnd, hkeyed, hadjk, hadjv, hdegk, hdegn⟩, _⟩ :=
    addAllEdges_pres wos (initGraph wos) g hinit hids h
  exact ⟨hnd, hkeyed, hadjk, hadjv, hdegk, hdegn⟩

end DependencyGraph

theorem alSet_not_mem_append {α : Type} (l : List (String × α)) (k : String) (v : α)
    (h : k ∉ l.map Prod.fst) : alSet l k v = l ++ [(k, v)] := by
  induction l with
  | nil => rfl
  | cons p rest ih =>
    simp only [List.map_cons, List.mem_cons] at h
    push_neg at h
    rw [alSet, if_neg (Ne.symm h.1), ih h.2]
    rfl

namespace DependencyGraph

theorem topologicalSort_all_emitted (g : DependencyGraph) (hwf : GraphWF g)
    (res : List WorkOrderDocument) (h : topologicalSort g = .ok res) :
    ∀ p ∈ g.workOrders, p.2 ∈ res := by
  obtain ⟨Df, hinv, hlen⟩ := topologicalSort_ok_inv g hwf res h
  have hsub : res.map WorkOrderDocument.docId ⊆ g.workOrders.map Prod.fst :=
    fun v hv => resIds_subset_keys g.workOrders res hinv.resDocs v hv
  have hperm : (res.map WorkOrderDocument.docId).Perm (g.workOrders.map Prod.fst) := by
    apply List.Subperm.perm_of_length_le (List.Nodup.subperm hinv.resNodup hsub)
    simp [hlen]
  intro p hp
  have hkey : p.1 ∈ g.workOrders.map Prod.fst := List.mem_map.mpr ⟨p, hp, rfl⟩
  have hres : p.1 ∈ res.map WorkOrderDocument.docId := hperm.symm.subset hkey
  obtain ⟨u, hu, hue⟩ := List.mem_map.mp hres
  have h1 : alGet g.workOrders u.docId = some u := hinv.resDocs u hu
  have h2 : alGet g.workOrders p.1 = some p.2 :=
    alGet_of_mem_nodup _ _ _ hwf.keysNodup (by
      have := hwf.keyed p hp
      cases p
      simpa using hp)
  rw [hue] at h1
  rw [h1] at h2
  cases h2
  exact hu

theorem initGraph_workOrders_eq (wos : List WorkOrderDocument)
    (hnd : (wos.map WorkOrderDocument.docId).Nodup) :
    (initGraph wos).workOrders = wos.map (fun wo => (wo.docId, wo)) := by
  have main : ∀ (l : List WorkOrderDocument) (g : DependencyGraph),
      (l.map WorkOrderDocument.docId).Nodup →
      (∀ wo ∈ l, wo.docId ∉ g.workOrders.map Prod.fst) →
      (l.foldl (fun g wo =>
        { workOrders := alSet g.workOrders wo.docId wo
          adjacencyList := alSet g.adjacencyList wo.docId []
          inDegree := alSet g.inDegree wo.docId 0 }) g).workOrders
      = g.workOrders ++ l.map (fun wo => (wo.docId, wo)) := by
    intro l
    induction l with
    | nil => intro g _ _; simp
    | cons wo rest ih =>
      intro g hnd hfresh
      rw [List.map_cons, List.nodup_cons] at hnd
      have hstep : (alSet g.workOrders wo.docId wo) = g.workOrders ++ [(wo.docId, wo)] :=
        alSet_not_mem_append _ _ _ (hfresh wo (List.mem_cons_self _ _))
      simp only [List.foldl_cons]
      rw [ih _ hnd.2]
      · rw [hstep]
        simp
      · intro w hw
        show w.docId ∉ (alSet g.workOrders wo.docId wo).map Prod.fst
        rw [hstep]
        simp only [List.map_append, List.mem_append]
        rintro (hc | hc)
        · exact hfresh w (List.mem_cons_of_mem _ hw) hc
        · simp only [List.map_cons, List.map_nil, List.mem_singleton] at hc
          exact hnd.1 (hc ▸ List.mem_map.mpr ⟨w, hw, rfl⟩)
  have := main wos ⟨[], [], []⟩ hnd (by simp)
  simpa [initGraph] using this

theorem buildGraph_workOrders (wos : List WorkOrderDocument)
    (hnd : (wos.map WorkOrderDocument.docId).Nodup) (g : DependencyGraph)
    (h : buildGraph wos = .ok g) :
    g.workOrders = wos.map (fun wo => (wo.docId, wo)) := by
  unfold buildGraph at h
  obtain ⟨hinit, hids⟩ := initGraph_midWF wos
  obtain ⟨_, hw⟩ := addAllEdges_pres wos (initGraph wos) g hinit hids h
  rw [hw, initGraph_workOrders_eq wos hnd]

end DependencyGraph

namespace ReflowService

theorem scheduleLoop_length (dag : DependencyGraph)
    (wcMap : List (String × WorkCenterDocument)) (now : Nat) :
    ∀ (l : List WorkOrderDocument) (st st' : SchedState),
      scheduleLoop dag wcMap now l st = .ok st' →
      st'.1.length = st.1.length + l.length := by
  intro l
  induction l with
  | nil =>
    intro st st' h
    rw [scheduleLoop] at h
    cases h
    simp
  | cons wo rest ih =>
    intro st st' h
    rw [scheduleLoop] at h
    obtain ⟨st1, hst1, h⟩ := exceptBind_ok _ _ _ h
    have hlen1 : st1.1.length = st.1.length + 1 := by
      rcases scheduleStep_ok_cases dag wcMap now st wo st1 hst1 with
        ⟨_, hst⟩ | ⟨_, _, _, _, _, _, _, _, _, hupd, _, _⟩
      · rw [hst]
        simp
      · rw [hupd]
        simp
    rw [ih st1 st' h, hlen1]
    simp only [List.length_cons]
    omega

theorem scheduleLoop_mem_mono (dag : DependencyGraph)
    (wcMap : List (String × WorkCenterDocument)) (now : Nat)
    (x : WorkOrderDocument) (l : List WorkOrderDocument) (st st' : SchedState)
    (h : scheduleLoop dag wcMap now l st = .ok st') (hx : x ∈ st.1) : x ∈ st'.1 := by
  refine @scheduleLoop_inv (fun st => x ∈ st.1) dag wcMap now ?_ l st st' h hx
  intro st0 wo st1 hP hstep
  rcases scheduleStep_ok_cases dag wcMap now st0 wo st1 hstep with
    ⟨_, hst⟩ | ⟨_, _, _, _, _, _, _, _, _, hupd, _, _⟩
  · rw [hst]
    exact List.mem_append.mpr (Or.inl hP)
  · rw [hupd]
    exact List.mem_append.mpr (Or.inl hP)

theorem scheduleLoop_maint_mem (dag : DependencyGraph)
    (wcMap : List (String × WorkCenterDocument)) (now : Nat) :
    ∀ (l : List WorkOrderDocument) (st st' : SchedState),
      scheduleLoop dag wcMap now l st = .ok st' →
      ∀ wo ∈ l, wo.data.isMaintenance = true → wo ∈ st'.1 := by
  intro l
  induction l with
  | nil =>
    intro st st' _ wo hwo
    simp at hwo
  | cons w rest ih =>
    intro st st' h wo hwo hm
    rw [scheduleLoop] at h
    obtain ⟨st1, hst1, hrest⟩ := exceptBind_ok _ _ _ h
    rcases List.mem_cons.mp hwo with rfl | hwo
    · rcases scheduleStep_ok_cases dag wcMap now st wo st1 hst1 with
        ⟨_, hst⟩ | ⟨hm2, _⟩
      · have hmem : wo ∈ st1.1 := by
          rw [hst]
          exact List.mem_append.mpr (Or.inr (List.mem_singleton.mpr rfl))
        exact scheduleLoop_mem_mono dag wcMap now wo rest st1 st' hrest hmem
      · rw [hm] at hm2
        cases hm2
    · exact ih st1 st' hrest wo hwo hm

theorem scheduleStep_badwc (dag : DependencyGraph)
    (wcMap : List (String × WorkCenterDocument)) (now : Nat)
    (st : SchedState) (wo : WorkOrderDocument)
    (hm : wo.data.isMaintenance = false)
    (hwc : alGet wcMap wo.data.workCenterId = none) :
    scheduleStep dag wcMap now st wo
      = .error ("Work center " ++ wo.data.workCenterId ++ " not found") := by
  obtain ⟨u, c, a⟩ := st
  rw [scheduleStep]
  simp only
  rw [if_neg (by simp [hm]), hwc]
  rfl

theorem scheduleLoop_badwc (dag : DependencyGraph)
    (wcMap : List (String × WorkCenterDocument)) (now : Nat) :
    ∀ (l : List WorkOrderDocument) (st st' : SchedState) (wo : WorkOrderDocument),
      wo ∈ l → wo.data.isMaintenance = false →
      alGet wcMap wo.data.workCenterId = none →
      scheduleLoop dag wcMap now l st ≠ .ok st' := by
  intro l
  induction l with
  | nil =>
    intro st st' wo hwo
    simp at hwo
  | cons w rest ih =>
    intro st st' wo hwo hm hwc h
    rw [scheduleLoop] at h
    obtain ⟨st1, hst1, h⟩ := exceptBind_ok _ _ _ h
    rcases List.mem_cons.mp hwo with rfl | hwo
    · rw [scheduleStep_badwc dag wcMap now st wo hm hwc] at hst1
      cases hst1
    · exact ih st1 st' wo hwo hm hwc h

end ReflowService

/-! ## Claim C7: maintenance preservation -/

/-- Duplicate-id input: the Map built by the graph keeps only the last
document per id, so the earlier maintenance document is dropped. -/
def c7maintDoc : WorkOrderDocument :=
  ⟨"m", ⟨"WO-M", "wc-1", mkInstant 20101 8 0, mkInstant 20101 9 0, 60, true, []⟩⟩

/-- Non-maintenance document reusing the same id. -/
def c7input : ReflowInput :=
  ⟨[c7maintDoc,
    ⟨"m", ⟨"WO-M2", "wc-1", mkInstant 20101 8 0, mkInstant 20101 9 0, 60, false, []⟩⟩],
   [c3center]⟩

/-- C7: the claim states that every maintenance work order of the input
appears unchanged in updatedWorkOrders for every input on which reflow
succeeds.  With two input documents sharing one id, reflow succeeds yet
the maintenance document is absent from the result. -/
theorem claimC7_counterexample :
    (ReflowService.reflow c7input mondayNow).updatedWorkOrders ≠ []
      ∧ c7maintDoc ∈ c7input.workOrders
      ∧ c7maintDoc.data.isMaintenance = true
      ∧ c7maintDoc ∉ (ReflowService.reflow c7input mondayNow).updatedWorkOrders :=
  ⟨by decide, by decide, rfl, by decide⟩

/-- C7 (amended): for every input whose work-order ids are pairwise
distinct, on which reflow succeeds, every maintenance work order of the
input appears in updatedWorkOrders as the identical document (all
fields, in particular startDate and endDate, unchanged). -/
theorem claimC7_amended (input : ReflowInput) (now : Nat)
    (hnd : (input.workOrders.map WorkOrderDocument.docId).Nodup)
    (hne : (ReflowService.reflow input now).updatedWorkOrders ≠ []) :
    ∀ wo ∈ input.workOrders, wo.data.isMaintenance = true →
      wo ∈ (ReflowService.reflow input now).updatedWorkOrders := by
  intro wo hwo hm
  unfold ReflowService.reflow at hne ⊢
  cases hp : ReflowService.reflowPipeline input now with
  | error e =>
    rw [hp] at hne
    exact absurd rfl hne
  | ok r =>
    rw [hp] at hne
    replace hne : r.updatedWorkOrders ≠ [] := hne
    show wo ∈ r.updatedWorkOrders
    obtain ⟨dag, hdag, hcase⟩ := ReflowService.reflowPipeline_ok_cases input now r hp
    rcases hcase with ⟨_, hupd, _⟩ |
      ⟨_, ordered, avail, st, viol, hord, havail, hloop, _, hupd, _⟩
    · rw [hupd] at hne
      exact absurd rfl hne
    · rw [hupd]
      have hwf := DependencyGraph.buildGraph_wf input.workOrders dag hdag
      have hmap := DependencyGraph.buildGraph_workOrders input.workOrders hnd dag hdag
      have hmem : (wo.docId, wo) ∈ dag.workOrders := by
        rw [hmap]
        exact List.mem_map.mpr ⟨wo, hwo, rfl⟩
      have hord1 : wo ∈ ordered :=
        DependencyGraph.topologicalSort_all_emitted dag hwf ordered hord (wo.docId, wo) hmem
      exact ReflowService.scheduleLoop_maint_mem dag (mkWcMap input.workCenters) now
        ordered ([], [], avail) st hloop wo hord1 hm

/-- Concrete nodup scenario with one maintenance order for the C7
witness. -/
def c7okInput : ReflowInput :=
  ⟨[⟨"wm", ⟨"WO-WM", "wc-1", mkInstant 20101 8 0, mkInstant 20101 9 0, 60, true, []⟩⟩,
    ⟨"wn", ⟨"WO-WN", "wc-1", mkInstant 20101 9 0, mkInstant 20101 10 0, 60, false, []⟩⟩],
   [c3center]⟩

/-- C7 witness: on a distinct-id scenario the maintenance document is
returned unchanged. -/
theorem claimC7_witness :
    (c7okInput.workOrders.map WorkOrderDocument.docId).Nodup
      ∧ (ReflowService.reflow c7okInput mondayNow).updatedWorkOrders ≠ []
      ∧ (⟨"wm", ⟨"WO-WM", "wc-1", mkInstant 20101 8 0, mkInstant 20101 9 0, 60, true, []⟩⟩ :
          WorkOrderDocument) ∈ (ReflowService.reflow c7okInput mondayNow).updatedWorkOrders :=
  ⟨by decide, by decide,
   claimC7_amended c7okInput mondayNow (by decide) (by decide) _ (by decide) rfl⟩

/-! ## Claim C6: failure handling of reflow -/

/-- Invalid-empty shape of a failed reflow: no schedule, no changes,
invalid, and a violations entry carrying the failure description. -/
def errorShape (r : ReflowResult) : Prop :=
  r.updatedWorkOrders = [] ∧ r.changes = [] ∧ r.isValid = false ∧ r.violations ≠ []

/-- C6: reflow is total and all-or-nothing.  Any pipeline exception is
converted into the exact invalid empty result carrying the message; a
cyclic dependency graph yields the invalid empty shape; a scheduled
non-maintenance work order whose work center is absent from the input
yields the invalid empty shape; and in general the result is either the
invalid empty shape or a complete schedule covering every node of the
dependency graph — never a partial schedule. -/
theorem claimC6_theorem (input : ReflowInput) (now : Nat) :
    (∀ e, ReflowService.reflowPipeline input now = .error e →
      ReflowService.reflow input now =
        { updatedWorkOrders := [], changes := []
          explanation := "Reflow failed: " ++ e, isValid := false, violations := [e] })
    ∧ (∀ dag, DependencyGraph.buildGraph input.workOrders = .ok dag →
        DependencyGraph.hasCycles dag = true →
        errorShape (ReflowService.reflow input now))
    ∧ (∀ dag, DependencyGraph.buildGraph input.workOrders = .ok dag →
        (∃ p ∈ dag.workOrders, p.2.data.isMaintenance = false ∧
          alGet (mkWcMap input.workCenters) p.2.data.workCenterId = none) →
        errorShape (ReflowService.reflow input now))
    ∧ (errorShape (ReflowService.reflow input now)
        ∨ ∃ dag, DependencyGraph.buildGraph input.workOrders = .ok dag ∧
            (ReflowService.reflow input now).updatedWorkOrders.length
              = dag.workOrders.length) := by
  have herr : ∀ e, ReflowService.reflowPipeline input now = .error e →
      ReflowService.reflow input now =
        { updatedWorkOrders := [], changes := []
          explanation := "Reflow failed: " ++ e, isValid := false, violations := [e] } := by
    intro e he
    unfold ReflowService.reflow
    rw [he]
  refine ⟨herr, ?_, ?_, ?_⟩
  · intro dag hdag hcyc
    cases hp : ReflowService.reflowPipeline input now with
    | error e =>
      rw [herr e hp]
      exact ⟨rfl, rfl, rfl, by simp⟩
    | ok r =>
      have hr : ReflowService.reflow input now = r := by
        unfold ReflowService.reflow
        rw [hp]
      rw [hr]
      obtain ⟨dag0, hdag0, hcase⟩ := ReflowService.reflowPipeline_ok_cases input now r hp
      have hde : dag0 = dag := by
        rw [hdag] at hdag0
        exact (Except.ok.inj hdag0).symm
      subst hde
      rcases hcase with ⟨_, h1, h2, h3, h4⟩ | ⟨hnc, _⟩
      · exact ⟨h1, h2, h3, h4⟩
      · rw [hcyc] at hnc
        cases hnc
  · intro dag hdag hbad
    cases hp : ReflowService.reflowPipeline input now with
    | error e =>
      rw [herr e hp]
      exact ⟨rfl, rfl, rfl, by simp⟩
    | ok r =>
      have hr : ReflowService.reflow input now = r := by
        unfold ReflowService.reflow
        rw [hp]
      rw [hr]
      obtain ⟨dag0, hdag0, hcase⟩ := ReflowService.reflowPipeline_ok_cases input now r hp
      have hde : dag0 = dag := by
        rw [hdag] at hdag0
        exact (Except.ok.inj hdag0).symm
      subst hde
      rcases hcase with ⟨_, h1, h2, h3, h4⟩ |
        ⟨_, ordered, avail, st, viol, hord, havail, hloop, _, _, _⟩
      · exact ⟨h1, h2, h3, h4⟩
      · exfalso
        obtain ⟨p, hpmem, hpm, hpwc⟩ := hbad
        have hwf := DependencyGraph.buildGraph_wf input.workOrders dag0 hdag
        have hordmem : p.2 ∈ ordered :=
          DependencyGraph.topologicalSort_all_emitted dag0 hwf ordered hord p hpmem
        exact ReflowService.scheduleLoop_badwc dag0 (mkWcMap input.workCenters) now
          ordered ([], [], avail) st p.2 hordmem hpm hpwc hloop
  · cases hp : ReflowService.reflowPipeline input now with
    | error e =>
      left
      rw [herr e hp]
      exact ⟨rfl, rfl, rfl, by simp⟩
    | ok r =>
      have hr : ReflowService.reflow input now = r := by
        unfold ReflowService.reflow
        rw [hp]
      rw [hr]
      obtain ⟨dag, hdag, hcase⟩ := ReflowService.reflowPipeline_ok_cases input now r hp
      rcases hcase with ⟨_, h1, h2, h3, h4⟩ |
        ⟨_, ordered, avail, st, viol, hord, havail, hloop, _, hupd, _⟩
      · exact Or.inl ⟨h1, h2, h3, h4⟩
      · right
        refine ⟨dag, hdag, ?_⟩
        have hwf := DependencyGraph.buildGraph_wf input.workOrders dag hdag
        obtain ⟨_, _, hlen⟩ := DependencyGraph.topologicalSort_ok_inv dag hwf ordered hord
        have hll := ReflowService.scheduleLoop_length dag (mkWcMap input.workCenters) now
          ordered ([], [], avail) st hloop
        rw [hupd, hll]
        simpa using hlen

/-- Ghost-dependency input: graph construction throws. -/
def c6ghostInput : ReflowInput :=
  ⟨[⟨"g1", ⟨"G1", "wc-1", 0, 0, 60, false, ["ghost"]⟩⟩], [c3center]⟩

/-- Error message raised while building the ghost-dependency graph. -/
def c6ghostMsg : String :=
  "Work order g1 depends on ghost, but ghost does not exist"

/-- Two-node dependency cycle input. -/
def c6cycleInput : ReflowInput :=
  ⟨[⟨"x", ⟨"X", "wc-1", 0, 0, 60, false, ["y"]⟩⟩,
    ⟨"y", ⟨"Y", "wc-1", 0, 0, 60, false, ["x"]⟩⟩], [c3center]⟩

/-- Graph of the cycle input. -/
def c6cycleDag : DependencyGraph :=
  match DependencyGraph.buildGraph c6cycleInput.workOrders with
  | .ok g => g
  | .error _ => ⟨[], [], []⟩

/-- Input referencing a work center absent from the input. -/
def c6missInput : ReflowInput :=
  ⟨[⟨"z1", ⟨"Z1", "wc-zz", 0, 0, 60, false, []⟩⟩], [c3center]⟩

/-- Graph of the missing-work-center input. -/
def c6missDag : DependencyGraph :=
  match DependencyGraph.buildGraph c6missInput.workOrders with
  | .ok g => g
  | .error _ => ⟨[], [], []⟩

/-- C6 witness: a graph-construction exception yields the exact invalid
empty result; a cycle yields the invalid empty shape; a missing work
center yields the invalid empty shape. -/
theorem claimC6_witness :
    ReflowService.reflow c6ghostInput mondayNow =
      { updatedWorkOrders := [], changes := []
        explanation := "Reflow failed: " ++ c6ghostMsg, isValid := false
        violations := [c6ghostMsg] }
    ∧ errorShape (ReflowService.reflow c6cycleInput mondayNow)
    ∧ errorShape (ReflowService.reflow c6missInput mondayNow) :=
  ⟨(claimC6_theorem c6ghostInput mondayNow).1 c6ghostMsg rfl,
   (claimC6_theorem c6cycleInput mondayNow).2.1 c6cycleDag rfl rfl,
   (claimC6_theorem c6missInput mondayNow).2.2.1 c6missDag rfl
     ⟨("z1", ⟨"z1", ⟨"Z1", "wc-zz", 0, 0, 60, false, []⟩⟩), by decide, rfl, rfl⟩⟩

namespace DependencyGraph

theorem initGraph_adj_nil (wos : List WorkOrderDocument) :
    ∀ p ∈ (initGraph wos).adjacencyList, p.2 = [] := by
  have main : ∀ (l : List WorkOrderDocument) (g : DependencyGraph),
      (∀ p ∈ g.adjacencyList, p.2 = []) →
      ∀ p ∈ (l.foldl (fun g wo =>
        { workOrders := alSet g.workOrders wo.docId wo
          adjacencyList := alSet g.adjacencyList wo.docId []
          inDegree := alSet g.inDegree wo.docId 0 }) g).adjacencyList, p.2 = [] := by
    intro l
    induction l with
    | nil => intro g hg; exact hg
    | cons wo rest ih =>
      intro g hg
      apply ih
      intro p hp
      rcases mem_alSet _ _ _ p hp with rfl | hp
      · rfl
      · exact hg p hp
  exact main wos ⟨[], [], []⟩ (by simp)

theorem addEdges_inDegree (childId : String) :
    ∀ (parents : List String) (g g' : DependencyGraph),
      addEdges childId parents g = .ok g' →
      g'.inDegree = g.inDegree ∧ g'.workOrders = g.workOrders := by
  intro parents
  induction parents with
  | nil =>
    intro g g' h
    rw [addEdges] at h
    cases h
    exact ⟨rfl, rfl⟩
  | cons pid rest ih =>
    intro g g' h
    rw [addEdges] at h
    split at h
    · obtain ⟨h1, h2⟩ := ih _ g' h
      exact ⟨h1, h2⟩
    · cases h

/-- Adjacency-membership effect of adding the edges of one child: an
entry (p, c) exists afterwards iff it existed before or c is the child
and p one of its declared parents. -/
theorem addEdges_adj (childId : String) :
    ∀ (parents : List String) (g g' : DependencyGraph),
      addEdges childId parents g = .ok g' →
      ∀ p c, (∃ l, alGet g'.adjacencyList p = some l ∧ c ∈ l) ↔
        ((∃ l, alGet g.adjacencyList p = some l ∧ c ∈ l) ∨ (c = childId ∧ p ∈ parents)) := by
  intro parents
  induction parents with
  | nil =>
    intro g g' h
    rw [addEdges] at h
    cases h
    intro p c
    simp
  | cons pid rest ih =>
    intro g g' h
    rw [addEdges] at h
    split at h
    · next hhas =>
      intro p c
      rw [ih _ _ h p c]
      have hsome : (alGet g.adjacencyList pid).isSome := by
        unfold alHas at hhas
        simpa using hhas
      obtain ⟨old, hold⟩ := Option.isSome_iff_exists.mp hsome
      have holdD : alGetD g.adjacencyList pid [] = old := by simp [alGetD, hold]
      constructor
      · rintro (⟨l, hl, hc⟩ | ⟨rfl, hp⟩)
        · by_cases hpp : p = pid
          · subst hpp
            rw [alGet_alSet_self, holdD] at hl
            cases Option.some.inj hl
            rcases (mem_slAdd old childId c).mp hc with hc | rfl
            · exact Or.inl ⟨old, hold, hc⟩
            · exact Or.inr ⟨rfl, List.mem_cons_self _ _⟩
          · rw [alGet_alSet_ne _ _ _ _ hpp] at hl
            exact Or.inl ⟨l, hl, hc⟩
        · exact Or.inr ⟨rfl, List.mem_cons_of_mem _ hp⟩
      · rintro (⟨l, hl, hc⟩ | ⟨hceq, hp⟩)
        · by_cases hpp : p = pid
          · subst hpp
            rw [hold] at hl
            cases Option.some.inj hl
            refine Or.inl ⟨slAdd old childId, ?_, ?_⟩
            · rw [alGet_alSet_self, holdD]
            · exact (mem_slAdd old childId c).mpr (Or.inl hc)
          · refine Or.inl ⟨l, ?_, hc⟩
            rw [alGet_alSet_ne _ _ _ _ hpp]
            exact hl
        · rcases List.mem_cons.mp hp with heq | hp
          · refine Or.inl ⟨slAdd old childId, ?_, ?_⟩
            · rw [heq, alGet_alSet_self, holdD]
            · rw [hceq]
              exact (mem_slAdd old childId childId).mpr (Or.inr rfl)
          · exact Or.inr ⟨hceq, hp⟩
    · cases h

/-- Degree and adjacency content of the edge-adding pass, tracking the
already-processed prefix. -/
theorem addAllEdges_clean :
    ∀ (rest done : List WorkOrderDocument) (g g' : DependencyGraph),
      (rest.map WorkOrderDocument.docId).Nodup →
      (∀ w ∈ done, ∀ r ∈ rest, w.docId ≠ r.docId) →
      (∀ w ∈ done, alGet g.inDegree w.docId =
        some ((w.data.dependsOnWorkOrderIds.length : Int))) →
      (∀ p c, (∃ l, alGet g.adjacencyList p = some l ∧ c ∈ l) ↔
        ∃ w ∈ done, w.docId = c ∧ p ∈ w.data.dependsOnWorkOrderIds) →
      addAllEdges rest g = .ok g' →
      (∀ w ∈ done ++ rest, alGet g'.inDegree w.docId =
        some ((w.data.dependsOnWorkOrderIds.length : Int))) ∧
      (∀ p c, (∃ l, alGet g'.adjacencyList p = some l ∧ c ∈ l) ↔
        ∃ w ∈ done ++ rest, w.docId = c ∧ p ∈ w.data.dependsOnWorkOrderIds) := by
  intro rest
  induction rest with
  | nil =>
    intro done g g' _ _ hB hC h
    rw [addAllEdges] at h
    cases h
    simpa using ⟨hB, hC⟩
  | cons wo tail ih =>
    intro done g g' hnd hsep hB hC h
    rw [addAllEdges] at h
    rw [List.map_cons, List.nodup_cons] at hnd
    set g1 : DependencyGraph :=
      { g with inDegree :=
          alSet g.inDegree wo.docId ((wo.data.dependsOnWorkOrderIds.length : Int)) } with hg1
    replace h : addEdges wo.docId wo.data.dependsOnWorkOrderIds g1 >>= addAllEdges tail
        = .ok g' := h
    obtain ⟨g2, hg2, h⟩ := exceptBind_ok _ _ _ h
    obtain ⟨hdeg2, _⟩ := addEdges_inDegree wo.docId wo.data.dependsOnWorkOrderIds g1 g2 hg2
    have hB2 : ∀ w ∈ done ++ [wo], alGet g2.inDegree w.docId =
        some ((w.data.dependsOnWorkOrderIds.length : Int)) := by
      intro w hw
      rw [hdeg2]
      rcases List.mem_append.mp hw with hw | hw
      · show alGet (alSet g.inDegree wo.docId _) w.docId = _
        rw [alGet_alSet_ne _ _ _ _ (hsep w hw wo (List.mem_cons_self _ _))]
        exact hB w hw
      · rw [List.mem_singleton.mp hw]
        exact alGet_alSet_self _ _ _
    have hadj1 : g1.adjacencyList = g.adjacencyList := rfl
    have hC2 : ∀ p c, (∃ l, alGet g2.adjacencyList p = some l ∧ c ∈ l) ↔
        ∃ w ∈ done ++ [wo], w.docId = c ∧ p ∈ w.data.dependsOnWorkOrderIds := by
      intro p c
      rw [addEdges_adj wo.docId wo.data.dependsOnWorkOrderIds g1 g2 hg2 p c]
      rw [show g1.adjacencyList = g.adjacencyList from rfl, hC p c]
      constructor
      · rintro (⟨w, hw, hwc, hwp⟩ | ⟨rfl, hp⟩)
        · exact ⟨w, List.mem_append.mpr (Or.inl hw), hwc, hwp⟩
        · exact ⟨wo, List.mem_append.mpr (Or.inr (List.mem_singleton.mpr rfl)), rfl, hp⟩
      · rintro ⟨w, hw, hwc, hwp⟩
        rcases List.mem_append.mp hw with hw | hw
        · exact Or.inl ⟨w, hw, hwc, hwp⟩
        · rw [List.mem_singleton.mp hw] at hwc hwp
          exact Or.inr ⟨hwc.symm, hwp⟩
    have hsep2 : ∀ w ∈ done ++ [wo], ∀ r ∈ tail, w.docId ≠ r.docId := by
      intro w hw r hr
      rcases List.mem_append.mp hw with hw | hw
      · exact hsep w hw r (List.mem_cons_of_mem _ hr)
      · rw [List.mem_singleton.mp hw]
        intro he
        exact hnd.1 (he ▸ List.mem_map.mpr ⟨r, hr, rfl⟩)
    have := ih (done ++ [wo]) g2 g' hnd.2 hsep2 hB2 hC2 h
    simpa using this

/-- Under pairwise-distinct input ids every node of a successfully
built graph is clean: its stored in-degree is the length of its
dependency list and its adjacency parents are exactly its dependencies. -/
theorem buildGraph_cleanNode (wos : List WorkOrderDocument)
    (hnd : (wos.map WorkOrderDocument.docId).Nodup) (g : DependencyGraph)
    (h : buildGraph wos = .ok g) :
    ∀ c, CleanNode g.adjacencyList g.workOrders g.inDegree c := by
  have hw := buildGraph_workOrders wos hnd g h
  unfold buildGraph at h
  have hCinit : ∀ p c,
      (∃ l, alGet (initGraph wos).adjacencyList p = some l ∧ c ∈ l) ↔
      ∃ w ∈ ([] : List WorkOrderDocument), w.docId = c ∧
        p ∈ w.data.dependsOnWorkOrderIds := by
    intro p c
    simp only [List.not_mem_nil, false_and, exists_false, iff_false, not_exists, not_and]
    intro l hl hc
    have := initGraph_adj_nil wos (p, l) (alGet_mem _ _ _ hl)
    simp only at this
    rw [this] at hc
    simp at hc
  obtain ⟨hB, hC⟩ := addAllEdges_clean wos [] (initGraph wos) g hnd (by simp)
    (by simp) hCinit h
  intro c doc hdoc
  have hpmem : (c, doc) ∈ g.workOrders := alGet_mem _ _ _ hdoc
  rw [hw] at hpmem
  obtain ⟨w0, hw0, hw0e⟩ := List.mem_map.mp hpmem
  have h12 : w0.docId = c ∧ w0 = doc := by
    simpa [Prod.ext_iff] using hw0e
  have hdocmem : doc ∈ wos := h12.2 ▸ hw0
  have hdocid : doc.docId = c := by
    rw [← h12.2]
    exact h12.1
  refine ⟨hdocid ▸ hB doc (by simpa using hdocmem), ?_⟩
  intro p
  rw [hC p c]
  constructor
  · rintro ⟨w, hwmem, hwc, hwp⟩
    rw [List.nil_append] at hwmem
    have : w = doc := by
      apply List.inj_on_of_nodup_map hnd hwmem hdocmem
      rw [hwc, hdocid]
    rw [← this]
    exact hwp
  · intro hp
    exact ⟨doc, by simpa using hdocmem, hdocid, hp⟩

end DependencyGraph

/-! ## Claim C4: dependency ordering of the reflowed schedule -/

/-- Two work orders agreeing on everything but their dates. -/
def SameSkel (a b : WorkOrderDocument) : Prop :=
  a.docId = b.docId ∧
  a.data.dependsOnWorkOrderIds = b.data.dependsOnWorkOrderIds ∧
  a.data.isMaintenance = b.data.isMaintenance

/-- Every non-maintenance order of the list starts no earlier than the
end of each of its dependencies present in the list. -/
def DepRespect (l : List WorkOrderDocument) : Prop :=
  ∀ u ∈ l, u.data.isMaintenance = false →
    ∀ p ∈ l, p.docId ∈ u.data.dependsOnWorkOrderIds →
      p.data.endDate ≤ u.data.startDate

theorem skel_map_docId (l1 l2 : List WorkOrderDocument)
    (h : List.Forall₂ SameSkel l1 l2) :
    l1.map WorkOrderDocument.docId = l2.map WorkOrderDocument.docId := by
  induction h with
  | nil => rfl
  | cons hab _ ih =>
    simp only [List.map_cons, ih, hab.1]

theorem forall₂_snoc {α β : Type} {R : α → β → Prop} {l1 : List α} {l2 : List β}
    (h : List.Forall₂ R l1 l2) {a : α} {b : β} (hab : R a b) :
    List.Forall₂ R (l1 ++ [a]) (l2 ++ [b]) := by
  induction h with
  | nil => exact List.Forall₂.cons hab List.Forall₂.nil
  | cons hxy _ ih => exact List.Forall₂.cons hxy ih

theorem find?_docId_eq_of_mem_nodup (l : List WorkOrderDocument) (p : WorkOrderDocument)
    (hnd : (l.map WorkOrderDocument.docId).Nodup) (hp : p ∈ l) :
    l.find? (fun u => u.docId == p.docId) = some p := by
  induction l with
  | nil => simp at hp
  | cons a rest ih =>
    rw [List.map_cons, List.nodup_cons] at hnd
    rcases List.mem_cons.mp hp with rfl | hp
    · rw [List.find?_cons_of_pos]
      simp
    · have hne : a.docId ≠ p.docId := fun he =>
        hnd.1 (he ▸ List.mem_map.mpr ⟨p, hp, rfl⟩)
      rw [List.find?_cons_of_neg _ (by simp [hne])]
      exact ih hnd.2 hp

namespace ReflowService

theorem scheduleLoop_depRespect (dag : DependencyGraph)
    (wcMap : List (String × WorkCenterDocument)) (now : Nat)
    (ordered : List WorkOrderDocument)
    (hresDocs : ∀ u ∈ ordered, alGet dag.workOrders u.docId = some u)
    (hresNodup : (ordered.map WorkOrderDocument.docId).Nodup)
    (hresOrd : ∀ pre u suf, ordered = pre ++ u :: suf →
      ∀ d ∈ u.data.dependsOnWorkOrderIds, d ∈ pre.map WorkOrderDocument.docId) :
    ∀ (l done : List WorkOrderDocument) (st st' : SchedState),
      ordered = done ++ l →
      List.Forall₂ SameSkel st.1 done →
      DepRespect st.1 →
      (∀ u ∈ st.1, ∀ d ∈ u.data.dependsOnWorkOrderIds,
        d ∈ st.1.map WorkOrderDocument.docId) →
      scheduleLoop dag wcMap now l st = .ok st' →
      DepRespect st'.1 := by
  intro l
  induction l with
  | nil =>
    intro done st st' _ _ hDR _ h
    rw [scheduleLoop] at h
    cases h
    exact hDR
  | cons wo tail ih =>
    intro done st st' hsplit hskel hDR hclosed h
    rw [scheduleLoop] at h
    obtain ⟨st1, hst1, h⟩ := exceptBind_ok _ _ _ h
    have hids : st.1.map WorkOrderDocument.docId = done.map WorkOrderDocument.docId :=
      skel_map_docId _ _ hskel
    have hordids : ordered.map WorkOrderDocument.docId =
        done.map WorkOrderDocument.docId ++ wo.docId :: tail.map WorkOrderDocument.docId := by
      rw [hsplit]
      simp
    have hdonend : (done.map WorkOrderDocument.docId).Nodup ∧
        wo.docId ∉ done.map WorkOrderDocument.docId := by
      have h1 := hresNodup
      rw [hordids] at h1
      obtain ⟨hnd1, _, hdisj⟩ := List.nodup_append.mp h1
      exact ⟨hnd1, fun hc => hdisj hc (List.mem_cons_self _ _)⟩
    have hdeps_wo : ∀ d ∈ wo.data.dependsOnWorkOrderIds,
        d ∈ done.map WorkOrderDocument.docId := hresOrd done wo tail hsplit
    have hwomem : wo ∈ ordered := by
      rw [hsplit]
      exact List.mem_append.mpr (Or.inr (List.mem_cons_self _ _))
    have hstnd : (st.1.map WorkOrderDocument.docId).Nodup := hids ▸ hdonend.1
    have hwonotst : wo.docId ∉ st.1.map WorkOrderDocument.docId := hids ▸ hdonend.2
    have hsplit' : ordered = (done ++ [wo]) ++ tail := by
      rw [hsplit]
      simp
    rcases scheduleStep_ok_cases dag wcMap now st wo st1 hst1 with
      ⟨hm, hsteq⟩ |
      ⟨hm, wc, s, e, parents, hwc, hpar, hs, he, hupd, havail, hch⟩
    · have hst1eq : st1.1 = st.1 ++ [wo] := by rw [hsteq]
      apply ih (done ++ [wo]) st1 st' hsplit' ?_ ?_ ?_ h
      · rw [hst1eq]
        exact forall₂_snoc hskel ⟨rfl, rfl, rfl⟩
      · rw [hst1eq]
        intro u hu hum p hp hpd
        rcases List.mem_append.mp hu with hu | hu
        · rcases List.mem_append.mp hp with hp | hp
          · exact hDR u hu hum p hp hpd
          · rw [List.mem_singleton.mp hp] at hpd ⊢
            exact absurd (hclosed u hu wo.docId hpd) hwonotst
        · rw [List.mem_singleton.mp hu] at hum
          rw [hm] at hum
          cases hum
      · rw [hst1eq]
        intro u hu d hd
        rcases List.mem_append.mp hu with hu | hu
        · have := hclosed u hu d hd
          simp only [List.map_append, List.mem_append]
          exact Or.inl this
        · rw [List.mem_singleton.mp hu] at hd
          have := hdeps_wo d hd
          rw [← hids] at this
          simp only [List.map_append, List.mem_append]
          exact Or.inl this
    · have hst1eq : st1.1 = st.1 ++ [withDates wo s e] := hupd
      have hwo_get : alGet dag.workOrders wo.docId = some wo := hresDocs wo hwomem
      have hparents : parents =
          wo.data.dependsOnWorkOrderIds.filterMap (alGet dag.workOrders) := by
        rw [DependencyGraph.getParents, hwo_get] at hpar
        exact (Except.ok.inj hpar).symm
      have hbound : ∀ p ∈ st.1, p.docId ∈ wo.data.dependsOnWorkOrderIds →
          p.data.endDate ≤ s := by
        intro p hp hpd
        have hpid : p.docId ∈ done.map WorkOrderDocument.docId := by
          rw [← hids]
          exact List.mem_map.mpr ⟨p, hp, rfl⟩
        obtain ⟨w, hwdone, hwid⟩ := List.mem_map.mp hpid
        have hwmem : w ∈ ordered := by
          rw [hsplit]
          exact List.mem_append.mpr (Or.inl hwdone)
        have hw_get : alGet dag.workOrders p.docId = some w := by
          rw [← hwid]
          exact hresDocs w hwmem
        have hwpar : w ∈ parents := by
          rw [hparents]
          exact List.mem_filterMap.mpr ⟨p.docId, hpd, hw_get⟩
        have hfind : st.1.find? (fun u0 => u0.docId == w.docId) = some p := by
          rw [hwid]
          exact find?_docId_eq_of_mem_nodup st.1 p hstnd hp
        have hmemends : p.data.endDate ∈ resolvedParentEnds st.1 parents := by
          have hne : parents ≠ [] := fun hc => by
            rw [hc] at hwpar
            simp at hwpar
          simp only [resolvedParentEnds]
          rw [if_neg (by
            simp only [List.isEmpty_eq_true, List.map_eq_nil]
            exact hne)]
          refine List.mem_map.mpr ⟨w, hwpar, ?_⟩
          rw [hfind]
        exact (DateUtils.getEarliestStartTime_ge _ _ _ _ hs).2 _ hmemends
      apply ih (done ++ [wo]) st1 st' hsplit' ?_ ?_ ?_ h
      · rw [hst1eq]
        exact forall₂_snoc hskel ⟨rfl, rfl, rfl⟩
      · rw [hst1eq]
        intro u hu hum p hp hpd
        rcases List.mem_append.mp hu with hu | hu
        · rcases List.mem_append.mp hp with hp | hp
          · exact hDR u hu hum p hp hpd
          · rw [List.mem_singleton.mp hp] at hpd ⊢
            exact absurd (hclosed u hu wo.docId hpd) hwonotst
        · rw [List.mem_singleton.mp hu] at hum hpd ⊢
          rcases List.mem_append.mp hp with hp | hp
          · exact hbound p hp hpd
          · rw [List.mem_singleton.mp hp] at hpd
            have : wo.docId ∈ done.map WorkOrderDocument.docId := hdeps_wo _ hpd
            exact absurd this hdonend.2
      · rw [hst1eq]
        intro u hu d hd
        rcases List.mem_append.mp hu with hu | hu
        · have := hclosed u hu d hd
          simp only [List.map_append, List.mem_append]
          exact Or.inl this
        · rw [List.mem_singleton.mp hu] at hd
          have := hdeps_wo d hd
          rw [← hids] at this
          simp only [List.map_append, List.mem_append]
          exact Or.inl this

end ReflowService

/-- Duplicate-id input exercising the Map collapse: the two "a"
documents collapse to the one with dependsOn ["c"], yet the graph edges
added for the first copy let "a" be scheduled before "c" ends. -/
def c4input : ReflowInput :=
  ⟨[⟨"a", ⟨"A1", "wc-a", mkInstant 20101 8 0, mkInstant 20101 9 0, 60, false, ["b"]⟩⟩,
    ⟨"a", ⟨"A2", "wc-a", mkInstant 20101 8 0, mkInstant 20101 9 0, 60, false, ["c"]⟩⟩,
    ⟨"b", ⟨"B", "wc-b", mkInstant 20101 8 0, mkInstant 20101 9 0, 60, false, []⟩⟩,
    ⟨"c", ⟨"C", "wc-c", mkInstant 20101 8 0, mkInstant 20101 8 30, 60, false, ["d"]⟩⟩,
    ⟨"d", ⟨"D", "wc-d", mkInstant 20101 8 0, mkInstant 20101 9 0, 60, false, []⟩⟩],
   [⟨"wc-a", ⟨"A", weekdayShifts, []⟩⟩, ⟨"wc-b", ⟨"B", weekdayShifts, []⟩⟩,
    ⟨"wc-c", ⟨"C", weekdayShifts, []⟩⟩, ⟨"wc-d", ⟨"D", weekdayShifts, []⟩⟩]⟩

/-- C4: the claim states that on every acyclic input on which reflow
succeeds, every non-maintenance order starts at or after the end of
every order it depends on (as returned).  On a duplicate-id input
reflow succeeds, yet the returned "a" (which depends on "c") starts
before the returned "c" ends. -/
theorem claimC4_counterexample :
    (ReflowService.reflow c4input mondayNow).updatedWorkOrders ≠ []
      ∧ AcyclicWos c4input.workOrders
      ∧ ∃ u ∈ (ReflowService.reflow c4input mondayNow).updatedWorkOrders,
          u.data.isMaintenance = false ∧
          ∃ p ∈ (ReflowService.reflow c4input mondayNow).updatedWorkOrders,
            p.docId ∈ u.data.dependsOnWorkOrderIds ∧
            u.data.startDate < p.data.endDate :=
  ⟨by decide, by decide, by decide⟩

/-- C4 (amended): for every input whose work-order ids are pairwise
distinct and on which reflow succeeds, every non-maintenance work order
of the result starts at or after the returned end of every work order
it depends on. -/
theorem claimC4_amended (input : ReflowInput) (now : Nat)
    (hnd : (input.workOrders.map WorkOrderDocument.docId).Nodup)
    (hne : (ReflowService.reflow input now).updatedWorkOrders ≠ []) :
    DepRespect (ReflowService.reflow input now).updatedWorkOrders := by
  unfold ReflowService.reflow at hne ⊢
  cases hp : ReflowService.reflowPipeline input now with
  | error e =>
    rw [hp] at hne
    exact absurd rfl hne
  | ok r =>
    rw [hp] at hne
    replace hne : r.updatedWorkOrders ≠ [] := hne
    show DepRespect r.updatedWorkOrders
    obtain ⟨dag, hdag, hcase⟩ := ReflowService.reflowPipeline_ok_cases input now r hp
    rcases hcase with ⟨_, hupd, _⟩ |
      ⟨_, ordered, avail, st, viol, hord, havail, hloop, _, hupd, _⟩
    · rw [hupd] at hne
      exact absurd rfl hne
    · rw [hupd]
      have hwf := DependencyGraph.buildGraph_wf input.workOrders dag hdag
      have hclean := DependencyGraph.buildGraph_cleanNode input.workOrders hnd dag hdag
      obtain ⟨Df, hinv, _⟩ := DependencyGraph.topologicalSort_ok_inv dag hwf ordered hord
      have hDR := ReflowService.scheduleLoop_depRespect dag (mkWcMap input.workCenters)
        now ordered hinv.resDocs hinv.resNodup
        (fun pre u suf heq => (hinv.resOrdered pre u suf heq (hclean u.docId)).2)
        ordered [] ([], [], avail) st (by simp) List.Forall₂.nil
        (by intro u hu; simp at hu) (by intro u hu; simp at hu) hloop
      exact hDR

/-- Chain scenario with distinct ids for the C4 witness. -/
def c4okInput : ReflowInput :=
  ⟨[⟨"p1", ⟨"P1", "wc-1", mkInstant 20101 8 0, mkInstant 20101 9 0, 60, false, []⟩⟩,
    ⟨"u1", ⟨"U1", "wc-1", mkInstant 20101 8 0, mkInstant 20101 9 0, 60, false, ["p1"]⟩⟩],
   [c3center]⟩

/-- C4 witness: on a distinct-id chain the returned schedule respects
the dependency ordering. -/
theorem claimC4_witness :
    (c4okInput.workOrders.map WorkOrderDocument.docId).Nodup
      ∧ (ReflowService.reflow c4okInput mondayNow).updatedWorkOrders ≠ []
      ∧ DepRespect (ReflowService.reflow c4okInput mondayNow).updatedWorkOrders :=
  ⟨by decide, by decide, claimC4_amended c4okInput mondayNow (by decide) (by decide)⟩

/-! ## Claim C10: duplicated parent entries -/

/-- One depends-on step: b is among the dependencies of the order with
id a. -/
def DepStep (wos : List WorkOrderDocument) (a b : String) : Prop :=
  b ∈ depsOf wos a

theorem depsOf_subset_reachWithin (wos : List WorkOrderDocument) (n : Nat) (v : String) :
    ∀ x ∈ depsOf wos v, x ∈ reachWithin wos n v := by
  intro x hx
  cases n with
  | zero => exact hx
  | succ m =>
    rw [reachWithin]
    exact List.mem_append.mpr (Or.inl hx)

theorem reach_intro (wos : List WorkOrderDocument) :
    ∀ (path : List String) (n : Nat) (v w : String),
      List.Chain' (DepStep wos) (v :: path ++ [w]) → path.length ≤ n →
      w ∈ reachWithin wos n v := by
  intro path
  induction path with
  | nil =>
    intro n v w hchain _
    exact depsOf_subset_reachWithin wos n v w (List.chain'_pair.mp hchain)
  | cons u rest ih =>
    intro n v w hchain0 hlen
    have hchain : DepStep wos v u ∧ List.Chain' (DepStep wos) (u :: (rest ++ [w])) := by
      have h2 : List.Chain' (DepStep wos) (v :: u :: (rest ++ [w])) := by
        simpa using hchain0
      exact List.chain'_cons.mp h2
    cases n with
    | zero => simp at hlen
    | succ m =>
      have hw : w ∈ reachWithin wos m u := ih m u w hchain.2 (by
        simp only [List.length_cons] at hlen
        omega)
      rw [reachWithin]
      refine List.mem_append.mpr (Or.inr ?_)
      exact List.mem_flatMap.mpr ⟨u, hchain.1, hw⟩

theorem depsOf_eq_of_mem_nodup (wos : List WorkOrderDocument)
    (hnd : (wos.map WorkOrderDocument.docId).Nodup) (doc : WorkOrderDocument)
    (hdoc : doc ∈ wos) : depsOf wos doc.docId = doc.data.dependsOnWorkOrderIds := by
  unfold depsOf
  rw [find?_docId_eq_of_mem_nodup wos doc hnd hdoc]

namespace DependencyGraph

/-- Directed edge of the built adjacency structure: c is listed as a
child of p. -/
def Edge (adj : List (String × List String)) (p c : String) : Prop :=
  c ∈ alGetD adj p []

/-- On a clean graph over distinct-id input, an adjacency edge from p
to c means p is among the dependencies of the order with id c. -/
theorem edge_to_dep (g : DependencyGraph) (wos : List WorkOrderDocument)
    (hwf : GraphWF g) (hw : g.workOrders = wos.map (fun wo => (wo.docId, wo)))
    (hnd : (wos.map WorkOrderDocument.docId).Nodup)
    (hclean : ∀ c, CleanNode g.adjacencyList g.workOrders g.inDegree c)
    (p c : String) (h : Edge g.adjacencyList p c) : DepStep wos c p := by
  unfold Edge at h
  cases hal : alGet g.adjacencyList p with
  | none =>
    rw [alGetD, hal] at h
    simp at h
  | some l =>
    rw [alGetD, hal] at h
    simp only [Option.getD_some] at h
    have hcK : c ∈ g.workOrders.map Prod.fst :=
      (hwf.adjVals (p, l) (alGet_mem _ _ _ hal)).2 c h
    obtain ⟨doc, hdoc⟩ := Option.isSome_iff_exists.mp (alGet_isSome_of_mem _ _ hcK)
    have hdep : p ∈ doc.data.dependsOnWorkOrderIds :=
      ((hclean c doc hdoc).2 p).mp ⟨l, hal, h⟩
    have hpmem : (c, doc) ∈ g.workOrders := alGet_mem _ _ _ hdoc
    rw [hw] at hpmem
    obtain ⟨w0, hw0, hw0e⟩ := List.mem_map.mp hpmem
    have h12 : w0.docId = c ∧ w0 = doc := by
      simpa [Prod.ext_iff] using hw0e
    have hdocmem : doc ∈ wos := h12.2 ▸ hw0
    have hdocid : doc.docId = c := by
      rw [← h12.2]
      exact h12.1
    show p ∈ depsOf wos c
    rw [← hdocid, depsOf_eq_of_mem_nodup wos hnd doc hdocmem]
    exact hdep

end DependencyGraph

namespace DependencyGraph

theorem nodup_sub_length_le (l1 l2 : List String) (hnd : l1.Nodup)
    (hsub : ∀ v ∈ l1, v ∈ l2) : l1.length ≤ l2.length :=
  List.Subperm.length_le (List.Nodup.subperm hnd hsub)

/-- On a clean acyclic graph the bounded DFS never reports a cycle: it
returns the false flag together with a visited set extending the input
one inside the key set. -/
theorem dfsCycle_acyclic (g : DependencyGraph) (wos : List WorkOrderDocument)
    (hwf : GraphWF g) (hw : g.workOrders = wos.map (fun wo => (wo.docId, wo)))
    (hnd : (wos.map WorkOrderDocument.docId).Nodup)
    (hclean : ∀ c, CleanNode g.adjacencyList g.workOrders g.inDegree c)
    (hacyc : AcyclicWos wos) :
    ∀ (fuel : Nat) (nodeId : String) (visited stack : List String),
      nodeId ∈ g.workOrders.map Prod.fst →
      (∀ v ∈ visited, v ∈ g.workOrders.map Prod.fst) →
      visited.Nodup →
      nodeId ∉ visited →
      (∀ s ∈ stack, s ∈ visited) →
      stack.Nodup →
      List.Chain' (Edge g.adjacencyList) (stack ++ [nodeId]) →
      (g.workOrders.map Prod.fst).length + 1 ≤ fuel + visited.length →
      (dfsCycle g.adjacencyList fuel nodeId visited stack).1 = false ∧
      (∀ v, v ∈ visited ∨ v = nodeId →
        v ∈ (dfsCycle g.adjacencyList fuel nodeId visited stack).2) ∧
      (∀ v ∈ (dfsCycle g.adjacencyList fuel nodeId visited stack).2,
        v ∈ g.workOrders.map Prod.fst) ∧
      (dfsCycle g.adjacencyList fuel nodeId visited stack).2.Nodup := by
  have hKeq : g.workOrders.map Prod.fst = wos.map WorkOrderDocument.docId := by
    rw [hw, List.map_map]
    rfl
  have hKlen : (g.workOrders.map Prod.fst).length = wos.length := by
    rw [hKeq, List.length_map]
  intro fuel
  induction fuel with
  | zero =>
    intro nodeId visited stack _ hvisK hvisnd _ _ _ _ hfuel
    exfalso
    have := nodup_sub_length_le visited (g.workOrders.map Prod.fst) hvisnd hvisK
    omega
  | succ fuel ih =>
    intro nodeId visited stack hK hvisK hvisnd hnodefresh hstackvis hstacknd hchain hfuel
    have hnodestack : nodeId ∉ stack := fun hc => hnodefresh (hstackvis _ hc)
    have hvis' : slAdd visited nodeId = visited ++ [nodeId] := by
      rw [slAdd, if_neg hnodefresh]
    have hstk' : slAdd stack nodeId = stack ++ [nodeId] := by
      rw [slAdd, if_neg hnodestack]
    have hstknd' : (stack ++ [nodeId]).Nodup := by
      simp only [List.nodup_append, List.nodup_singleton]
      exact ⟨hstacknd, trivial, fun a ha hb => hnodestack ((List.mem_singleton.mp hb) ▸ ha)⟩
    have hcsK : ∀ c ∈ alGetD g.adjacencyList nodeId [], c ∈ g.workOrders.map Prod.fst := by
      intro c hc
      cases hal : alGet g.adjacencyList nodeId with
      | none =>
        rw [alGetD, hal] at hc
        simp at hc
      | some l =>
        rw [alGetD, hal] at hc
        simp only [Option.getD_some] at hc
        exact (hwf.adjVals (nodeId, l) (alGet_mem _ _ _ hal)).2 c hc
    -- a neighbour already on the stack would close a dependency cycle
    have hnocyc : ∀ c, c ∈ alGetD g.adjacencyList nodeId [] →
        c ∈ stack ++ [nodeId] → False := by
      intro c hcs hcstk
      have hcK : c ∈ g.workOrders.map Prod.fst := hcsK c hcs
      have hedge : Edge g.adjacencyList nodeId c := hcs
      obtain ⟨pre, post, hdecomp⟩ := List.append_of_mem hcstk
      have hlast : (c :: post).getLast? = some nodeId := by
        rcases snoc_eq_append_cons stack nodeId pre c post hdecomp with
          ⟨hpre, hcn, hpost⟩ | ⟨post0, hpost, hstk⟩
        · rw [hpost, hcn]
          rfl
        · rw [hpost]
          rw [show c :: (post0 ++ [nodeId]) = (c :: post0) ++ [nodeId] from rfl]
          exact List.getLast?_concat _
      have hsuffix : (c :: post) <:+ (stack ++ [nodeId]) := ⟨pre, hdecomp.symm⟩
      have hchain2 : List.Chain' (Edge g.adjacencyList) (c :: post) :=
        List.Chain'.suffix hchain hsuffix
      have hCL : List.Chain' (Edge g.adjacencyList) ((c :: post) ++ [c]) := by
        rw [List.chain'_append]
        refine ⟨hchain2, List.chain'_singleton c, ?_⟩
        intro x hx y hy
        rw [hlast] at hx
        simp only [Option.mem_def, Option.some.injEq] at hx
        simp only [List.head?_cons, Option.mem_def, Option.some.injEq] at hy
        rw [← hx, ← hy]
        exact hedge
      have hrevlist : ((c :: post) ++ [c]).reverse = c :: (post.reverse ++ [c]) := by
        simp
      have hrev : List.Chain' (flip (Edge g.adjacencyList)) (((c :: post) ++ [c]).reverse) :=
        List.chain'_reverse.mpr hCL
      rw [hrevlist] at hrev
      have hdep : List.Chain' (DepStep wos) (c :: post.reverse ++ [c]) := by
        refine List.Chain'.imp ?_ hrev
        intro a b hab
        exact edge_to_dep g wos hwf hw hnd hclean b a hab
      have hpostlen : post.length ≤ wos.length := by
        have h1 : (stack ++ [nodeId]).length = pre.length + (post.length + 1) := by
          rw [hdecomp]
          simp
        have h2 : stack.length ≤ visited.length :=
          nodup_sub_length_le stack visited hstacknd hstackvis
        have h3 : visited.length ≤ (g.workOrders.map Prod.fst).length :=
          nodup_sub_length_le visited _ hvisnd hvisK
        simp only [List.length_append, List.length_singleton] at h1
        omega
      have hreach : c ∈ reachWithin wos wos.length c :=
        reach_intro wos post.reverse wos.length c c hdep (by
          rw [List.length_reverse]
          exact hpostlen)
      rw [hKeq] at hcK
      obtain ⟨wo, hwo, hwoid⟩ := List.mem_map.mp hcK
      rw [← hwoid] at hreach
      exact hacyc wo hwo hreach
    have hstep : dfsCycle g.adjacencyList (fuel + 1) nodeId visited stack
        = (alGetD g.adjacencyList nodeId []).foldl
            (fun acc neighborId =>
              if acc.1 then acc
              else if neighborId ∉ acc.2 then
                dfsCycle g.adjacencyList fuel neighborId acc.2 (stack ++ [nodeId])
              else if neighborId ∈ stack ++ [nodeId] then (true, acc.2)
              else acc)
            (false, visited ++ [nodeId]) := by
      rw [dfsCycle]
      simp only [hvis', hstk']
    have hfold : ∀ (cs' : List String),
        (∀ c ∈ cs', c ∈ alGetD g.adjacencyList nodeId []) →
        ∀ vis : List String, (∀ v ∈ vis, v ∈ g.workOrders.map Prod.fst) → vis.Nodup →
          (∀ v ∈ stack ++ [nodeId], v ∈ vis) →
          (g.workOrders.map Prod.fst).length + 1 ≤ fuel + vis.length →
          (cs'.foldl
            (fun acc neighborId =>
              if acc.1 then acc
              else if neighborId ∉ acc.2 then
                dfsCycle g.adjacencyList fuel neighborId acc.2 (stack ++ [nodeId])
              else if neighborId ∈ stack ++ [nodeId] then (true, acc.2)
              else acc)
            (false, vis)).1 = false ∧
          (∀ v ∈ vis, v ∈ (cs'.foldl
            (fun acc neighborId =>
              if acc.1 then acc
              else if neighborId ∉ acc.2 then
                dfsCycle g.adjacencyList fuel neighborId acc.2 (stack ++ [nodeId])
              else if neighborId ∈ stack ++ [nodeId] then (true, acc.2)
              else acc)
            (false, vis)).2) ∧
          (∀ v ∈ (cs'.foldl
            (fun acc neighborId =>
              if acc.1 then acc
              else if neighborId ∉ acc.2 then
                dfsCycle g.adjacencyList fuel neighborId acc.2 (stack ++ [nodeId])
              else if neighborId ∈ stack ++ [nodeId] then (true, acc.2)
              else acc)
            (false, vis)).2, v ∈ g.workOrders.map Prod.fst) ∧
          (cs'.foldl
            (fun acc neighborId =>
              if acc.1 then acc
              else if neighborId ∉ acc.2 then
                dfsCycle g.adjacencyList fuel neighborId acc.2 (stack ++ [nodeId])
              else if neighborId ∈ stack ++ [nodeId] then (true, acc.2)
              else acc)
            (false, vis)).2.Nodup := by
      intro cs'
      induction cs' with
      | nil =>
        intro _ vis hvK hvnd _ _
        exact ⟨rfl, fun v hv => hv, hvK, hvnd⟩
      | cons c cs'' ih2 =>
        intro hcs vis hvK hvnd hbase hflen
        have hcmem : c ∈ alGetD g.adjacencyList nodeId [] :=
          hcs c (List.mem_cons_self _ _)
        rw [List.foldl_cons]
        by_cases hcvis : c ∈ vis
        · have hcnstk : c ∉ stack ++ [nodeId] := fun hc => hnocyc c hcmem hc
          have hred :
              (if (false : Bool) then ((false : Bool), vis)
               else if c ∉ vis then
                 dfsCycle g.adjacencyList fuel c vis (stack ++ [nodeId])
               else if c ∈ stack ++ [nodeId] then (true, vis)
               else (false, vis)) = ((false : Bool), vis) := by
            rw [if_neg (by simp), if_neg (by simp [hcvis]), if_neg hcnstk]
          rw [hred]
          exact ih2 (fun x hx => hcs x (List.mem_cons_of_mem _ hx)) vis hvK hvnd hbase hflen
        · have hred :
              (if (false : Bool) then ((false : Bool), vis)
               else if c ∉ vis then
                 dfsCycle g.adjacencyList fuel c vis (stack ++ [nodeId])
               else if c ∈ stack ++ [nodeId] then (true, vis)
               else (false, vis))
              = dfsCycle g.adjacencyList fuel c vis (stack ++ [nodeId]) := by
            rw [if_neg (by simp), if_pos hcvis]
          rw [hred]
          have hchain' : List.Chain' (Edge g.adjacencyList) ((stack ++ [nodeId]) ++ [c]) := by
            rw [List.chain'_append]
            refine ⟨hchain, List.chain'_singleton c, ?_⟩
            intro x hx y hy
            rw [List.getLast?_concat] at hx
            simp only [Option.mem_def, Option.some.injEq] at hx
            simp only [List.head?_cons, Option.mem_def, Option.some.injEq] at hy
            rw [← hx, ← hy]
            exact hcmem
          obtain ⟨hf1, hf2, hf3, hf4⟩ := ih c vis (stack ++ [nodeId])
            (hcsK c hcmem) hvK hvnd hcvis hbase hstknd' hchain' hflen
          have hmono : ∀ v ∈ vis,
              v ∈ (dfsCycle g.adjacencyList fuel c vis (stack ++ [nodeId])).2 :=
            fun v hv => hf2 v (Or.inl hv)
          have hlen2 : vis.length ≤
              (dfsCycle g.adjacencyList fuel c vis (stack ++ [nodeId])).2.length :=
            nodup_sub_length_le vis _ hvnd hmono
          have hres := ih2 (fun x hx => hcs x (List.mem_cons_of_mem _ hx))
            (dfsCycle g.adjacencyList fuel c vis (stack ++ [nodeId])).2 hf3 hf4
            (fun v hv => hmono v (hbase v hv)) (by omega)
          -- the recursive result carries the false flag, so the pair is
          -- exactly (false, visited₂)
          have hpair : dfsCycle g.adjacencyList fuel c vis (stack ++ [nodeId])
              = ((false : Bool),
                 (dfsCycle g.adjacencyList fuel c vis (stack ++ [nodeId])).2) := by
            have := hf1
            cases hd : dfsCycle g.adjacencyList fuel c vis (stack ++ [nodeId]) with
            | mk a b =>
              rw [hd] at this
              simp only at this
              rw [this]
          rw [hpair]
          refine ⟨hres.1, fun v hv => hres.2.1 v (hmono v hv), hres.2.2.1, hres.2.2.2⟩
    rw [hstep]
    obtain ⟨h1, h2, h3, h4⟩ := hfold (alGetD g.adjacencyList nodeId []) (fun c hc => hc)
      (visited ++ [nodeId])
      (by
        intro v hv
        rcases List.mem_append.mp hv with hv | hv
        · exact hvisK v hv
        · rw [List.mem_singleton.mp hv]
          exact hK)
      (by
        simp only [List.nodup_append, List.nodup_singleton]
        exact ⟨hvisnd, trivial, fun a ha hb => hnodefresh ((List.mem_singleton.mp hb) ▸ ha)⟩)
      (by
        intro v hv
        rcases List.mem_append.mp hv with hv | hv
        · exact List.mem_append.mpr (Or.inl (hstackvis v hv))
        · exact List.mem_append.mpr (Or.inr hv))
      (by
        simp only [List.length_append, List.length_singleton]
        omega)
    refine ⟨h1, ?_, h3, h4⟩
    intro v hv
    apply h2
    rcases hv with hv | rfl
    · exact List.mem_append.mpr (Or.inl hv)
    · exact List.mem_append.mpr (Or.inr (List.mem_singleton.mpr rfl))

end DependencyGraph

namespace DependencyGraph

/-- On a clean graph whose depends-on relation is acyclic, hasCycles
reports no cycle. -/
theorem hasCycles_false_of_acyclic (g : DependencyGraph) (wos : List WorkOrderDocument)
    (hwf : GraphWF g) (hw : g.workOrders = wos.map (fun wo => (wo.docId, wo)))
    (hnd : (wos.map WorkOrderDocument.docId).Nodup)
    (hclean : ∀ c, CleanNode g.adjacencyList g.workOrders g.inDegree c)
    (hacyc : AcyclicWos wos) :
    hasCycles g = false := by
  have hfold : ∀ (ns : List String), (∀ x ∈ ns, x ∈ g.workOrders.map Prod.fst) →
      ∀ vis : List String, (∀ v ∈ vis, v ∈ g.workOrders.map Prod.fst) → vis.Nodup →
        (ns.foldl
          (fun acc nodeId =>
            if acc.1 then acc
            else if nodeId ∈ acc.2 then acc
            else dfsCycle g.adjacencyList ((nodeIds g).length + 1) nodeId acc.2 [])
          ((false : Bool), vis)).1 = false ∧
        (∀ v ∈ (ns.foldl
          (fun acc nodeId =>
            if acc.1 then acc
            else if nodeId ∈ acc.2 then acc
            else dfsCycle g.adjacencyList ((nodeIds g).length + 1) nodeId acc.2 [])
          ((false : Bool), vis)).2, v ∈ g.workOrders.map Prod.fst) ∧
        (ns.foldl
          (fun acc nodeId =>
            if acc.1 then acc
            else if nodeId ∈ acc.2 then acc
            else dfsCycle g.adjacencyList ((nodeIds g).length + 1) nodeId acc.2 [])
          ((false : Bool), vis)).2.Nodup := by
    intro ns
    induction ns with
    | nil =>
      intro _ vis hvK hvnd
      exact ⟨rfl, hvK, hvnd⟩
    | cons n ns' ih =>
      intro hns vis hvK hvnd
      have hnK : n ∈ g.workOrders.map Prod.fst := hns n (List.mem_cons_self _ _)
      have hns' : ∀ x ∈ ns', x ∈ g.workOrders.map Prod.fst :=
        fun x hx => hns x (List.mem_cons_of_mem _ hx)
      rw [List.foldl_cons]
      by_cases hnvis : n ∈ vis
      · have hred : (if (false : Bool) then ((false : Bool), vis)
            else if n ∈ vis then ((false : Bool), vis)
            else dfsCycle g.adjacencyList ((nodeIds g).length + 1) n vis [])
            = ((false : Bool), vis) := by
          rw [if_neg (by simp), if_pos hnvis]
        rw [hred]
        exact ih hns' vis hvK hvnd
      · have hred : (if (false : Bool) then ((false : Bool), vis)
            else if n ∈ vis then ((false : Bool), vis)
            else dfsCycle g.adjacencyList ((nodeIds g).length + 1) n vis [])
            = dfsCycle g.adjacencyList ((nodeIds g).length + 1) n vis [] := by
          rw [if_neg (by simp), if_neg hnvis]
        rw [hred]
        obtain ⟨hf1, hf2, hf3, hf4⟩ := dfsCycle_acyclic g wos hwf hw hnd hclean hacyc
          ((nodeIds g).length + 1) n vis [] hnK hvK hvnd hnvis
          (by intro s hs; simp at hs) List.nodup_nil
          (by
            rw [List.nil_append]
            exact List.chain'_singleton n)
          (by
            show (g.workOrders.map Prod.fst).length + 1 ≤ (nodeIds g).length + 1 + vis.length
            unfold nodeIds
            simp only [List.length_map]
            omega)
        have hpair : dfsCycle g.adjacencyList ((nodeIds g).length + 1) n vis []
            = ((false : Bool),
               (dfsCycle g.adjacencyList ((nodeIds g).length + 1) n vis []).2) := by
          cases hd : dfsCycle g.adjacencyList ((nodeIds g).length + 1) n vis [] with
          | mk a b =>
            rw [hd] at hf1
            simp only at hf1
            rw [hf1]
        rw [hpair]
        exact ih hns' _ hf3 hf4
  unfold hasCycles
  exact (hfold (nodeIds g) (fun x hx => hx) [] (by simp) List.nodup_nil).1

end DependencyGraph

/-- Two-order input whose second order lists its (existing) parent
twice: the dependency relation is acyclic. -/
def c10wos : List WorkOrderDocument :=
  [⟨"w1", ⟨"W1", "wc-1", mkInstant 20101 8 0, mkInstant 20101 9 0, 60, false, []⟩⟩,
   ⟨"w2", ⟨"W2", "wc-1", mkInstant 20101 9 0, mkInstant 20101 10 0, 60, false,
     ["w1", "w1"]⟩⟩]

/-- Graph built from the duplicated-parent input. -/
def c10dag : DependencyGraph :=
  match DependencyGraph.buildGraph c10wos with
  | .ok g => g
  | .error _ => ⟨[], [], []⟩

/-- C10: if the work-order ids are pairwise distinct, the depends-on
relation is acyclic, the graph builds successfully (so every referenced
parent exists), and some order lists a parent id more than once, then
hasCycles returns false while topologicalSort fails with the
cycle-detected error: the duplicated entry inflates the stored
in-degree while the adjacency set deduplicates the edge, so Kahn's
algorithm emits fewer nodes than exist. -/
theorem claimC10_theorem (wos : List WorkOrderDocument) (g : DependencyGraph)
    (hnd : (wos.map WorkOrderDocument.docId).Nodup)
    (hacyc : AcyclicWos wos)
    (hdag : DependencyGraph.buildGraph wos = .ok g)
    (hdup : ∃ wo ∈ wos, ¬wo.data.dependsOnWorkOrderIds.Nodup) :
    DependencyGraph.hasCycles g = false ∧
    DependencyGraph.topologicalSort g = .error DependencyGraph.countErrMsg := by
  have hwf := DependencyGraph.buildGraph_wf wos g hdag
  have hw := DependencyGraph.buildGraph_workOrders wos hnd g hdag
  have hclean := DependencyGraph.buildGraph_cleanNode wos hnd g hdag
  have hnc : DependencyGraph.hasCycles g = false :=
    DependencyGraph.hasCycles_false_of_acyclic g wos hwf hw hnd hclean hacyc
  refine ⟨hnc, DependencyGraph.topologicalSort_not_ok g hnc ?_⟩
  intro res hres
  obtain ⟨Df, hinv, _⟩ := DependencyGraph.topologicalSort_ok_inv g hwf res hres
  obtain ⟨wo, hwo, hwond⟩ := hdup
  have hmem : (wo.docId, wo) ∈ g.workOrders := by
    rw [hw]
    exact List.mem_map.mpr ⟨wo, hwo, rfl⟩
  have hinres : wo ∈ res :=
    DependencyGraph.topologicalSort_all_emitted g hwf res hres (wo.docId, wo) hmem
  obtain ⟨pre, suf, hre⟩ := List.append_of_mem hinres
  exact hwond (hinv.resOrdered pre wo suf hre (hclean wo.docId)).1

/-- C10 witness: on the concrete duplicated-parent input, hasCycles is
false and topologicalSort raises the cycle-detected error. -/
theorem claimC10_witness :
    DependencyGraph.hasCycles c10dag = false ∧
    DependencyGraph.topologicalSort c10dag = .error DependencyGraph.countErrMsg :=
  claimC10_theorem c10wos c10dag (by decide) (by decide) rfl
    ⟨⟨"w2", ⟨"W2", "wc-1", mkInstant 20101 9 0, mkInstant 20101 10 0, 60, false,
       ["w1", "w1"]⟩⟩, by decide, by decide⟩

namespace DependencyGraph

/-- When every dependency of v has been emitted, the emitted-parent
count of v equals the size of its (duplicate-free) dependency list. -/
theorem adjParentsIn_full (adj : List (String × List String))
    (hkeysnd : (adj.map Prod.fst).Nodup) (v : String) (S : List String)
    (emitted : List String) (hS : S.Nodup)
    (hSem : ∀ p ∈ S, p ∈ emitted)
    (hiff : ∀ p, (∃ l, alGet adj p = some l ∧ v ∈ l) ↔ p ∈ S) :
    adjParentsIn adj v emitted = S.length := by
  have hfe : adj.filter (fun e => decide (e.1 ∈ emitted) && decide (v ∈ e.2))
      = adj.filter (fun e => decide (e.1 ∈ S)) := by
    apply List.filter_congr
    intro e he
    have hget : alGet adj e.1 = some e.2 :=
      alGet_of_mem_nodup adj e.1 e.2 hkeysnd (by
        cases e
        exact he)
    rw [Bool.eq_iff_iff]
    simp only [Bool.and_eq_true, decide_eq_true_eq]
    constructor
    · rintro ⟨_, hv⟩
      exact (hiff e.1).mp ⟨e.2, hget, hv⟩
    · intro heS
      obtain ⟨l, hl, hvl⟩ := (hiff e.1).mpr heS
      rw [hget] at hl
      cases Option.some.inj hl
      exact ⟨hSem e.1 heS, hvl⟩
  have hmapeq : (adj.filter (fun e => decide (e.1 ∈ S))).map Prod.fst
      = (adj.map Prod.fst).filter (fun k => decide (k ∈ S)) := by
    rw [List.filter_map]
    rfl
  have hnd2 : ((adj.map Prod.fst).filter (fun k => decide (k ∈ S))).Nodup :=
    List.Nodup.sublist (List.filter_sublist _) hkeysnd
  have hsub1 : ∀ x ∈ (adj.map Prod.fst).filter (fun k => decide (k ∈ S)), x ∈ S := by
    intro x hx
    have := List.of_mem_filter hx
    exact of_decide_eq_true this
  have hsub2 : ∀ x ∈ S, x ∈ (adj.map Prod.fst).filter (fun k => decide (k ∈ S)) := by
    intro x hx
    obtain ⟨l, hl, _⟩ := (hiff x).mpr hx
    have hxk : x ∈ adj.map Prod.fst := mem_keys_of_alGet_isSome adj x (by simp [hl])
    exact List.mem_filter.mpr ⟨hxk, decide_eq_true hx⟩
  have hlen : ((adj.map Prod.fst).filter (fun k => decide (k ∈ S))).length = S.length := by
    have h1 := nodup_sub_length_le _ S hnd2 hsub1
    have h2 := nodup_sub_length_le S _ hS hsub2
    omega
  unfold adjParentsIn
  calc (adj.filter (fun e => decide (e.1 ∈ emitted) && decide (v ∈ e.2))).length
      = (adj.filter (fun e => decide (e.1 ∈ S))).length := by rw [hfe]
    _ = ((adj.filter (fun e => decide (e.1 ∈ S))).map Prod.fst).length := by
        rw [List.length_map]
    _ = S.length := by rw [hmapeq, hlen]

end DependencyGraph

theorem range'_snoc (a n : Nat) : List.range' a (n + 1) = List.range' a n ++ [a + n] := by
  induction n generalizing a with
  | zero => simp
  | succ m ih =>
    rw [List.range'_succ, ih (a + 1), List.range'_succ]
    rw [List.cons_append]
    have : a + 1 + m = a + (m + 1) := by omega
    rw [this]

namespace DependencyGraph

/-- Kahn completeness: with distinct ids, duplicate-free dependency
lists, an acyclic depends-on relation, and a successfully built graph,
the topological sort succeeds. -/
theorem topologicalSort_complete (wos : List WorkOrderDocument) (g : DependencyGraph)
    (hnd : (wos.map WorkOrderDocument.docId).Nodup)
    (hdeps : ∀ wo ∈ wos, wo.data.dependsOnWorkOrderIds.Nodup)
    (hacyc : AcyclicWos wos)
    (hdag : buildGraph wos = .ok g) :
    ∃ L, topologicalSort g = .ok L := by
  classical
  have hwf := buildGraph_wf wos g hdag
  have hw := buildGraph_workOrders wos hnd g hdag
  have hclean := buildGraph_cleanNode wos hnd g hdag
  have hnc := hasCycles_false_of_acyclic g wos hwf hw hnd hclean hacyc
  have hKeq : g.workOrders.map Prod.fst = wos.map WorkOrderDocument.docId := by
    rw [hw, List.map_map]
    rfl
  obtain ⟨Df, resf, hrun, hinv⟩ := kahnLoop_spec g.adjacencyList g.workOrders
    g.inDegree hwf.toKahnWF (g.workOrders.length + 1)
    ((g.inDegree.filter (fun p => p.2 = 0)).map (fun p => p.1)) g.inDegree []
    (kahnInv_init g hwf) (by simp [List.length_map])
  have hstep : ∀ v, v ∈ g.workOrders.map Prod.fst →
      v ∉ resf.map WorkOrderDocument.docId →
      ∃ p, (p ∈ g.workOrders.map Prod.fst ∧ p ∉ resf.map WorkOrderDocument.docId)
        ∧ p ∈ depsOf wos v := by
    intro v hvK hvE
    obtain ⟨doc, hdoc⟩ := Option.isSome_iff_exists.mp (alGet_isSome_of_mem _ _ hvK)
    obtain ⟨hD0, hiff⟩ := hclean v doc hdoc
    obtain ⟨dv, hdv, hdvpos⟩ := hinv.pendingPos v hvK (by simp) hvE
    have hacct := hinv.account v _ hD0
    rw [hdv] at hacct
    have hdveq : dv = (doc.data.dependsOnWorkOrderIds.length : Int)
        - (adjParentsIn g.adjacencyList v (resf.map WorkOrderDocument.docId) : Int) :=
      Option.some.inj hacct
    have hdocid_mem : doc ∈ wos ∧ doc.docId = v := by
      have hpmem : (v, doc) ∈ g.workOrders := alGet_mem _ _ _ hdoc
      rw [hw] at hpmem
      obtain ⟨w0, hw0, hw0e⟩ := List.mem_map.mp hpmem
      have h12 : w0.docId = v ∧ w0 = doc := by
        simpa [Prod.ext_iff] using hw0e
      exact ⟨h12.2 ▸ hw0, by rw [← h12.2]; exact h12.1⟩
    by_contra hcon
    push_neg at hcon
    have hall : ∀ p ∈ doc.data.dependsOnWorkOrderIds,
        p ∈ resf.map WorkOrderDocument.docId := by
      intro p hp
      have hpdeps : p ∈ depsOf wos v := by
        rw [← hdocid_mem.2, depsOf_eq_of_mem_nodup wos hnd doc hdocid_mem.1]
        exact hp
      have hpkeys : p ∈ g.workOrders.map Prod.fst := by
        obtain ⟨l, hl, _⟩ := (hiff p).mpr hp
        have hmem : p ∈ g.adjacencyList.map Prod.fst :=
          mem_keys_of_alGet_isSome _ _ (by simp [hl])
        rw [hwf.adjKeys] at hmem
        exact hmem
      by_contra hpE
      exact hcon p ⟨hpkeys, hpE⟩ hpdeps
    have hfull := adjParentsIn_full g.adjacencyList (hwf.adjKeys ▸ hwf.keysNodup) v
      doc.data.dependsOnWorkOrderIds (resf.map WorkOrderDocument.docId)
      (hdeps doc hdocid_mem.1) hall hiff
    rw [hfull] at hdveq
    omega
  have hcomplete : ∀ v ∈ g.workOrders.map Prod.fst,
      v ∈ resf.map WorkOrderDocument.docId := by
    by_contra hcon
    push_neg at hcon
    obtain ⟨v₀, hv₀K, hv₀E⟩ := hcon
    set G : String → String := fun v =>
      if h : ∃ p, (p ∈ g.workOrders.map Prod.fst ∧ p ∉ resf.map WorkOrderDocument.docId)
          ∧ p ∈ depsOf wos v then Classical.choose h else v with hGdef
    set seq : Nat → String := fun n => G^[n] v₀ with hseqdef
    have hseqS : ∀ n, seq (n + 1) = G (seq n) := by
      intro n
      rw [hseqdef]
      simp only
      exact Function.iterate_succ_apply' G n v₀
    have hseqInv : ∀ n, seq n ∈ g.workOrders.map Prod.fst ∧
        seq n ∉ resf.map WorkOrderDocument.docId := by
      intro n
      induction n with
      | zero => exact ⟨hv₀K, hv₀E⟩
      | succ m ihm =>
        rw [hseqS m]
        have hex := hstep (seq m) ihm.1 ihm.2
        rw [hGdef]
        simp only
        rw [dif_pos hex]
        exact (Classical.choose_spec hex).1
    have hseqD : ∀ n, DepStep wos (seq n) (seq (n + 1)) := by
      intro n
      have hex := hstep (seq n) (hseqInv n).1 (hseqInv n).2
      rw [hseqS n, hGdef]
      simp only
      rw [dif_pos hex]
      exact (Classical.choose_spec hex).2
    set N := (g.workOrders.map Prod.fst).length with hN
    have hNwos : N = wos.length := by
      rw [hN, hKeq, List.length_map]
    have hchainAll : ∀ (n a' : Nat),
        List.Chain' (DepStep wos) ((List.range' a' (n + 1)).map seq) := by
      intro n
      induction n with
      | zero =>
        intro a'
        rw [List.range'_one, List.map_singleton]
        exact List.chain'_singleton _
      | succ m ihm =>
        intro a'
        rw [List.range'_succ, List.map_cons]
        have h2 := ihm (a' + 1)
        rw [List.range'_succ, List.map_cons] at h2
        rw [List.range'_succ, List.map_cons]
        exact List.chain'_cons.mpr ⟨hseqD a', h2⟩
    have hkey : ∀ a b, a < b → b ≤ N → seq a = seq b → False := by
      intro a b hab hbN heqab
      set d := b - a - 1 with hd
      have hsplit : List.range' a (b - a + 1) = a :: (List.range' (a + 1) d ++ [b]) := by
        have h1 : b - a + 1 = d + 2 := by omega
        rw [h1, List.range'_succ, range'_snoc]
        have h2 : a + 1 + d = b := by omega
        rw [h2]
      have hchain2 := hchainAll (b - a) a
      rw [show b - a = (b - a - 1) + 1 from by omega] at hchain2
      rw [show (b - a - 1) + 1 + 1 = b - a + 1 from by omega] at hchain2
      rw [hsplit, List.map_cons, List.map_append, List.map_singleton] at hchain2
      rw [← heqab] at hchain2
      have hreach := reach_intro wos ((List.range' (a + 1) d).map seq) wos.length
        (seq a) (seq a) hchain2 (by
          rw [List.length_map, List.length_range']
          omega)
      have hkmem : seq a ∈ wos.map WorkOrderDocument.docId := by
        rw [← hKeq]
        exact (hseqInv a).1
      obtain ⟨wo, hwo, hwoid⟩ := List.mem_map.mp hkmem
      rw [← hwoid] at hreach
      exact hacyc wo hwo hreach
    have hmaps : ∀ i ∈ Finset.range (N + 1),
        seq i ∈ (g.workOrders.map Prod.fst).toFinset := by
      intro i _
      rw [List.mem_toFinset]
      exact (hseqInv i).1
    have hcard : (g.workOrders.map Prod.fst).toFinset.card < (Finset.range (N + 1)).card := by
      rw [Finset.card_range]
      have := List.toFinset_card_le (g.workOrders.map Prod.fst)
      omega
    obtain ⟨i, hi, j, hj, hij, heq⟩ :=
      Finset.exists_ne_map_eq_of_card_lt_of_maps_to hcard hmaps
    have hiN : i ≤ N := by
      have := Finset.mem_range.mp hi
      omega
    have hjN : j ≤ N := by
      have := Finset.mem_range.mp hj
      omega
    rcases Nat.lt_or_ge i j with hlt | hge
    · exact hkey i j hlt hjN heq
    · have hlt2 : j < i := by omega
      exact hkey j i hlt2 hiN heq.symm
  have hsub : ∀ v ∈ resf.map WorkOrderDocument.docId, v ∈ g.workOrders.map Prod.fst :=
    resIds_subset_keys _ _ hinv.resDocs
  have hlen1 := nodup_sub_length_le _ _ hinv.resNodup hsub
  have hlen2 := nodup_sub_length_le _ _ hwf.keysNodup hcomplete
  have hlen : resf.length = g.workOrders.length := by
    simp only [List.length_map] at hlen1 hlen2
    omega
  refine ⟨resf, ?_⟩
  unfold topologicalSort
  rw [if_neg (by simp [hnc])]
  simp only
  rw [hrun]
  simp [hlen]

end DependencyGraph

/-- Acyclic two-order input whose second order lists its parent twice:
the C2 counterexample scenario. -/
def c2wos : List WorkOrderDocument :=
  [⟨"x1", ⟨"X1", "wc-1", mkInstant 20101 8 0, mkInstant 20101 9 0, 60, false, []⟩⟩,
   ⟨"x2", ⟨"X2", "wc-1", mkInstant 20101 9 0, mkInstant 20101 10 0, 60, false,
     ["x1", "x1"]⟩⟩]

/-- C2: the claim states that topologicalSort succeeds on every acyclic
work-order list.  An acyclic input with a duplicated parent entry makes
it fail with the cycle-detected error instead. -/
theorem claimC2_counterexample :
    AcyclicWos c2wos ∧
    DependencyGraph.topologicalSortOf c2wos = .error DependencyGraph.countErrMsg :=
  ⟨by decide, rfl⟩

/-- C2 (amended): for every acyclic work-order list with pairwise
distinct ids and duplicate-free dependency lists whose graph builds
successfully, the topological sort succeeds, its output length equals
the input count, and every dependency of an output entry appears at an
earlier position of the output. -/
theorem claimC2_amended (wos : List WorkOrderDocument) (g : DependencyGraph)
    (hnd : (wos.map WorkOrderDocument.docId).Nodup)
    (hdeps : ∀ wo ∈ wos, wo.data.dependsOnWorkOrderIds.Nodup)
    (hacyc : AcyclicWos wos)
    (hdag : DependencyGraph.buildGraph wos = .ok g) :
    ∃ L, DependencyGraph.topologicalSortOf wos = .ok L ∧ L.length = wos.length ∧
      ∀ pre u suf, L = pre ++ u :: suf →
        ∀ p ∈ u.data.dependsOnWorkOrderIds, p ∈ pre.map WorkOrderDocument.docId := by
  obtain ⟨L, hok⟩ := DependencyGraph.topologicalSort_complete wos g hnd hdeps hacyc hdag
  have hwf := DependencyGraph.buildGraph_wf wos g hdag
  have hw := DependencyGraph.buildGraph_workOrders wos hnd g hdag
  have hclean := DependencyGraph.buildGraph_cleanNode wos hnd g hdag
  obtain ⟨Df, hinv, hlen⟩ := DependencyGraph.topologicalSort_ok_inv g hwf L hok
  refine ⟨L, ?_, ?_, ?_⟩
  · unfold DependencyGraph.topologicalSortOf
    rw [hdag]
    exact hok
  · rw [hlen, hw, List.length_map]
  · intro pre u suf hL p hp
    exact (hinv.resOrdered pre u suf hL (hclean u.docId)).2 p hp

/-- Distinct-id chain for the C2 witness. -/
def c2okWos : List WorkOrderDocument :=
  [⟨"y1", ⟨"Y1", "wc-1", mkInstant 20101 8 0, mkInstant 20101 9 0, 60, false, []⟩⟩,
   ⟨"y2", ⟨"Y2", "wc-1", mkInstant 20101 9 0, mkInstant 20101 10 0, 60, false, ["y1"]⟩⟩]

/-- Graph built from the witness input. -/
def c2okDag : DependencyGraph :=
  match DependencyGraph.buildGraph c2okWos with
  | .ok g => g
  | .error _ => ⟨[], [], []⟩

/-- C2 witness: all amended hypotheses hold on the chain input and the
sort succeeds with a complete, dependency-ordered output. -/
theorem claimC2_witness :
    (c2okWos.map WorkOrderDocument.docId).Nodup ∧ AcyclicWos c2okWos ∧
    ∃ L, DependencyGraph.topologicalSortOf c2okWos = .ok L ∧ L.length = c2okWos.length ∧
      ∀ pre u suf, L = pre ++ u :: suf →
        ∀ p ∈ u.data.dependsOnWorkOrderIds, p ∈ pre.map WorkOrderDocument.docId :=
  ⟨by decide, by decide,
   claimC2_amended c2okWos c2okDag (by decide) (by decide) (by decide) rfl⟩

/-! ## Claim C5: the adjacent-pair overlap scan -/

/-- Same-work-center disjointness between two work orders (no
maintenance exemption: the checker scans every order). -/
def CenterDisjoint (a b : WorkOrderDocument) : Prop :=
  a.data.workCenterId = b.data.workCenterId →
  ¬(a.data.startDate < b.data.endDate ∧ b.data.startDate < a.data.endDate)

instance : DecidableRel CenterDisjoint := fun a b => by
  unfold CenterDisjoint
  infer_instance

theorem centerDisjoint_symm : Symmetric CenterDisjoint := by
  intro a b hab hwc hov
  exact hab hwc.symm ⟨hov.2, hov.1⟩

theorem foldl_append_flatMap {α β : Type} (f : α → List β) :
    ∀ (l : List α) (init : List β),
      l.foldl (fun acc e => acc ++ f e) init = init ++ l.flatMap f := by
  intro l
  induction l with
  | nil => intro init; simp
  | cons e rest ih =>
    intro init
    rw [List.foldl_cons, ih, List.flatMap_cons, List.append_assoc]

theorem zip_tail_decomp {α : Type} :
    ∀ (l : List α) (a b : α), (a, b) ∈ l.zip l.tail →
      ∃ l1 l2, l = l1 ++ a :: b :: l2 := by
  intro l
  induction l with
  | nil => intro a b h; simp at h
  | cons x rest ih =>
    intro a b h
    cases rest with
    | nil => simp at h
    | cons y rest' =>
      rw [show (x :: y :: rest').tail = y :: rest' from rfl] at h
      rw [List.zip_cons_cons] at h
      rcases List.mem_cons.mp h with h | h
      · obtain ⟨h1, h2⟩ := Prod.mk.inj h
        refine ⟨[], rest', ?_⟩
        rw [← h1, ← h2]
        rfl
      · obtain ⟨l1, l2, hdec⟩ := ih a b h
        exact ⟨x :: l1, l2, by rw [List.cons_append, ← hdec]⟩

theorem mem_zip_tail_of_decomp {α : Type} :
    ∀ (l1 : List α) (a b : α) (l2 : List α),
      (a, b) ∈ (l1 ++ a :: b :: l2).zip (l1 ++ a :: b :: l2).tail := by
  intro l1
  induction l1 with
  | nil =>
    intro a b l2
    rw [List.nil_append, show (a :: b :: l2).tail = b :: l2 from rfl, List.zip_cons_cons]
    exact List.mem_cons_self _ _
  | cons x rest ih =>
    intro a b l2
    rw [List.cons_append]
    cases hrest : rest ++ a :: b :: l2 with
    | nil =>
      exact absurd hrest (by simp)
    | cons y t =>
      rw [show (x :: y :: t).tail = y :: t from rfl, List.zip_cons_cons]
      apply List.mem_cons_of_mem
      have hmem := ih a b l2
      rw [hrest] at hmem
      exact hmem

namespace ConstraintChecker

theorem byWorkCenter_inv :
    ∀ (rest pref : List WorkOrderDocument) (m : List (String × List WorkOrderDocument)),
      (m.map Prod.fst).Nodup →
      (∀ w, w ∈ m.map Prod.fst ↔ ∃ x ∈ pref, x.data.workCenterId = w) →
      (∀ w l, alGet m w = some l →
        l = pref.filter (fun x => decide (x.data.workCenterId = w))) →
      ((rest.foldl (fun m wo =>
          alSet m wo.data.workCenterId (alGetD m wo.data.workCenterId [] ++ [wo])) m).map
            Prod.fst).Nodup ∧
      (∀ w, w ∈ (rest.foldl (fun m wo =>
          alSet m wo.data.workCenterId (alGetD m wo.data.workCenterId [] ++ [wo])) m).map
            Prod.fst ↔ ∃ x ∈ pref ++ rest, x.data.workCenterId = w) ∧
      (∀ w l, alGet (rest.foldl (fun m wo =>
          alSet m wo.data.workCenterId (alGetD m wo.data.workCenterId [] ++ [wo])) m) w
          = some l →
        l = (pref ++ rest).filter (fun x => decide (x.data.workCenterId = w))) := by
  intro rest
  induction rest with
  | nil =>
    intro pref m hnd hiff hget
    refine ⟨hnd, ?_, ?_⟩
    · intro w
      rw [List.append_nil]
      exact hiff w
    · intro w l hl
      rw [List.append_nil]
      exact hget w l hl
  | cons wo rest' ih =>
    intro pref m hnd hiff hget
    rw [List.foldl_cons]
    set m1 := alSet m wo.data.workCenterId (alGetD m wo.data.workCenterId [] ++ [wo])
      with hm1
    have hnd1 : (m1.map Prod.fst).Nodup := alSet_keys_nodup _ _ _ hnd
    have hiff1 : ∀ w, w ∈ m1.map Prod.fst ↔
        ∃ x ∈ pref ++ [wo], x.data.workCenterId = w := by
      intro w
      constructor
      · intro hw
        by_cases hmem : wo.data.workCenterId ∈ m.map Prod.fst
        · rw [hm1, alSet_keys_mem _ _ _ hmem] at hw
          obtain ⟨x, hx, hxe⟩ := (hiff w).mp hw
          exact ⟨x, List.mem_append.mpr (Or.inl hx), hxe⟩
        · rw [hm1, alSet_keys_not_mem _ _ _ hmem] at hw
          rcases List.mem_append.mp hw with hw | hw
          · obtain ⟨x, hx, hxe⟩ := (hiff w).mp hw
            exact ⟨x, List.mem_append.mpr (Or.inl hx), hxe⟩
          · exact ⟨wo, List.mem_append.mpr (Or.inr (List.mem_singleton.mpr rfl)),
              (List.mem_singleton.mp hw).symm⟩
      · rintro ⟨x, hx, hxe⟩
        rcases List.mem_append.mp hx with hx | hx
        · exact alSet_keys_superset _ _ _ w (Or.inl ((hiff w).mpr ⟨x, hx, hxe⟩))
        · rw [List.mem_singleton.mp hx] at hxe
          exact alSet_keys_superset _ _ _ w (Or.inr hxe.symm)
    have hget1 : ∀ w l, alGet m1 w = some l →
        l = (pref ++ [wo]).filter (fun x => decide (x.data.workCenterId = w)) := by
      intro w l hl
      by_cases hww : w = wo.data.workCenterId
      · subst hww
        rw [hm1, alGet_alSet_self] at hl
        have hfw : (pref ++ [wo]).filter
            (fun x => decide (x.data.workCenterId = wo.data.workCenterId)) =
            pref.filter (fun x => decide (x.data.workCenterId = wo.data.workCenterId))
              ++ [wo] := by
          rw [List.filter_append, List.filter_cons]
          rw [if_pos (by simp)]
          rfl
        rw [hfw]
        have hl2 : l = alGetD m wo.data.workCenterId [] ++ [wo] := (Option.some.inj hl).symm
        rw [hl2]
        cases halg : alGet m wo.data.workCenterId with
        | some l0 =>
          rw [alGetD, halg, Option.getD_some, hget _ l0 halg]
        | none =>
          rw [alGetD, halg, Option.getD_none]
          have hnotkey : wo.data.workCenterId ∉ m.map Prod.fst := by
            intro hc
            have := alGet_isSome_of_mem m _ hc
            rw [halg] at this
            cases this
          have hempty : pref.filter
              (fun x => decide (x.data.workCenterId = wo.data.workCenterId)) = [] := by
            rw [List.filter_eq_nil_iff]
            intro x hx
            simp only [decide_eq_true_eq]
            intro hxe
            exact hnotkey ((hiff wo.data.workCenterId).mpr ⟨x, hx, hxe⟩)
          rw [hempty]
      · rw [hm1, alGet_alSet_ne _ _ _ _ hww] at hl
        rw [List.filter_append]
        have hfw : [wo].filter (fun x => decide (x.data.workCenterId = w)) = [] := by
          rw [List.filter_cons]
          rw [if_neg (by simp [Ne.symm hww])]
          rfl
        rw [hfw, List.append_nil]
        exact hget w l hl
    have hmain := ih (pref ++ [wo]) m1 hnd1 hiff1 hget1
    have hasc : (pref ++ [wo]) ++ rest' = pref ++ wo :: rest' := by simp
    rw [← hasc]
    exact hmain

end ConstraintChecker

namespace ConstraintChecker

theorem byWorkCenter_spec (wos : List WorkOrderDocument) :
    (((byWorkCenter wos).map Prod.fst).Nodup) ∧
    (∀ w, w ∈ (byWorkCenter wos).map Prod.fst ↔ ∃ x ∈ wos, x.data.workCenterId = w) ∧
    (∀ w l, alGet (byWorkCenter wos) w = some l →
      l = wos.filter (fun x => decide (x.data.workCenterId = w))) := by
  have hmain := byWorkCenter_inv wos [] [] List.nodup_nil
    (by
      intro w
      simp)
    (by
      intro w l hl
      simp [alGet] at hl)
  unfold byWorkCenter
  refine ⟨hmain.1, ?_, ?_⟩
  · intro w
    have := hmain.2.1 w
    rw [List.nil_append] at this
    exact this
  · intro w l hl
    have := hmain.2.2 w l hl
    rw [List.nil_append] at this
    exact this

theorem checkWorkCenterConflicts_eq (wos : List WorkOrderDocument)
    (wcMap : List (String × WorkCenterDocument)) :
    checkWorkCenterConflicts wos wcMap = (byWorkCenter wos).flatMap (fun entry =>
      ((entry.2.insertionSort startLe).zip (entry.2.insertionSort startLe).tail).filterMap
        (fun pr =>
          if DateUtils.timePeriodsOverlap pr.1.data.startDate pr.1.data.endDate
              pr.2.data.startDate pr.2.data.endDate then
            some { type := .WORK_CENTER_OVERLAP
                   workOrderId := pr.2.docId
                   message := "Work order " ++ pr.2.data.workOrderNumber
                     ++ " overlaps with " ++ pr.1.data.workOrderNumber
                     ++ " on work center "
                     ++ (match alGet wcMap entry.1 with
                         | some wc => wc.data.name
                         | none => entry.1) }
          else none)) := by
  unfold checkWorkCenterConflicts
  rw [foldl_append_flatMap]
  rw [List.nil_append]

theorem checkWorkCenterConflicts_types (wos : List WorkOrderDocument)
    (wcMap : List (String × WorkCenterDocument)) :
    ∀ v ∈ checkWorkCenterConflicts wos wcMap,
      v.type = ViolationType.WORK_CENTER_OVERLAP := by
  intro v hv
  rw [checkWorkCenterConflicts_eq] at hv
  obtain ⟨entry, _, hmem⟩ := List.mem_flatMap.mp hv
  obtain ⟨pr, _, hpr⟩ := List.mem_filterMap.mp hmem
  split at hpr
  · cases Option.some.inj hpr
    rfl
  · cases hpr

theorem checkShiftBoundaries_types (wos : List WorkOrderDocument)
    (wcMap : List (String × WorkCenterDocument)) :
    ∀ v ∈ checkShiftBoundaries wos wcMap, v.type = ViolationType.OUTSIDE_SHIFT := by
  suffices h : ∀ (l : List WorkOrderDocument) (acc : List ConstraintViolation),
      (∀ v ∈ acc, v.type = ViolationType.OUTSIDE_SHIFT) →
      ∀ v ∈ l.foldl
        (fun acc wo =>
          match alGet wcMap wo.data.workCenterId with
          | none => acc
          | some workCenter =>
            let shifts := workCenter.data.shifts
            let acc :=
              if DateUtils.isDuringShift wo.data.startDate shifts then acc
              else acc ++ [{ type := .OUTSIDE_SHIFT, workOrderId := wo.docId
                             message := "Work order " ++ wo.data.workOrderNumber
                               ++ " starts outside shift hours" }]
            if DateUtils.isDuringShift wo.data.endDate shifts then acc
            else acc ++ [{ type := .OUTSIDE_SHIFT, workOrderId := wo.docId
                           message := "Work order " ++ wo.data.workOrderNumber
                             ++ " ends outside shift hours" }]) acc,
        v.type = ViolationType.OUTSIDE_SHIFT by
    intro v hv
    exact h wos [] (by simp) v hv
  intro l
  induction l with
  | nil => intro acc hacc v hv; exact hacc v hv
  | cons wo rest ih =>
    intro acc hacc v hv
    rw [List.foldl_cons] at hv
    apply ih _ ?_ v hv
    cases halg : alGet wcMap wo.data.workCenterId with
    | none =>
      simp only [halg]
      exact hacc
    | some wc =>
      simp only [halg]
      intro u hu
      split at hu
      · split at hu
        · exact hacc u hu
        · rcases List.mem_append.mp hu with hu | hu
          · exact hacc u hu
          · rw [List.mem_singleton.mp hu]
      · split at hu
        · rcases List.mem_append.mp hu with hu | hu
          · exact hacc u hu
          · rw [List.mem_singleton.mp hu]
        · rcases List.mem_append.mp hu with hu | hu
          · rcases List.mem_append.mp hu with hu | hu
            · exact hacc u hu
            · rw [List.mem_singleton.mp hu]
          · rw [List.mem_singleton.mp hu]

theorem checkMaintenanceConflicts_types (wos : List WorkOrderDocument)
    (wcMap : List (String × WorkCenterDocument)) :
    ∀ v ∈ checkMaintenanceConflicts wos wcMap,
      v.type = ViolationType.DURING_MAINTENANCE := by
  suffices h : ∀ (l : List WorkOrderDocument) (acc : List ConstraintViolation),
      (∀ v ∈ acc, v.type = ViolationType.DURING_MAINTENANCE) →
      ∀ v ∈ l.foldl
        (fun acc wo =>
          match alGet wcMap wo.data.workCenterId with
          | none => acc
          | some workCenter =>
            if DateUtils.overlapsMaintenance wo.data.startDate wo.data.endDate
                workCenter.data.maintenanceWindows then
              acc ++ [{ type := .DURING_MAINTENANCE, workOrderId := wo.docId
                        message := "Work order " ++ wo.data.workOrderNumber
                          ++ " is scheduled during maintenance window" }]
            else acc) acc,
        v.type = ViolationType.DURING_MAINTENANCE by
    intro v hv
    exact h wos [] (by simp) v hv
  intro l
  induction l with
  | nil => intro acc hacc v hv; exact hacc v hv
  | cons wo rest ih =>
    intro acc hacc v hv
    rw [List.foldl_cons] at hv
    apply ih _ ?_ v hv
    cases halg : alGet wcMap wo.data.workCenterId with
    | none =>
      simp only [halg]
      exact hacc
    | some wc =>
      simp only [halg]
      intro u hu
      split at hu
      · rcases List.mem_append.mp hu with hu | hu
        · exact hacc u hu
        · rw [List.mem_singleton.mp hu]
      · exact hacc u hu

theorem checkDependencies_ok_types (wos : List WorkOrderDocument)
    (r : List ConstraintViolation) (h : checkDependencies wos = .ok r) :
    ∀ v ∈ r, v.type = ViolationType.DEPENDENCY_NOT_MET := by
  unfold checkDependencies at h
  obtain ⟨dag, hdag, h⟩ := exceptBind_ok _ _ _ h
  suffices hmain : ∀ (l : List WorkOrderDocument) (acc : List ConstraintViolation),
      (∀ v ∈ acc, v.type = ViolationType.DEPENDENCY_NOT_MET) →
      ∀ (r' : List ConstraintViolation),
      l.foldlM
        (fun acc wo => do
          let parents ← DependencyGraph.getParents dag wo.docId
          Except.ok (acc ++ parents.filterMap
            (fun (parent : WorkOrderDocument) =>
              if parent.data.endDate > wo.data.startDate then
                some ({ type := .DEPENDENCY_NOT_MET
                        workOrderId := wo.docId
                        message := "Work order " ++ wo.data.workOrderNumber
                          ++ " starts before its dependency "
                          ++ parent.data.workOrderNumber ++ " completes" } :
                  ConstraintViolation)
              else none))) acc = .ok r' →
      ∀ v ∈ r', v.type = ViolationType.DEPENDENCY_NOT_MET by
    exact hmain wos [] (by simp) r h
  intro l
  induction l with
  | nil =>
    intro acc hacc r' hr'
    rw [List.foldlM_nil] at hr'
    cases hr'
    exact hacc
  | cons wo rest ih =>
    intro acc hacc r' hr'
    rw [List.foldlM_cons] at hr'
    obtain ⟨acc1, hacc1, hr'⟩ := exceptBind_ok _ _ _ hr'
    obtain ⟨parents, hpar, hacc1⟩ := exceptBind_ok _ _ _ hacc1
    cases hacc1
    apply ih _ ?_ r' hr'
    intro u hu
    rcases List.mem_append.mp hu with hu | hu
    · exact hacc u hu
    · obtain ⟨parent, _, hpr⟩ := List.mem_filterMap.mp hu
      split at hpr
      · cases Option.some.inj hpr
        rfl
      · cases hpr

end ConstraintChecker

theorem exists_bad_pair {α : Type} {R : α → α → Prop} :
    ∀ (l : List α), ¬ l.Pairwise R → ∃ a b, [a, b].Sublist l ∧ ¬ R a b := by
  intro l
  induction l with
  | nil => intro h; exact absurd List.Pairwise.nil h
  | cons x rest ih =>
    intro h
    by_cases hall : ∀ y ∈ rest, R x y
    · have hrest : ¬ rest.Pairwise R := fun hc => h (List.pairwise_cons.mpr ⟨hall, hc⟩)
      obtain ⟨a, b, hsub, hnr⟩ := ih hrest
      exact ⟨a, b, List.Sublist.cons _ hsub, hnr⟩
    · push_neg at hall
      obtain ⟨y, hy, hnr⟩ := hall
      exact ⟨x, y, List.Sublist.cons₂ _ (List.singleton_sublist.mpr hy), hnr⟩

theorem pair_sublist_of_mem {α : Type} :
    ∀ (l : List α) (a b : α), a ∈ l → b ∈ l → a ≠ b →
      [a, b].Sublist l ∨ [b, a].Sublist l := by
  intro l
  induction l with
  | nil => intro a b ha; simp at ha
  | cons x rest ih =>
    intro a b ha hb hab
    by_cases hxa : x = a
    · subst hxa
      have hbr : b ∈ rest := by
        rcases List.mem_cons.mp hb with h | h
        · exact absurd h.symm hab
        · exact h
      exact Or.inl (List.Sublist.cons₂ _ (List.singleton_sublist.mpr hbr))
    · by_cases hxb : x = b
      · subst hxb
        have har : a ∈ rest := by
          rcases List.mem_cons.mp ha with h | h
          · exact absurd h.symm (fun hc => hab hc.symm)
          · exact h
        exact Or.inr (List.Sublist.cons₂ _ (List.singleton_sublist.mpr har))
      · have har : a ∈ rest := (List.mem_cons.mp ha).resolve_left (fun h => hxa h.symm)
        have hbr : b ∈ rest := (List.mem_cons.mp hb).resolve_left (fun h => hxb h.symm)
        rcases ih a b har hbr hab with h | h
        · exact Or.inl (List.Sublist.cons _ h)
        · exact Or.inr (List.Sublist.cons _ h)

theorem pair_sublist_perm {α : Type} [DecidableEq α] (l₁ l₂ : List α)
    (hp : l₁.Perm l₂) (a b : α) (h : [a, b].Sublist l₁) :
    [a, b].Sublist l₂ ∨ [b, a].Sublist l₂ := by
  by_cases hab : a = b
  · subst hab
    have hcount : 2 ≤ l₁.count a := by
      have := List.Sublist.count_le h a
      simp at this
      omega
    have hcount2 : 2 ≤ l₂.count a := by
      rw [← hp.count_eq a]
      exact hcount
    have := List.le_count_iff_replicate_sublist.mp hcount2
    exact Or.inl (by simpa [List.replicate] using this)
  · have hma : a ∈ l₂ := hp.subset (h.subset (by simp))
    have hmb : b ∈ l₂ := hp.subset (h.subset (by simp))
    exact pair_sublist_of_mem l₂ a b hma hmb hab

namespace ConstraintChecker

/-- A start-sorted list of proper intervals without adjacent overlaps
is pairwise disjoint in order. -/
theorem sorted_no_adjacent_overlap :
    ∀ (l : List WorkOrderDocument),
      l.Sorted startLe →
      (∀ x ∈ l, x.data.startDate < x.data.endDate) →
      (∀ p ∈ l.zip l.tail, DateUtils.timePeriodsOverlap p.1.data.startDate
          p.1.data.endDate p.2.data.startDate p.2.data.endDate = false) →
      l.Pairwise (fun x y => x.data.endDate ≤ y.data.startDate) := by
  intro l
  induction l with
  | nil => intro _ _ _; exact List.Pairwise.nil
  | cons x rest ih =>
    intro hsort hse hadj
    cases rest with
    | nil => exact List.pairwise_singleton _ _
    | cons y rest' =>
      have hxymem : (x, y) ∈ (x :: y :: rest').zip (x :: y :: rest').tail := by
        rw [show (x :: y :: rest').tail = y :: rest' from rfl, List.zip_cons_cons]
        exact List.mem_cons_self _ _
      have hxy := hadj (x, y) hxymem
      unfold DateUtils.timePeriodsOverlap at hxy
      simp only [Bool.and_eq_false_iff, decide_eq_false_iff_not, Nat.not_lt] at hxy
      have hsxy : x.data.startDate ≤ y.data.startDate :=
        (List.pairwise_cons.mp hsort).1 y (List.mem_cons_self _ _)
      have hsey : y.data.startDate < y.data.endDate :=
        hse y (List.mem_cons_of_mem _ (List.mem_cons_self _ _))
      have hexy : x.data.endDate ≤ y.data.startDate := by
        rcases hxy with h | h
        · omega
        · omega
      have hadjrest : ∀ p ∈ (y :: rest').zip (y :: rest').tail,
          DateUtils.timePeriodsOverlap p.1.data.startDate p.1.data.endDate
            p.2.data.startDate p.2.data.endDate = false := by
        intro p hp
        apply hadj
        rw [show (x :: y :: rest').tail = y :: rest' from rfl, List.zip_cons_cons]
        exact List.mem_cons_of_mem _ hp
      have hres := ih (List.pairwise_cons.mp hsort).2
        (fun z hz => hse z (List.mem_cons_of_mem _ hz)) hadjrest
      refine List.pairwise_cons.mpr ⟨?_, hres⟩
      intro z hz
      rcases List.mem_cons.mp hz with rfl | hz
      · exact hexy
      · have := (List.pairwise_cons.mp hres).1 z hz
        omega

end ConstraintChecker

namespace DependencyGraph

theorem buildGraph_keys (wos : List WorkOrderDocument) (g : DependencyGraph)
    (h : buildGraph wos = .ok g) :
    ∀ wo ∈ wos, wo.docId ∈ g.workOrders.map Prod.fst := by
  unfold buildGraph at h
  obtain ⟨hinit, hids⟩ := initGraph_midWF wos
  obtain ⟨_, hw⟩ := addAllEdges_pres wos (initGraph wos) g hinit hids h
  intro wo hwo
  rw [hw]
  exact hids wo hwo

end DependencyGraph

namespace ConstraintChecker

theorem checkDependencies_ok (wos : List WorkOrderDocument) (g : DependencyGraph)
    (hdag : DependencyGraph.buildGraph wos = .ok g) :
    ∃ r, checkDependencies wos = .ok r := by
  have hkeys := DependencyGraph.buildGraph_keys wos g hdag
  suffices hmain : ∀ (l : List WorkOrderDocument),
      (∀ wo ∈ l, wo.docId ∈ g.workOrders.map Prod.fst) →
      ∀ acc : List ConstraintViolation,
      ∃ r, l.foldlM
        (fun acc wo => do
          let parents ← DependencyGraph.getParents g wo.docId
          Except.ok (acc ++ parents.filterMap
            (fun (parent : WorkOrderDocument) =>
              if parent.data.endDate > wo.data.startDate then
                some ({ type := .DEPENDENCY_NOT_MET
                        workOrderId := wo.docId
                        message := "Work order " ++ wo.data.workOrderNumber
                          ++ " starts before its dependency "
                          ++ parent.data.workOrderNumber ++ " completes" } :
                  ConstraintViolation)
              else none))) acc = .ok r by
    obtain ⟨r, hr⟩ := hmain wos hkeys []
    refine ⟨r, ?_⟩
    unfold checkDependencies
    rw [hdag]
    exact hr
  intro l
  induction l with
  | nil =>
    intro _ acc
    exact ⟨acc, rfl⟩
  | cons wo rest ih =>
    intro hl acc
    obtain ⟨doc, hdoc⟩ := Option.isSome_iff_exists.mp
      (alGet_isSome_of_mem _ _ (hl wo (List.mem_cons_self _ _)))
    obtain ⟨r, hr⟩ := ih (fun x hx => hl x (List.mem_cons_of_mem _ hx))
      (acc ++ (doc.data.dependsOnWorkOrderIds.filterMap
        (alGet g.workOrders)).filterMap
        (fun (parent : WorkOrderDocument) =>
          if parent.data.endDate > wo.data.startDate then
            some ({ type := .DEPENDENCY_NOT_MET
                    workOrderId := wo.docId
                    message := "Work order " ++ wo.data.workOrderNumber
                      ++ " starts before its dependency "
                      ++ parent.data.workOrderNumber ++ " completes" } :
              ConstraintViolation)
          else none))
    refine ⟨r, ?_⟩
    rw [List.foldlM_cons]
    have hpar : DependencyGraph.getParents g wo.docId
        = .ok (doc.data.dependsOnWorkOrderIds.filterMap (alGet g.workOrders)) := by
      unfold DependencyGraph.getParents
      rw [hdoc]
    rw [hpar]
    exact hr

end ConstraintChecker


/-- C5 (amended): for every work-order list whose orders all have
startDate strictly before endDate and whose dependency references all
exist (the graph builds), validate returns a violation list that
contains a WORK_CENTER_OVERLAP violation if and only if two distinct
orders on one work center have overlapping half-open intervals — the
sorted adjacent-pair scan misses no overlap and reports no spurious
one. -/
theorem claimC5_amended (wos : List WorkOrderDocument) (wcs : List WorkCenterDocument)
    (g : DependencyGraph)
    (hse : ∀ wo ∈ wos, wo.data.startDate < wo.data.endDate)
    (hdag : DependencyGraph.buildGraph wos = .ok g) :
    ∃ vs, ConstraintChecker.validate wos wcs = .ok vs ∧
      ((∃ v ∈ vs, v.type = ViolationType.WORK_CENTER_OVERLAP) ↔
        ¬ wos.Pairwise CenterDisjoint) := by
  classical
  obtain ⟨deps, hdeps⟩ := ConstraintChecker.checkDependencies_ok wos g hdag
  obtain ⟨hbwnd, hbwiff, hbwget⟩ := ConstraintChecker.byWorkCenter_spec wos
  refine ⟨ConstraintChecker.checkWorkCenterConflicts wos (mkWcMap wcs) ++ deps
    ++ ConstraintChecker.checkShiftBoundaries wos (mkWcMap wcs)
    ++ ConstraintChecker.checkMaintenanceConflicts wos (mkWcMap wcs), ?_, ?_, ?_⟩
  · unfold ConstraintChecker.validate
    rw [hdeps]
    rfl
  · -- a reported overlap is a genuine one
    rintro ⟨v, hv, hvt⟩
    rcases List.mem_append.mp hv with hv | hvm
    · rcases List.mem_append.mp hv with hv | hvs
      · rcases List.mem_append.mp hv with hv | hvd
        · rw [ConstraintChecker.checkWorkCenterConflicts_eq] at hv
          obtain ⟨entry, hentry, hvm2⟩ := List.mem_flatMap.mp hv
          obtain ⟨pr, hpr, hprv⟩ := List.mem_filterMap.mp hvm2
          have hgroup : entry.2 = wos.filter
              (fun x => decide (x.data.workCenterId = entry.1)) := by
            apply hbwget entry.1
            exact alGet_of_mem_nodup _ _ _ hbwnd (by
              cases entry
              exact hentry)
          have htpo : DateUtils.timePeriodsOverlap pr.1.data.startDate pr.1.data.endDate
              pr.2.data.startDate pr.2.data.endDate = true := by
            by_contra hc
            rw [Bool.not_eq_true] at hc
            rw [if_neg (by simp [hc])] at hprv
            cases hprv
          intro hpw
          have hperm : (entry.2.insertionSort ConstraintChecker.startLe).Perm entry.2 :=
            List.perm_insertionSort ConstraintChecker.startLe entry.2
          have hgsub : entry.2.Sublist wos := by
            rw [hgroup]
            exact List.filter_sublist wos
          have hpws : (entry.2.insertionSort ConstraintChecker.startLe).Pairwise
              CenterDisjoint :=
            (hperm.pairwise_iff (fun {x y} h => centerDisjoint_symm h)).mpr
              (List.Pairwise.sublist hgsub hpw)
          obtain ⟨l1, l2, hdec⟩ :=
            zip_tail_decomp (entry.2.insertionSort ConstraintChecker.startLe) pr.1 pr.2 hpr
          have hsub2 : [pr.1, pr.2].Sublist
              (entry.2.insertionSort ConstraintChecker.startLe) := by
            rw [hdec]
            refine List.Sublist.trans ?_ (List.sublist_append_right l1 _)
            exact List.Sublist.cons₂ _ (List.Sublist.cons₂ _ (List.nil_sublist l2))
          have hcd : CenterDisjoint pr.1 pr.2 :=
            List.pairwise_iff_forall_sublist.mp hpws hsub2
          have hm1 : pr.1 ∈ entry.2 := hperm.subset (hsub2.subset (by simp))
          have hm2 : pr.2 ∈ entry.2 := hperm.subset (hsub2.subset (by simp))
          have hwc1 : pr.1.data.workCenterId = entry.1 := by
            rw [hgroup] at hm1
            have := List.of_mem_filter hm1
            exact of_decide_eq_true this
          have hwc2 : pr.2.data.workCenterId = entry.1 := by
            rw [hgroup] at hm2
            have := List.of_mem_filter hm2
            exact of_decide_eq_true this
          unfold DateUtils.timePeriodsOverlap at htpo
          simp only [Bool.and_eq_true, decide_eq_true_eq] at htpo
          exact hcd (hwc1.trans hwc2.symm) ⟨htpo.1, htpo.2⟩
        · exact absurd ((ConstraintChecker.checkDependencies_ok_types wos deps hdeps
            v hvd) ▸ hvt) (by intro hc; cases hc)
      · exact absurd ((ConstraintChecker.checkShiftBoundaries_types wos (mkWcMap wcs)
          v hvs) ▸ hvt) (by intro hc; cases hc)
    · exact absurd ((ConstraintChecker.checkMaintenanceConflicts_types wos (mkWcMap wcs)
        v hvm) ▸ hvt) (by intro hc; cases hc)
  · -- a genuine overlap is reported
    intro hnp
    obtain ⟨a, b, habsub, hnr⟩ := exists_bad_pair wos hnp
    have hcd : a.data.workCenterId = b.data.workCenterId ∧
        (a.data.startDate < b.data.endDate ∧ b.data.startDate < a.data.endDate) := by
      unfold CenterDisjoint at hnr
      push_neg at hnr
      exact hnr
    have ha : a ∈ wos := habsub.subset (by simp)
    have hb : b ∈ wos := habsub.subset (by simp)
    have hkey : a.data.workCenterId ∈ (ConstraintChecker.byWorkCenter wos).map Prod.fst :=
      (hbwiff a.data.workCenterId).mpr ⟨a, ha, rfl⟩
    obtain ⟨l, hl⟩ := Option.isSome_iff_exists.mp
      (alGet_isSome_of_mem _ _ hkey)
    have hgroup : l = wos.filter
        (fun x => decide (x.data.workCenterId = a.data.workCenterId)) :=
      hbwget a.data.workCenterId l hl
    have hentrymem : (a.data.workCenterId, l) ∈ ConstraintChecker.byWorkCenter wos :=
      alGet_mem _ _ _ hl
    have habgroup : [a, b].Sublist l := by
      rw [hgroup]
      have := List.Sublist.filter
        (fun x => decide (x.data.workCenterId = a.data.workCenterId)) habsub
      have hfab : [a, b].filter
          (fun x => decide (x.data.workCenterId = a.data.workCenterId)) = [a, b] := by
        rw [List.filter_cons, if_pos (by simp), List.filter_cons,
          if_pos (by simp [hcd.1.symm])]
        rfl
      rw [hfab] at this
      exact this
    have hperm : (l.insertionSort ConstraintChecker.startLe).Perm l :=
      List.perm_insertionSort ConstraintChecker.startLe l
    by_cases hadj : ∀ p ∈ (l.insertionSort ConstraintChecker.startLe).zip
        (l.insertionSort ConstraintChecker.startLe).tail,
        DateUtils.timePeriodsOverlap p.1.data.startDate p.1.data.endDate
          p.2.data.startDate p.2.data.endDate = false
    · exfalso
      have hsorted : (l.insertionSort ConstraintChecker.startLe).Sorted
          ConstraintChecker.startLe :=
        List.sorted_insertionSort ConstraintChecker.startLe l
      have hse' : ∀ x ∈ l.insertionSort ConstraintChecker.startLe,
          x.data.startDate < x.data.endDate := by
        intro x hx
        have hxl : x ∈ l := hperm.subset hx
        rw [hgroup] at hxl
        exact hse x (List.mem_of_mem_filter hxl)
      have hPE := ConstraintChecker.sorted_no_adjacent_overlap
        (l.insertionSort ConstraintChecker.startLe) hsorted hse' hadj
      rcases pair_sublist_perm l (l.insertionSort ConstraintChecker.startLe)
          hperm.symm a b habgroup with hs | hs
      · have := List.pairwise_iff_forall_sublist.mp hPE hs
        omega
      · have := List.pairwise_iff_forall_sublist.mp hPE hs
        omega
    · push_neg at hadj
      obtain ⟨p, hp, hne⟩ := hadj
      have htrue : DateUtils.timePeriodsOverlap p.1.data.startDate p.1.data.endDate
          p.2.data.startDate p.2.data.endDate = true :=
        Bool.ne_false_iff.mp hne
      have hvin : ({ type := ViolationType.WORK_CENTER_OVERLAP
                     workOrderId := p.2.docId
                     message := "Work order " ++ p.2.data.workOrderNumber
                       ++ " overlaps with " ++ p.1.data.workOrderNumber
                       ++ " on work center "
                       ++ (match alGet (mkWcMap wcs) a.data.workCenterId with
                           | some wc => wc.data.name
                           | none => a.data.workCenterId) } : ConstraintViolation)
          ∈ ConstraintChecker.checkWorkCenterConflicts wos (mkWcMap wcs) := by
        rw [ConstraintChecker.checkWorkCenterConflicts_eq]
        apply List.mem_flatMap.mpr
        refine ⟨(a.data.workCenterId, l), hentrymem, ?_⟩
        apply List.mem_filterMap.mpr
        refine ⟨p, hp, ?_⟩
        rw [if_pos htrue]
      exact ⟨_, List.mem_append.mpr (Or.inl (List.mem_append.mpr (Or.inl
        (List.mem_append.mpr (Or.inl hvin))))), rfl⟩

/-- Work center for the C5 scenarios. -/
def c5center : WorkCenterDocument := ⟨"wc-1", ⟨"Line 1", weekdayShifts, []⟩⟩

/-- Two overlapping same-center orders, the second carrying a dangling
dependency reference. -/
def c5wos : List WorkOrderDocument :=
  [⟨"v1", ⟨"V1", "wc-1", mkInstant 20101 8 0, mkInstant 20101 10 0, 120, false, []⟩⟩,
   ⟨"v2", ⟨"V2", "wc-1", mkInstant 20101 9 0, mkInstant 20101 11 0, 120, false,
     ["ghostc5"]⟩⟩]

/-- C5: the claim quantifies over every list whose orders have proper
intervals and asserts validate returns the overlap violation.  With a
dangling dependency reference, validate throws (the dependency checker
rebuilds the graph) and returns no violation list at all, even though a
genuine same-center overlap exists. -/
theorem claimC5_counterexample :
    (∀ wo ∈ c5wos, wo.data.startDate < wo.data.endDate)
      ∧ ¬ c5wos.Pairwise CenterDisjoint
      ∧ ConstraintChecker.validate c5wos [c5center]
          = .error "Work order v2 depends on ghostc5, but ghostc5 does not exist" :=
  ⟨by decide, by decide, rfl⟩

/-- Overlapping same-center orders with no dependencies. -/
def c5okWos : List WorkOrderDocument :=
  [⟨"u1", ⟨"U1", "wc-1", mkInstant 20101 8 0, mkInstant 20101 10 0, 120, false, []⟩⟩,
   ⟨"u2", ⟨"U2", "wc-1", mkInstant 20101 9 0, mkInstant 20101 11 0, 120, false, []⟩⟩]

/-- Graph of the C5 witness scenario. -/
def c5dag : DependencyGraph :=
  match DependencyGraph.buildGraph c5okWos with
  | .ok g => g
  | .error _ => ⟨[], [], []⟩

/-- C5 witness: on a proper-interval input with existing references the
amended equivalence holds. -/
theorem claimC5_witness :
    (∀ wo ∈ c5okWos, wo.data.startDate < wo.data.endDate)
      ∧ ∃ vs, ConstraintChecker.validate c5okWos [c5center] = .ok vs ∧
        ((∃ v ∈ vs, v.type = ViolationType.WORK_CENTER_OVERLAP) ↔
          ¬ c5okWos.Pairwise CenterDisjoint) :=
  ⟨by decide, claimC5_amended c5okWos [c5center] c5dag (by decide) rfl⟩

/-! ## Claim C8: idempotence of reflow -/

/-- Two sublists of a duplicate-free list with the same members are
equal. -/
theorem sublist_eq_of_mem_iff {α : Type} :
    ∀ (master l₁ l₂ : List α), master.Nodup →
      l₁.Sublist master → l₂.Sublist master → (∀ x, x ∈ l₁ ↔ x ∈ l₂) → l₁ = l₂ := by
  intro master
  induction master with
  | nil =>
    intro l₁ l₂ _ h₁ h₂ _
    rw [List.sublist_nil.mp h₁, List.sublist_nil.mp h₂]
  | cons m rest ih =>
    intro l₁ l₂ hnd h₁ h₂ hm
    rw [List.nodup_cons] at hnd
    cases h₁ with
    | cons _ h₁' =>
      -- l₁ avoids the head, so m ∉ l₁
      have hm1 : m ∉ l₁ := fun hc => hnd.1 (h₁'.subset hc)
      cases h₂ with
      | cons _ h₂' =>
        exact ih l₁ l₂ hnd.2 h₁' h₂' hm
      | cons₂ _ h₂' =>
        exact absurd ((hm m).mpr (List.mem_cons_self _ _)) hm1
    | cons₂ _ h₁' =>
      next t₁ =>
      cases h₂ with
      | cons _ h₂' =>
        have hm2 : m ∉ l₂ := fun hc => hnd.1 (h₂'.subset hc)
        exact absurd ((hm m).mp (List.mem_cons_self _ _)) hm2
      | cons₂ _ h₂' =>
        next t₂ =>
        have hmt₁ : m ∉ t₁ := fun hc => hnd.1 (h₁'.subset hc)
        have hmt₂ : m ∉ t₂ := fun hc => hnd.1 (h₂'.subset hc)
        have hm' : ∀ x, x ∈ t₁ ↔ x ∈ t₂ := by
          intro x
          by_cases hx : x = m
          · subst hx
            exact ⟨fun hc => absurd hc hmt₁, fun hc => absurd hc hmt₂⟩
          · constructor
            · intro hx1
              rcases List.mem_cons.mp ((hm x).mp (List.mem_cons_of_mem _ hx1)) with h | h
              · exact absurd h hx
              · exact h
            · intro hx2
              rcases List.mem_cons.mp ((hm x).mpr (List.mem_cons_of_mem _ hx2)) with h | h
              · exact absurd h hx
              · exact h
        rw [ih t₁ t₂ hnd.2 h₁' h₂' hm']

namespace DependencyGraph

theorem kahnLoop_appends (adj : List (String × List String))
    (wos : List (String × WorkOrderDocument)) :
    ∀ (fuel : Nat) (q : List String) (D : List (String × Int))
      (res : List WorkOrderDocument),
      ∃ ext, (kahnLoop adj wos fuel q D res).1 = res ++ ext := by
  intro fuel
  induction fuel with
  | zero =>
    intro q D res
    exact ⟨[], by rw [kahnLoop, List.append_nil]⟩
  | succ fuel ih =>
    intro q D res
    cases q with
    | nil => exact ⟨[], by rw [kahnLoop, List.append_nil]⟩
    | cons v qt =>
      cases hv : alGet wos v with
      | none =>
        obtain ⟨ext, hext⟩ := ih qt D res
        refine ⟨ext, ?_⟩
        rw [kahnLoop, hv]
        exact hext
      | some u =>
        obtain ⟨ext, hext⟩ := ih ((alGetD adj v []).foldl kahnFoldF (D, qt)).2
          ((alGetD adj v []).foldl kahnFoldF (D, qt)).1 (res ++ [u])
        refine ⟨u :: ext, ?_⟩
        rw [kahnLoop, hv]
        rw [hext]
        simp

theorem kahnFold_queue_appends :
    ∀ (cs : List String) (D : List (String × Int)) (q : List String),
      ∃ ext, (cs.foldl kahnFoldF (D, q)).2 = q ++ ext ∧ ∀ x ∈ ext, x ∈ cs := by
  intro cs
  induction cs with
  | nil =>
    intro D q
    exact ⟨[], by simp, by simp⟩
  | cons c rest ih =>
    intro D q
    rw [List.foldl_cons,
      show kahnFoldF (D, q) c
        = (alSet D c (alGetD D c 0 - 1),
           if alGetD D c 0 - 1 = 0 then q ++ [c] else q) from rfl]
    by_cases hz : alGetD D c 0 - 1 = 0
    · rw [if_pos hz]
      obtain ⟨ext, hext, hsub⟩ := ih (alSet D c (alGetD D c 0 - 1)) (q ++ [c])
      refine ⟨c :: ext, ?_, ?_⟩
      · rw [hext]
        simp
      · intro x hx
        rcases List.mem_cons.mp hx with rfl | hx
        · exact List.mem_cons_self _ _
        · exact List.mem_cons_of_mem _ (hsub x hx)
    · rw [if_neg hz]
      obtain ⟨ext, hext, hsub⟩ := ih (alSet D c (alGetD D c 0 - 1)) q
      exact ⟨ext, hext, fun x hx => List.mem_cons_of_mem _ (hsub x hx)⟩

/-- Along a run that drains the queue on a well-formed graph, the
emitted ids followed by the current queue form a prefix of the final
emitted ids. -/
theorem kahnLoop_prefix (adj : List (String × List String))
    (wos : List (String × WorkOrderDocument))
    (hkeyed : ∀ p ∈ wos, p.2.docId = p.1)
    (hadjVals : ∀ p ∈ adj, ∀ c ∈ p.2, (alGet wos c).isSome) :
    ∀ (fuel : Nat) (q : List String) (D : List (String × Int))
      (res resf : List WorkOrderDocument),
      (∀ x ∈ q, (alGet wos x).isSome) →
      kahnLoop adj wos fuel q D res = (resf, []) →
      (res.map WorkOrderDocument.docId ++ q).IsPrefix
        (resf.map WorkOrderDocument.docId) := by
  intro fuel
  induction fuel with
  | zero =>
    intro q D res resf _ h
    rw [kahnLoop] at h
    obtain ⟨h1, h2⟩ := Prod.mk.inj h
    rw [h2, List.append_nil, ← h1]
  | succ fuel ih =>
    intro q D res resf hq h
    cases q with
    | nil =>
      rw [kahnLoop] at h
      obtain ⟨h1, _⟩ := Prod.mk.inj h
      rw [List.append_nil, ← h1]
    | cons v qt =>
      cases hv : alGet wos v with
      | none =>
        have := hq v (List.mem_cons_self _ _)
        rw [hv] at this
        cases this
      | some u =>
        rw [kahnLoop, hv] at h
        obtain ⟨ext, hqeq, hsub⟩ := kahnFold_queue_appends (alGetD adj v []) D qt
        have hextK : ∀ x ∈ ext, (alGet wos x).isSome := by
          intro x hx
          have hxc := hsub x hx
          cases hal : alGet adj v with
          | none =>
            rw [alGetD, hal] at hxc
            simp at hxc
          | some l =>
            rw [alGetD, hal, Option.getD_some] at hxc
            exact hadjVals (v, l) (alGet_mem _ _ _ hal) x hxc
        have hq' : ∀ x ∈ ((alGetD adj v []).foldl kahnFoldF (D, qt)).2,
            (alGet wos x).isSome := by
          intro x hx
          rw [hqeq] at hx
          rcases List.mem_append.mp hx with hx | hx
          · exact hq x (List.mem_cons_of_mem _ hx)
          · exact hextK x hx
        have hpre := ih ((alGetD adj v []).foldl kahnFoldF (D, qt)).2
          ((alGetD adj v []).foldl kahnFoldF (D, qt)).1 (res ++ [u]) resf hq' h
        rw [hqeq] at hpre
        have huid : u.docId = v := hkeyed (v, u) (alGet_mem _ _ _ hv)
        have heq : (res ++ [u]).map WorkOrderDocument.docId ++ (qt ++ ext)
            = (res.map WorkOrderDocument.docId ++ v :: qt) ++ ext := by
          rw [List.map_append, List.map_singleton, huid]
          simp
        rw [heq] at hpre
        exact (List.prefix_append _ ext).trans hpre

end DependencyGraph

theorem slAdd_idem (s : List String) (x : String) : slAdd (slAdd s x) x = slAdd s x := by
  have hx : x ∈ slAdd s x := (mem_slAdd s x x).mpr (Or.inr rfl)
  rw [slAdd, if_pos hx]

theorem alGetD_alSet_self {α : Type} (l : List (String × α)) (k : String) (v d : α) :
    alGetD (alSet l k v) k d = v := by
  rw [alGetD, alGet_alSet_self]
  rfl

theorem alGetD_alSet_ne {α : Type} (l : List (String × α)) (k x : String) (v d : α)
    (h : x ≠ k) : alGetD (alSet l k v) x d = alGetD l x d := by
  rw [alGetD, alGet_alSet_ne _ _ _ _ h, alGetD]

namespace DependencyGraph

theorem addEdges_adjD (childId : String) :
    ∀ (parents : List String) (g g' : DependencyGraph),
      addEdges childId parents g = .ok g' →
      ∀ p, alGetD g'.adjacencyList p []
        = if p ∈ parents then slAdd (alGetD g.adjacencyList p []) childId
          else alGetD g.adjacencyList p [] := by
  intro parents
  induction parents with
  | nil =>
    intro g g' h p
    rw [addEdges] at h
    cases h
    rw [if_neg (by simp)]
  | cons pid rest ih =>
    intro g g' h p
    rw [addEdges] at h
    split at h
    · have hmid := ih _ g' h p
      by_cases hp : p = pid
      · subst hp
        by_cases hpr : p ∈ rest
        · rw [hmid, if_pos hpr]
          show slAdd (alGetD (alSet g.adjacencyList p
            (slAdd (alGetD g.adjacencyList p []) childId)) p []) childId = _
          rw [alGetD_alSet_self, slAdd_idem, if_pos (List.mem_cons_self _ _)]
        · rw [hmid, if_neg hpr]
          show alGetD (alSet g.adjacencyList p
            (slAdd (alGetD g.adjacencyList p []) childId)) p [] = _
          rw [alGetD_alSet_self, if_pos (List.mem_cons_self _ _)]
      · have hDmid : alGetD (alSet g.adjacencyList pid
            (slAdd (alGetD g.adjacencyList pid []) childId)) p []
            = alGetD g.adjacencyList p [] := alGetD_alSet_ne _ _ _ _ _ hp
        by_cases hpr : p ∈ rest
        · rw [hmid, if_pos hpr]
          show slAdd (alGetD (alSet g.adjacencyList pid
            (slAdd (alGetD g.adjacencyList pid []) childId)) p []) childId = _
          rw [hDmid, if_pos (List.mem_cons_of_mem _ hpr)]
        · rw [hmid, if_neg hpr]
          show alGetD (alSet g.adjacencyList pid
            (slAdd (alGetD g.adjacencyList pid []) childId)) p [] = _
          rw [hDmid, if_neg (by
            intro hc
            rcases List.mem_cons.mp hc with hc | hc
            · exact hp hc
            · exact hpr hc)]
    · cases h

theorem addAllEdges_adj_exact :
    ∀ (rest done : List WorkOrderDocument) (g g' : DependencyGraph),
      (rest.map WorkOrderDocument.docId).Nodup →
      (∀ w ∈ done, ∀ r ∈ rest, w.docId ≠ r.docId) →
      (∀ p, alGetD g.adjacencyList p []
        = (done.filter (fun wo => decide (p ∈ wo.data.dependsOnWorkOrderIds))).map
            WorkOrderDocument.docId) →
      addAllEdges rest g = .ok g' →
      ∀ p, alGetD g'.adjacencyList p []
        = ((done ++ rest).filter
            (fun wo => decide (p ∈ wo.data.dependsOnWorkOrderIds))).map
            WorkOrderDocument.docId := by
  intro rest
  induction rest with
  | nil =>
    intro done g g' _ _ hadj h p
    rw [addAllEdges] at h
    cases h
    rw [List.append_nil]
    exact hadj p
  | cons wo tail ih =>
    intro done g g' hnd hsep hadj h p
    rw [addAllEdges] at h
    rw [List.map_cons, List.nodup_cons] at hnd
    set g1 : DependencyGraph :=
      { g with inDegree :=
          alSet g.inDegree wo.docId ((wo.data.dependsOnWorkOrderIds.length : Int)) } with hg1
    replace h : addEdges wo.docId wo.data.dependsOnWorkOrderIds g1 >>= addAllEdges tail
        = .ok g' := h
    obtain ⟨g2, hg2, h⟩ := exceptBind_ok _ _ _ h
    have hadj2 : ∀ p, alGetD g2.adjacencyList p []
        = ((done ++ [wo]).filter
            (fun w => decide (p ∈ w.data.dependsOnWorkOrderIds))).map
            WorkOrderDocument.docId := by
      intro p
      have hstep := addEdges_adjD wo.docId wo.data.dependsOnWorkOrderIds g1 g2 hg2 p
      have hadj1 : alGetD g1.adjacencyList p [] = alGetD g.adjacencyList p [] := rfl
      rw [List.filter_append, List.map_append, List.filter_cons]
      by_cases hp : p ∈ wo.data.dependsOnWorkOrderIds
      · rw [hstep, if_pos hp, hadj1, hadj p]
        rw [if_pos (by simp [hp])]
        have hnotin : wo.docId ∉ (done.filter
            (fun w => decide (p ∈ w.data.dependsOnWorkOrderIds))).map
            WorkOrderDocument.docId := by
          intro hc
          obtain ⟨w, hw, hwe⟩ := List.mem_map.mp hc
          exact hsep w (List.mem_of_mem_filter hw) wo (List.mem_cons_self _ _) hwe
        rw [slAdd, if_neg hnotin]
        simp
      · rw [hstep, if_neg hp, hadj1, hadj p]
        rw [if_neg (by simp [hp])]
        simp
    have hsep2 : ∀ w ∈ done ++ [wo], ∀ r ∈ tail, w.docId ≠ r.docId := by
      intro w hw r hr
      rcases List.mem_append.mp hw with hw | hw
      · exact hsep w hw r (List.mem_cons_of_mem _ hr)
      · rw [List.mem_singleton.mp hw]
        intro he
        exact hnd.1 (he ▸ List.mem_map.mpr ⟨r, hr, rfl⟩)
    have := ih (done ++ [wo]) g2 g' hnd.2 hsep2 hadj2 h
    rw [this p]
    congr 1
    rw [List.append_assoc]
    rfl

/-- Order-exact adjacency of a built graph over distinct-id input: the
children of p are exactly the input orders depending on p, in input
order. -/
theorem buildGraph_adj_exact (wos : List WorkOrderDocument)
    (hnd : (wos.map WorkOrderDocument.docId).Nodup) (g : DependencyGraph)
    (h : buildGraph wos = .ok g) :
    ∀ p, alGetD g.adjacencyList p []
      = (wos.filter (fun wo => decide (p ∈ wo.data.dependsOnWorkOrderIds))).map
          WorkOrderDocument.docId := by
  unfold buildGraph at h
  have hinit : ∀ p, alGetD (initGraph wos).adjacencyList p []
      = (([] : List WorkOrderDocument).filter
          (fun wo => decide (p ∈ wo.data.dependsOnWorkOrderIds))).map
          WorkOrderDocument.docId := by
    intro p
    cases hal : alGet (initGraph wos).adjacencyList p with
    | none => rw [alGetD, hal]; rfl
    | some l =>
      rw [alGetD, hal, Option.getD_some]
      have := initGraph_adj_nil wos (p, l) (alGet_mem _ _ _ hal)
      simpa using this
  have := addAllEdges_adj_exact wos [] (initGraph wos) g hnd (by simp) hinit h
  intro p
  rw [this p, List.nil_append]

end DependencyGraph

namespace DependencyGraph

theorem addEdges_ok_of_keys (childId : String) :
    ∀ (parents : List String) (g : DependencyGraph),
      (∀ pid ∈ parents, pid ∈ g.adjacencyList.map Prod.fst) →
      ∃ g', addEdges childId parents g = .ok g'
        ∧ g'.adjacencyList.map Prod.fst = g.adjacencyList.map Prod.fst := by
  intro parents
  induction parents with
  | nil =>
    intro g _
    exact ⟨g, rfl, rfl⟩
  | cons pid rest ih =>
    intro g hpar
    have hpid : pid ∈ g.adjacencyList.map Prod.fst := hpar pid (List.mem_cons_self _ _)
    have hhas : alHas g.adjacencyList pid = true := by
      unfold alHas
      simpa using alGet_isSome_of_mem _ _ hpid
    set g1 : DependencyGraph :=
      { g with adjacencyList :=
          alSet g.adjacencyList pid (slAdd (alGetD g.adjacencyList pid []) childId) } with hg1
    have hkeys1 : g1.adjacencyList.map Prod.fst = g.adjacencyList.map Prod.fst := by
      show (alSet g.adjacencyList pid _).map Prod.fst = _
      exact alSet_keys_mem _ _ _ hpid
    obtain ⟨g', hg', hkeys'⟩ := ih g1 (by
      intro x hx
      rw [hkeys1]
      exact hpar x (List.mem_cons_of_mem _ hx))
    refine ⟨g', ?_, by rw [hkeys', hkeys1]⟩
    rw [addEdges, if_pos hhas]
    exact hg'

theorem addAllEdges_ok_of_keys :
    ∀ (l : List WorkOrderDocument) (g : DependencyGraph),
      (∀ wo ∈ l, ∀ d ∈ wo.data.dependsOnWorkOrderIds, d ∈ g.adjacencyList.map Prod.fst) →
      ∃ g', addAllEdges l g = .ok g' := by
  intro l
  induction l with
  | nil =>
    intro g _
    exact ⟨g, rfl⟩
  | cons wo rest ih =>
    intro g hl
    set g1 : DependencyGraph :=
      { g with inDegree :=
          alSet g.inDegree wo.docId ((wo.data.dependsOnWorkOrderIds.length : Int)) } with hg1
    have hadj1 : g1.adjacencyList = g.adjacencyList := rfl
    obtain ⟨g2, hg2, hkeys2⟩ := addEdges_ok_of_keys wo.docId
      wo.data.dependsOnWorkOrderIds g1 (by
        intro d hd
        rw [hadj1]
        exact hl wo (List.mem_cons_self _ _) d hd)
    obtain ⟨g', hg'⟩ := ih g2 (by
      intro w hw d hd
      rw [hkeys2, hadj1]
      exact hl w (List.mem_cons_of_mem _ hw) d hd)
    refine ⟨g', ?_⟩
    show addEdges wo.docId wo.data.dependsOnWorkOrderIds g1 >>= addAllEdges rest = .ok g'
    rw [hg2]
    exact hg'

/-- The graph builds whenever every dependency reference exists. -/
theorem buildGraph_ok_of_deps_exist (wos : List WorkOrderDocument)
    (hdeps : ∀ wo ∈ wos, ∀ d ∈ wo.data.dependsOnWorkOrderIds,
      d ∈ wos.map WorkOrderDocument.docId) :
    ∃ g, buildGraph wos = .ok g := by
  obtain ⟨⟨_, _, hadjk, _, _, _⟩, hids⟩ := initGraph_midWF wos
  apply addAllEdges_ok_of_keys wos (initGraph wos)
  intro wo hwo d hd
  rw [hadjk]
  obtain ⟨w, hw, hwe⟩ := List.mem_map.mp (hdeps wo hwo d hd)
  rw [← hwe]
  exact hids w hw

end DependencyGraph

theorem skel_filter_map (p : String) :
    ∀ (l₁ l₂ : List WorkOrderDocument), List.Forall₂ SameSkel l₁ l₂ →
      (l₁.filter (fun wo => decide (p ∈ wo.data.dependsOnWorkOrderIds))).map
          WorkOrderDocument.docId
        = (l₂.filter (fun wo => decide (p ∈ wo.data.dependsOnWorkOrderIds))).map
            WorkOrderDocument.docId := by
  intro l₁ l₂ h
  induction h with
  | nil => rfl
  | cons hab _ ih =>
    rename_i a b xs ys htail
    obtain ⟨hid, hdeps, _⟩ := hab
    rw [List.filter_cons, List.filter_cons, hdeps]
    by_cases hp : p ∈ b.data.dependsOnWorkOrderIds
    · rw [if_pos (by simp [hp]), if_pos (by simp [hp])]
      rw [List.map_cons, List.map_cons, hid, ih]
    · rw [if_neg (by simp [hp]), if_neg (by simp [hp])]
      exact ih

theorem alGet_pair_skel :
    ∀ (l₁ l₂ : List WorkOrderDocument), List.Forall₂ SameSkel l₁ l₂ →
      ∀ k, Option.map (fun d => d.data.dependsOnWorkOrderIds)
          (alGet (l₁.map (fun wo => (wo.docId, wo))) k)
        = Option.map (fun d => d.data.dependsOnWorkOrderIds)
            (alGet (l₂.map (fun wo => (wo.docId, wo))) k) := by
  intro l₁ l₂ h
  induction h with
  | nil => intro k; rfl
  | cons hab _ ih =>
    rename_i a b xs ys htail
    intro k
    obtain ⟨hid, hdeps, _⟩ := hab
    rw [List.map_cons, List.map_cons]
    by_cases hk : a.docId = k
    · rw [show alGet ((a.docId, a) :: _) k = some a from by rw [alGet, if_pos hk],
        show alGet ((b.docId, b) :: _) k = some b from by rw [alGet, if_pos (hid ▸ hk)]]
      simp [hdeps]
    · rw [show alGet ((a.docId, a) :: List.map (fun wo => (wo.docId, wo)) _) k
          = alGet (List.map (fun wo => (wo.docId, wo)) _) k from by
            rw [alGet, if_neg hk],
        show alGet ((b.docId, b) :: List.map (fun wo => (wo.docId, wo)) _) k
          = alGet (List.map (fun wo => (wo.docId, wo)) _) k from by
            rw [alGet, if_neg (hid ▸ hk)]]
      exact ih k

theorem indexOf_append_cons_self (pre suf : List String) (a : String) (hpre : a ∉ pre) :
    (pre ++ a :: suf).indexOf a = pre.length := by
  induction pre with
  | nil => simp
  | cons x xs ih =>
    have hxa : x ≠ a := fun he => hpre (he ▸ List.mem_cons_self _ _)
    rw [List.cons_append, List.indexOf_cons_ne _ hxa,
      ih (fun hc => hpre (List.mem_cons_of_mem _ hc))]
    rfl

theorem indexOf_append_mem (pre suf : List String) (b : String) (hb : b ∈ pre) :
    (pre ++ suf).indexOf b < pre.length := by
  induction pre with
  | nil => simp at hb
  | cons x xs ih =>
    by_cases hxb : x = b
    · rw [List.cons_append, hxb, List.indexOf_cons_self]
      simp
    · have hbxs : b ∈ xs := (List.mem_cons.mp hb).resolve_left (fun h => hxb h.symm)
      rw [List.cons_append, List.indexOf_cons_ne _ hxb]
      have := ih hbxs
      simp only [List.length_cons]
      omega

/-- A list admitting a dependencies-before-position reading is acyclic. -/
theorem acyclic_of_ordered (L : List WorkOrderDocument)
    (hnd : (L.map WorkOrderDocument.docId).Nodup)
    (hord : ∀ pre u suf, L = pre ++ u :: suf →
      ∀ d ∈ u.data.dependsOnWorkOrderIds, d ∈ pre.map WorkOrderDocument.docId) :
    AcyclicWos L := by
  have hstep : ∀ a b, a ∈ L.map WorkOrderDocument.docId → b ∈ depsOf L a →
      b ∈ L.map WorkOrderDocument.docId ∧
      (L.map WorkOrderDocument.docId).indexOf b
        < (L.map WorkOrderDocument.docId).indexOf a := by
    intro a b ha hb
    obtain ⟨w, hw, hwe⟩ := List.mem_map.mp ha
    obtain ⟨pre, suf, hdec⟩ := List.append_of_mem hw
    have hdeps : depsOf L a = w.data.dependsOnWorkOrderIds := by
      rw [← hwe]
      unfold depsOf
      rw [find?_docId_eq_of_mem_nodup L w hnd hw]
    rw [hdeps] at hb
    have hbpre : b ∈ pre.map WorkOrderDocument.docId := hord pre w suf hdec b hb
    have hids : L.map WorkOrderDocument.docId
        = pre.map WorkOrderDocument.docId
          ++ w.docId :: suf.map WorkOrderDocument.docId := by
      rw [hdec]
      simp
    constructor
    · rw [hids]
      exact List.mem_append.mpr (Or.inl hbpre)
    · have hwnotpre : w.docId ∉ pre.map WorkOrderDocument.docId := by
        intro hc
        rw [hids] at hnd
        obtain ⟨_, _, hdisj⟩ := List.nodup_append.mp hnd
        exact hdisj hc (List.mem_cons_self _ _)
      rw [hids, ← hwe, indexOf_append_cons_self _ _ _ hwnotpre]
      exact indexOf_append_mem _ _ b hbpre
  have hreach : ∀ (n : Nat) (a b : String), a ∈ L.map WorkOrderDocument.docId →
      b ∈ reachWithin L n a →
      b ∈ L.map WorkOrderDocument.docId ∧
      (L.map WorkOrderDocument.docId).indexOf b
        < (L.map WorkOrderDocument.docId).indexOf a := by
    intro n
    induction n with
    | zero => exact fun a b ha hb => hstep a b ha hb
    | succ m ih =>
      intro a b ha hb
      rw [reachWithin] at hb
      rcases List.mem_append.mp hb with hb | hb
      · exact hstep a b ha hb
      · obtain ⟨u, hu, hbu⟩ := List.mem_flatMap.mp hb
        obtain ⟨huK, hult⟩ := hstep a u ha hu
        obtain ⟨hbK, hblt⟩ := ih u b huK hbu
        exact ⟨hbK, Nat.lt_trans hblt hult⟩
  intro wo hwo hreach0
  have hwK : wo.docId ∈ L.map WorkOrderDocument.docId := List.mem_map.mpr ⟨wo, hwo, rfl⟩
  have := (hreach L.length wo.docId wo.docId hwK hreach0).2
  omega

namespace DependencyGraph

/-- Parallel execution of the Kahn loop on two graphs with the same
logical structure: the second graph lists its nodes in the emission
order of the first run, and the run over it reproduces the same queue
states and emits its own node list. -/
theorem kahn_parallel
    (adj₁ adj₂ : List (String × List String))
    (wop₁ wop₂ : List (String × WorkOrderDocument))
    (ordered wos₂ : List WorkOrderDocument)
    (hkeyed₁ : ∀ p ∈ wop₁, p.2.docId = p.1)
    (hadjVals₁ : ∀ p ∈ adj₁, ∀ c ∈ p.2, (alGet wop₁ c).isSome)
    (hcs₁nd : ∀ v, (alGetD adj₁ v []).Nodup)
    (hcs₂nd : ∀ v, (alGetD adj₂ v []).Nodup)
    (hcs₁keys : ∀ v x, x ∈ alGetD adj₁ v [] → x ∈ wop₁.map Prod.fst)
    (hmemiff : ∀ p x, x ∈ alGetD adj₂ p [] ↔ x ∈ alGetD adj₁ p [])
    (hadj₂sub : ∀ p, (alGetD adj₂ p []).Sublist (ordered.map WorkOrderDocument.docId))
    (hordnd : (ordered.map WorkOrderDocument.docId).Nodup)
    (hresDocs : ∀ u ∈ ordered, alGet wop₁ u.docId = some u)
    (hwop₂ : ∀ u ∈ wos₂, alGet wop₂ u.docId = some u) :
    ∀ (fuel : Nat) (q : List String) (D₁ D₂ : List (String × Int))
      (res₁ res₂ tail₁ tail₂ : List WorkOrderDocument),
      ordered = res₁ ++ tail₁ → wos₂ = res₂ ++ tail₂ →
      tail₂.map WorkOrderDocument.docId = tail₁.map WorkOrderDocument.docId →
      (∀ k, alGet D₂ k = alGet D₁ k) →
      (∀ k ∈ wop₁.map Prod.fst, (alGet D₁ k).isSome) →
      (∀ x ∈ q, x ∈ wop₁.map Prod.fst) →
      kahnLoop adj₁ wop₁ fuel q D₁ res₁ = (ordered, []) →
      kahnLoop adj₂ wop₂ fuel q D₂ res₂ = (wos₂, []) := by
  intro fuel
  induction fuel with
  | zero =>
    intro q D₁ D₂ res₁ res₂ tail₁ tail₂ hdec₁ hdec₂ hids hDeq hDtot hqK h
    rw [kahnLoop] at h
    obtain ⟨h1, h2⟩ := Prod.mk.inj h
    have htail₁ : tail₁ = [] := by
      have := congrArg List.length hdec₁
      rw [h1] at this
      simp only [List.length_append] at this
      exact List.length_eq_zero.mp (by omega)
    have htail₂ : tail₂ = [] := by
      apply List.map_eq_nil.mp
      rw [hids, htail₁]
      rfl
    rw [kahnLoop, h2]
    rw [htail₂, List.append_nil] at hdec₂
    rw [hdec₂]
  | succ fuel ih =>
    intro q D₁ D₂ res₁ res₂ tail₁ tail₂ hdec₁ hdec₂ hids hDeq hDtot hqK h
    cases q with
    | nil =>
      rw [kahnLoop] at h
      obtain ⟨h1, _⟩ := Prod.mk.inj h
      have htail₁ : tail₁ = [] := by
        have := congrArg List.length hdec₁
        rw [h1] at this
        simp only [List.length_append] at this
        exact List.length_eq_zero.mp (by omega)
      have htail₂ : tail₂ = [] := by
        apply List.map_eq_nil.mp
        rw [hids, htail₁]
        rfl
      rw [kahnLoop]
      rw [htail₂, List.append_nil] at hdec₂
      rw [hdec₂]
    | cons v qt =>
      -- the head of the queue is the next element of both sequences
      have hpre := kahnLoop_prefix adj₁ wop₁ hkeyed₁ hadjVals₁ (fuel + 1) (v :: qt) D₁
        res₁ ordered (fun x hx => alGet_isSome_of_mem wop₁ x (hqK x hx)) h
      obtain ⟨text, hext⟩ := hpre
      rw [hdec₁, List.map_append] at hext
      have hvt : v :: (qt ++ text) = tail₁.map WorkOrderDocument.docId := by
        have := hext
        rw [List.append_assoc] at this
        have h2 := List.append_cancel_left this
        rw [← h2]
        simp
      cases tail₁ with
      | nil => simp at hvt
      | cons u₁ t₁ =>
        rw [List.map_cons] at hvt
        have hu₁v : u₁.docId = v := (List.cons.inj hvt).1.symm
        cases tail₂ with
        | nil => simp at hids
        | cons u₂ t₂ =>
          rw [List.map_cons, List.map_cons] at hids
          have hu₂v : u₂.docId = v := by
            have := (List.cons.inj hids).1
            rw [this, hu₁v]
          have ht₂ids : t₂.map WorkOrderDocument.docId = t₁.map WorkOrderDocument.docId :=
            (List.cons.inj hids).2
          have hu₁ord : u₁ ∈ ordered := by
            rw [hdec₁]
            exact List.mem_append.mpr (Or.inr (List.mem_cons_self _ _))
          have hu₂wos : u₂ ∈ wos₂ := by
            rw [hdec₂]
            exact List.mem_append.mpr (Or.inr (List.mem_cons_self _ _))
          have hv₁ : alGet wop₁ v = some u₁ := by
            rw [← hu₁v]
            exact hresDocs u₁ hu₁ord
          have hv₂ : alGet wop₂ v = some u₂ := by
            rw [← hu₂v]
            exact hwop₂ u₂ hu₂wos
          -- step both runs
          rw [kahnLoop, hv₁] at h
          rw [kahnLoop, hv₂]
          have hcs₁K : ∀ c ∈ alGetD adj₁ v [], (alGet D₁ c).isSome :=
            fun c hc => hDtot c (hcs₁keys v c hc)
          have hcs₂K : ∀ c ∈ alGetD adj₂ v [], (alGet D₂ c).isSome := by
            intro c hc
            rw [hDeq c]
            exact hcs₁K c ((hmemiff v c).mp hc)
          obtain ⟨hD₁f, hq₁f, hkeys₁f⟩ := kahnFold_spec (alGetD adj₁ v []) (hcs₁nd v)
            D₁ qt hcs₁K
          obtain ⟨hD₂f, hq₂f, hkeys₂f⟩ := kahnFold_spec (alGetD adj₂ v []) (hcs₂nd v)
            D₂ qt hcs₂K
          -- the newly enqueued batches coincide
          have hgetDeq : ∀ c, alGetD D₂ c 0 = alGetD D₁ c 0 := by
            intro c
            rw [alGetD, alGetD, hDeq c]
          have hnews₂ : (alGetD adj₂ v []).filter (fun c => decide (alGetD D₂ c 0 = 1))
              = (alGetD adj₂ v []).filter (fun c => decide (alGetD D₁ c 0 = 1)) := by
            apply List.filter_congr
            intro c _
            rw [hgetDeq c]
          have hnewseq : (alGetD adj₂ v []).filter (fun c => decide (alGetD D₁ c 0 = 1))
              = (alGetD adj₁ v []).filter (fun c => decide (alGetD D₁ c 0 = 1)) := by
            apply sublist_eq_of_mem_iff (ordered.map WorkOrderDocument.docId) _ _ hordnd
            · exact List.Sublist.trans (List.filter_sublist _) (hadj₂sub v)
            · -- the batch of the first run sits inside the final emission
              have hpost := kahnLoop_prefix adj₁ wop₁ hkeyed₁ hadjVals₁ fuel
                ((alGetD adj₁ v []).foldl kahnFoldF (D₁, qt)).2
                ((alGetD adj₁ v []).foldl kahnFoldF (D₁, qt)).1
                (res₁ ++ [u₁]) ordered (by
                  intro x hx
                  rw [hq₁f] at hx
                  rcases List.mem_append.mp hx with hx | hx
                  · exact alGet_isSome_of_mem wop₁ x (hqK x (List.mem_cons_of_mem _ hx))
                  · exact alGet_isSome_of_mem wop₁ x
                      (hcs₁keys v x (List.mem_of_mem_filter hx))) h
              obtain ⟨t3, ht3⟩ := hpost
              rw [hq₁f] at ht3
              have hshape : ordered.map WorkOrderDocument.docId
                  = ((res₁ ++ [u₁]).map WorkOrderDocument.docId ++ qt)
                    ++ ((alGetD adj₁ v []).filter
                        (fun c => decide (alGetD D₁ c 0 = 1)) ++ t3) := by
                rw [← ht3]
                simp
              rw [hshape]
              exact List.Sublist.trans (List.sublist_append_left _ t3)
                (List.sublist_append_right _ _)
            · intro x
              rw [List.mem_filter, List.mem_filter, hmemiff v x]
          show kahnLoop adj₂ wop₂ fuel
            ((alGetD adj₂ v []).foldl kahnFoldF (D₂, qt)).2
            ((alGetD adj₂ v []).foldl kahnFoldF (D₂, qt)).1 (res₂ ++ [u₂]) = (wos₂, [])
          rw [hq₂f, hnews₂, hnewseq, ← hq₁f]
          -- recurse
          apply ih ((alGetD adj₁ v []).foldl kahnFoldF (D₁, qt)).2
            ((alGetD adj₁ v []).foldl kahnFoldF (D₁, qt)).1
            ((alGetD adj₂ v []).foldl kahnFoldF (D₂, qt)).1
            (res₁ ++ [u₁]) (res₂ ++ [u₂]) t₁ t₂
          · rw [hdec₁]
            simp
          · rw [hdec₂]
            simp
          · exact ht₂ids
          · intro k
            rw [hD₂f k, hD₁f k, hDeq k]
            by_cases hk₂ : k ∈ alGetD adj₂ v []
            · rw [if_pos hk₂, if_pos ((hmemiff v k).mp hk₂)]
            · rw [if_neg hk₂, if_neg (fun hc => hk₂ ((hmemiff v k).mpr hc))]
          · intro k hk
            rw [hD₁f k]
            by_cases hkc : k ∈ alGetD adj₁ v []
            · rw [if_pos hkc]
              rcases Option.isSome_iff_exists.mp (hDtot k hk) with ⟨d, hd⟩
              rw [hd]
              rfl
            · rw [if_neg hkc]
              exact hDtot k hk
          · intro x hx
            rw [hq₁f] at hx
            rcases List.mem_append.mp hx with hx | hx
            · exact hqK x (List.mem_cons_of_mem _ hx)
            · exact hcs₁keys v x (List.mem_of_mem_filter hx)
          · exact h

end DependencyGraph

theorem forall₂_decomp {α β : Type} {R : α → β → Prop} :
    ∀ (pre : List α) (u : α) (suf : List α) (l₂ : List β),
      List.Forall₂ R (pre ++ u :: suf) l₂ →
      ∃ pre₂ u₂ suf₂, l₂ = pre₂ ++ u₂ :: suf₂ ∧ List.Forall₂ R pre pre₂ ∧ R u u₂
        ∧ List.Forall₂ R suf suf₂ := by
  intro pre
  induction pre with
  | nil =>
    intro u suf l₂ h
    rw [List.nil_append] at h
    cases h with
    | cons hR htail =>
      rename_i b l₂t
      exact ⟨[], b, l₂t, rfl, List.Forall₂.nil, hR, htail⟩
  | cons a pre ih =>
    intro u suf l₂ h
    rw [List.cons_append] at h
    cases h with
    | cons hR htail =>
      rename_i b l₂t
      obtain ⟨pre₂, u₂, suf₂, heq, h1, h2, h3⟩ := ih u suf l₂t htail
      exact ⟨b :: pre₂, u₂, suf₂, by rw [heq, List.cons_append],
        List.Forall₂.cons hR h1, h2, h3⟩

theorem q0_mem_iff (D : List (String × Int)) (hnd : (D.map Prod.fst).Nodup) (x : String) :
    x ∈ (D.filter (fun p => p.2 = 0)).map (fun p => p.1) ↔ alGet D x = some 0 := by
  constructor
  · intro hx
    obtain ⟨p, hp, rfl⟩ := List.mem_map.mp hx
    have hmem := List.mem_of_mem_filter hp
    have hzero : p.2 = 0 := by
      have := List.of_mem_filter hp
      simpa using this
    have := alGet_of_mem_nodup D p.1 p.2 hnd (by simpa using hmem)
    rw [this, hzero]
  · intro hx
    have hmem := alGet_mem D x 0 hx
    exact List.mem_map.mpr ⟨(x, 0), List.mem_filter.mpr ⟨hmem, by simp⟩, rfl⟩

namespace DependencyGraph

/-- Rerunning topologicalSort on a list with the same ids, dependency
lists and maintenance flags as the first run's emission order returns
that list itself. -/
theorem topologicalSort_rerun (wos₁ : List WorkOrderDocument)
    (hnd₁ : (wos₁.map WorkOrderDocument.docId).Nodup)
    (g₁ : DependencyGraph) (hdag₁ : buildGraph wos₁ = .ok g₁)
    (ordered : List WorkOrderDocument) (hord : topologicalSort g₁ = .ok ordered)
    (wos₂ : List WorkOrderDocument) (hskel : List.Forall₂ SameSkel wos₂ ordered)
    (g₂ : DependencyGraph) (hdag₂ : buildGraph wos₂ = .ok g₂) :
    topologicalSort g₂ = .ok wos₂ := by
  have hwf₁ := buildGraph_wf wos₁ g₁ hdag₁
  have hw₁ := buildGraph_workOrders wos₁ hnd₁ g₁ hdag₁
  have hclean₁ := buildGraph_cleanNode wos₁ hnd₁ g₁ hdag₁
  have hadj₁x := buildGraph_adj_exact wos₁ hnd₁ g₁ hdag₁
  obtain ⟨Df₁, hinv₁, hlen₁⟩ := topologicalSort_ok_inv g₁ hwf₁ ordered hord
  have hresDocs := hinv₁.resDocs
  have hordnd := hinv₁.resNodup
  have hidseq := skel_map_docId wos₂ ordered hskel
  have hnd₂ : (wos₂.map WorkOrderDocument.docId).Nodup := by
    rw [hidseq]
    exact hordnd
  have hwf₂ := buildGraph_wf wos₂ g₂ hdag₂
  have hw₂ := buildGraph_workOrders wos₂ hnd₂ g₂ hdag₂
  have hclean₂ := buildGraph_cleanNode wos₂ hnd₂ g₂ hdag₂
  have hadj₂x := buildGraph_adj_exact wos₂ hnd₂ g₂ hdag₂
  have hkeys₁ : g₁.workOrders.map Prod.fst = wos₁.map WorkOrderDocument.docId := by
    rw [hw₁, List.map_map]
    rfl
  have hkeys₂ : g₂.workOrders.map Prod.fst = wos₂.map WorkOrderDocument.docId := by
    rw [hw₂, List.map_map]
    rfl
  -- ordered and wos₁ have the same document members
  have hmemOrd : ∀ d : WorkOrderDocument, d ∈ ordered ↔ d ∈ wos₁ := by
    intro d
    constructor
    · intro hd
      have hm := alGet_mem _ _ _ (hresDocs d hd)
      rw [hw₁] at hm
      obtain ⟨w, hwm, hwe⟩ := List.mem_map.mp hm
      have hwd : w = d := congrArg Prod.snd hwe
      rw [← hwd]
      exact hwm
    · intro hd
      have hp : (d.docId, d) ∈ g₁.workOrders := by
        rw [hw₁]
        exact List.mem_map.mpr ⟨d, hd, rfl⟩
      exact topologicalSort_all_emitted g₁ hwf₁ ordered hord (d.docId, d) hp
  have hkeyiff : ∀ k, k ∈ wos₂.map WorkOrderDocument.docId
      ↔ k ∈ wos₁.map WorkOrderDocument.docId := by
    intro k
    rw [hidseq]
    simp only [List.mem_map]
    constructor
    · rintro ⟨d, hd, rfl⟩
      exact ⟨d, (hmemOrd d).mp hd, rfl⟩
    · rintro ⟨d, hd, rfl⟩
      exact ⟨d, (hmemOrd d).mpr hd, rfl⟩
  -- pointwise equality of the initial in-degree tables
  have hDeq : ∀ k, alGet g₂.inDegree k = alGet g₁.inDegree k := by
    intro k
    by_cases hk : k ∈ wos₁.map WorkOrderDocument.docId
    · have hk₂ : k ∈ g₂.workOrders.map Prod.fst := by
        rw [hkeys₂]
        exact (hkeyiff k).mpr hk
      have hk₁ : k ∈ g₁.workOrders.map Prod.fst := by
        rw [hkeys₁]
        exact hk
      obtain ⟨d₁, hd₁⟩ := Option.isSome_iff_exists.mp (alGet_isSome_of_mem _ k hk₁)
      obtain ⟨d₂, hd₂⟩ := Option.isSome_iff_exists.mp (alGet_isSome_of_mem _ k hk₂)
      obtain ⟨hdeg₁, _⟩ := hclean₁ k d₁ hd₁
      obtain ⟨hdeg₂, _⟩ := hclean₂ k d₂ hd₂
      have hkord : k ∈ ordered.map WorkOrderDocument.docId := by
        rw [← hidseq]
        exact (hkeyiff k).mpr hk
      obtain ⟨u, hu, hue⟩ := List.mem_map.mp hkord
      have hu₁ : alGet g₁.workOrders k = some u := by
        rw [← hue]
        exact hresDocs u hu
      have hud : u = d₁ := by
        rw [hu₁] at hd₁
        exact Option.some.inj hd₁
      have hordket : alGet (ordered.map (fun wo => (wo.docId, wo))) k = some u := by
        apply alGet_of_mem_nodup
        · rw [List.map_map]
          exact hordnd
        · rw [← hue]
          exact List.mem_map.mpr ⟨u, hu, rfl⟩
      have hskelk := alGet_pair_skel wos₂ ordered hskel k
      rw [hordket] at hskelk
      have hw₂k : alGet (wos₂.map (fun wo => (wo.docId, wo))) k = some d₂ := by
        rw [← hw₂]
        exact hd₂
      rw [hw₂k] at hskelk
      have hdepseq : d₂.data.dependsOnWorkOrderIds = u.data.dependsOnWorkOrderIds :=
        Option.some.inj hskelk
      rw [hdeg₂, hdeg₁, hdepseq, hud]
    · have h₁ : alGet g₁.inDegree k = none := by
        apply alGet_eq_none_of_not_mem
        rw [hwf₁.degKeys, hkeys₁]
        exact hk
      have h₂ : alGet g₂.inDegree k = none := by
        apply alGet_eq_none_of_not_mem
        rw [hwf₂.degKeys, hkeys₂]
        exact fun hc => hk ((hkeyiff k).mp hc)
      rw [h₁, h₂]
  -- the raw loop equation of the first run
  obtain ⟨Df, resf, hrun, _⟩ := kahnLoop_spec g₁.adjacencyList g₁.workOrders
    g₁.inDegree hwf₁.toKahnWF (g₁.workOrders.length + 1)
    ((g₁.inDegree.filter (fun p => p.2 = 0)).map (fun p => p.1)) g₁.inDegree []
    (kahnInv_init g₁ hwf₁) (by simp [List.length_map])
  have hresf : resf = ordered := by
    unfold topologicalSort at hord
    split at hord
    · cases hord
    · simp only at hord
      rw [hrun] at hord
      split at hord
      · cases hord
      · exact Except.ok.inj hord
  rw [hresf] at hrun
  -- acyclicity and nodup dependency lists for the reordered input
  have hord₂ : ∀ pre u suf, wos₂ = pre ++ u :: suf →
      ∀ d ∈ u.data.dependsOnWorkOrderIds, d ∈ pre.map WorkOrderDocument.docId := by
    intro pre u suf hdec d hd
    have hskel' : List.Forall₂ SameSkel (pre ++ u :: suf) ordered := by
      rw [← hdec]
      exact hskel
    obtain ⟨pre₁, u₁, suf₁, hd₁, hpre, hu, _⟩ := forall₂_decomp pre u suf ordered hskel'
    have hres := hinv₁.resOrdered pre₁ u₁ suf₁ hd₁ (hclean₁ u₁.docId)
    have hdm : d ∈ u₁.data.dependsOnWorkOrderIds := by
      rw [← hu.2.1]
      exact hd
    rw [skel_map_docId pre pre₁ hpre]
    exact hres.2 d hdm
  have hdeps₂ : ∀ wo ∈ wos₂, wo.data.dependsOnWorkOrderIds.Nodup := by
    intro wo hwo
    obtain ⟨pre, suf, hdec⟩ := List.append_of_mem hwo
    have hskel' : List.Forall₂ SameSkel (pre ++ wo :: suf) ordered := by
      rw [← hdec]
      exact hskel
    obtain ⟨pre₁, u₁, suf₁, hd₁, _, hu, _⟩ := forall₂_decomp pre wo suf ordered hskel'
    have hres := hinv₁.resOrdered pre₁ u₁ suf₁ hd₁ (hclean₁ u₁.docId)
    rw [hu.2.1]
    exact hres.1
  have hacyc₂ := acyclic_of_ordered wos₂ hnd₂ hord₂
  -- side conditions of the parallel run
  have hadjVals₁ : ∀ p ∈ g₁.adjacencyList, ∀ c ∈ p.2, (alGet g₁.workOrders c).isSome :=
    fun p hp c hc => alGet_isSome_of_mem _ c ((hwf₁.adjVals p hp).2 c hc)
  have hcs₁nd : ∀ v, (alGetD g₁.adjacencyList v []).Nodup := by
    intro v
    rw [alGetD]
    cases halg : alGet g₁.adjacencyList v with
    | none => simp
    | some l =>
      simp only [Option.getD_some]
      exact (hwf₁.adjVals (v, l) (alGet_mem _ _ _ halg)).1
  have hcs₂nd : ∀ v, (alGetD g₂.adjacencyList v []).Nodup := by
    intro v
    rw [alGetD]
    cases halg : alGet g₂.adjacencyList v with
    | none => simp
    | some l =>
      simp only [Option.getD_some]
      exact (hwf₂.adjVals (v, l) (alGet_mem _ _ _ halg)).1
  have hcs₁keys : ∀ v x, x ∈ alGetD g₁.adjacencyList v []
      → x ∈ g₁.workOrders.map Prod.fst := by
    intro v x hx
    rw [hadj₁x v] at hx
    obtain ⟨w, hwmem, rfl⟩ := List.mem_map.mp hx
    rw [hkeys₁]
    exact List.mem_map.mpr ⟨w, List.mem_of_mem_filter hwmem, rfl⟩
  have hmemiff : ∀ p x, x ∈ alGetD g₂.adjacencyList p []
      ↔ x ∈ alGetD g₁.adjacencyList p [] := by
    intro p x
    rw [hadj₂x p, hadj₁x p, skel_filter_map p wos₂ ordered hskel]
    simp only [List.mem_map, List.mem_filter]
    constructor
    · rintro ⟨w, ⟨hw1, hw2⟩, rfl⟩
      exact ⟨w, ⟨(hmemOrd w).mp hw1, hw2⟩, rfl⟩
    · rintro ⟨w, ⟨hw1, hw2⟩, rfl⟩
      exact ⟨w, ⟨(hmemOrd w).mpr hw1, hw2⟩, rfl⟩
  have hadj₂sub : ∀ p, (alGetD g₂.adjacencyList p []).Sublist
      (ordered.map WorkOrderDocument.docId) := by
    intro p
    rw [hadj₂x p, skel_filter_map p wos₂ ordered hskel]
    exact List.Sublist.map _ (List.filter_sublist ordered)
  have hwop₂res : ∀ u ∈ wos₂, alGet g₂.workOrders u.docId = some u := by
    intro u hu
    rw [hw₂]
    apply alGet_of_mem_nodup
    · rw [List.map_map]
      exact hnd₂
    · exact List.mem_map.mpr ⟨u, hu, rfl⟩
  have hDtot : ∀ k ∈ g₁.workOrders.map Prod.fst, (alGet g₁.inDegree k).isSome := by
    intro k hk
    apply alGet_isSome_of_mem
    rw [hwf₁.degKeys]
    exact hk
  have hqK : ∀ x ∈ (g₁.inDegree.filter (fun p => p.2 = 0)).map (fun p => p.1),
      x ∈ g₁.workOrders.map Prod.fst := by
    intro x hx
    obtain ⟨pq, hpq, rfl⟩ := List.mem_map.mp hx
    rw [← hwf₁.degKeys]
    exact List.mem_map.mpr ⟨pq, List.mem_of_mem_filter hpq, rfl⟩
  have hdegnd₁ : (g₁.inDegree.map Prod.fst).Nodup := by
    rw [hwf₁.degKeys]
    exact hwf₁.keysNodup
  have hdegnd₂ : (g₂.inDegree.map Prod.fst).Nodup := by
    rw [hwf₂.degKeys]
    exact hwf₂.keysNodup
  -- equal initial queues
  have hq0 : (g₂.inDegree.filter (fun p => p.2 = 0)).map (fun p => p.1)
      = (g₁.inDegree.filter (fun p => p.2 = 0)).map (fun p => p.1) := by
    apply sublist_eq_of_mem_iff (ordered.map WorkOrderDocument.docId) _ _ hordnd
    · have e₂ : g₂.inDegree.map (fun p => p.1) = ordered.map WorkOrderDocument.docId := by
        have h := hwf₂.degKeys
        rw [hkeys₂, hidseq] at h
        exact h
      have hsub := List.Sublist.map (fun p => (p.1 : String))
        (@List.filter_sublist _ (fun p => decide (p.2 = 0)) g₂.inDegree)
      rw [e₂] at hsub
      exact hsub
    · have hpre := kahnLoop_prefix g₁.adjacencyList g₁.workOrders hwf₁.keyed hadjVals₁
        (g₁.workOrders.length + 1)
        ((g₁.inDegree.filter (fun p => p.2 = 0)).map (fun p => p.1))
        g₁.inDegree [] ordered
        (fun x hx => alGet_isSome_of_mem _ x (hqK x hx)) hrun
      simpa using hpre.sublist
    · intro x
      rw [q0_mem_iff g₂.inDegree hdegnd₂ x, q0_mem_iff g₁.inDegree hdegnd₁ x, hDeq x]
  have hlen₂ : g₂.workOrders.length = g₁.workOrders.length := by
    rw [hw₂, List.length_map, List.Forall₂.length_eq hskel, hlen₁]
  -- run the parallel simulation
  have hrun₂ : kahnLoop g₂.adjacencyList g₂.workOrders (g₂.workOrders.length + 1)
      ((g₂.inDegree.filter (fun p => p.2 = 0)).map (fun p => p.1)) g₂.inDegree []
      = (wos₂, []) := by
    rw [hq0, hlen₂]
    exact kahn_parallel g₁.adjacencyList g₂.adjacencyList g₁.workOrders g₂.workOrders
      ordered wos₂ hwf₁.keyed hadjVals₁ hcs₁nd hcs₂nd hcs₁keys hmemiff hadj₂sub hordnd
      hresDocs hwop₂res (g₁.workOrders.length + 1)
      ((g₁.inDegree.filter (fun p => p.2 = 0)).map (fun p => p.1))
      g₁.inDegree g₂.inDegree [] [] ordered wos₂ rfl rfl hidseq hDeq hDtot hqK hrun
  obtain ⟨L₂, hok₂⟩ := topologicalSort_complete wos₂ g₂ hnd₂ hdeps₂ hacyc₂ hdag₂
  have hL₂ : L₂ = wos₂ := by
    unfold topologicalSort at hok₂
    split at hok₂
    · cases hok₂
    · simp only at hok₂
      rw [hrun₂] at hok₂
      split at hok₂
      · cases hok₂
      · exact (Except.ok.inj hok₂).symm
  rw [← hL₂]
  exact hok₂

end DependencyGraph

theorem okBind {α β : Type} (a : α) (f : α → Except String β) :
    (Except.ok a >>= f) = f a := rfl

theorem find?_docId_isSome (l : List WorkOrderDocument) (d : String)
    (h : d ∈ l.map WorkOrderDocument.docId) :
    (l.find? (fun a => a.docId == d)).isSome := by
  obtain ⟨x, hx, rfl⟩ := List.mem_map.mp h
  rw [List.find?_isSome]
  exact ⟨x, hx, by simp⟩

theorem filterMap_alGet_ids (wop : List (String × WorkOrderDocument))
    (hkeyed : ∀ p ∈ wop, p.2.docId = p.1) :
    ∀ (deps : List String), (∀ d ∈ deps, (alGet wop d).isSome) →
      (deps.filterMap (alGet wop)).map WorkOrderDocument.docId = deps := by
  intro deps
  induction deps with
  | nil => intro _; rfl
  | cons d t ih =>
    intro h
    rw [List.filterMap_cons]
    obtain ⟨doc, hdoc⟩ := Option.isSome_iff_exists.mp (h d (List.mem_cons_self _ _))
    rw [hdoc, List.map_cons, ih (fun x hx => h x (List.mem_cons_of_mem _ hx))]
    rw [hkeyed (d, doc) (alGet_mem _ _ _ hdoc)]

namespace ReflowService

theorem parentEnds_map_congr (acc : List WorkOrderDocument) :
    ∀ (ps₁ ps₂ : List WorkOrderDocument),
      ps₂.map WorkOrderDocument.docId = ps₁.map WorkOrderDocument.docId →
      (∀ p ∈ ps₁, (acc.find? (fun a => a.docId == p.docId)).isSome) →
      ps₂.map (fun p =>
        match acc.find? (fun u => u.docId == p.docId) with
        | some upd => upd.data.endDate
        | none => p.data.endDate)
      = ps₁.map (fun p =>
        match acc.find? (fun u => u.docId == p.docId) with
        | some upd => upd.data.endDate
        | none => p.data.endDate) := by
  intro ps₁
  induction ps₁ with
  | nil =>
    intro ps₂ hids _
    rw [List.map_eq_nil.mp hids]
  | cons p t ih =>
    intro ps₂ hids hfound
    cases ps₂ with
    | nil => simp at hids
    | cons q t₂ =>
      simp only [List.map_cons] at hids ⊢
      obtain ⟨hq, ht⟩ := List.cons.inj hids
      obtain ⟨upd, hupd⟩ :=
        Option.isSome_iff_exists.mp (hfound p (List.mem_cons_self _ _))
      have hhead :
          (match acc.find? (fun u => u.docId == q.docId) with
           | some upd => upd.data.endDate
           | none => q.data.endDate)
          = (match acc.find? (fun u => u.docId == p.docId) with
             | some upd => upd.data.endDate
             | none => p.data.endDate) := by
        rw [hq, hupd]
      rw [hhead, ih t₂ ht (fun x hx => hfound x (List.mem_cons_of_mem _ hx))]

theorem resolvedParentEnds_congr (acc ps₁ ps₂ : List WorkOrderDocument)
    (hids : ps₂.map WorkOrderDocument.docId = ps₁.map WorkOrderDocument.docId)
    (hfound : ∀ p ∈ ps₁, (acc.find? (fun a => a.docId == p.docId)).isSome) :
    resolvedParentEnds acc ps₂ = resolvedParentEnds acc ps₁ := by
  simp only [resolvedParentEnds]
  rw [parentEnds_map_congr acc ps₁ ps₂ hids hfound]

theorem scheduleStep_rerun_maint (dag₂ : DependencyGraph)
    (wcMap : List (String × WorkCenterDocument)) (now : Nat)
    (acc : List WorkOrderDocument) (ch₂ : List WorkOrderChange)
    (av : List (String × Nat)) (u : WorkOrderDocument)
    (hm : u.data.isMaintenance = true) :
    scheduleStep dag₂ wcMap now (acc, ch₂, av) u = .ok (acc ++ [u], ch₂, av) := by
  rw [scheduleStep]
  simp only
  rw [if_pos hm]

theorem scheduleStep_rerun (dag₂ : DependencyGraph)
    (wcMap : List (String × WorkCenterDocument)) (now : Nat)
    (acc : List WorkOrderDocument) (ch₂ : List WorkOrderChange)
    (av : List (String × Nat)) (u : WorkOrderDocument) (wc : WorkCenterDocument)
    (s e : Nat) (parents₂ : List WorkOrderDocument)
    (hm : u.data.isMaintenance = false)
    (hwc : alGet wcMap u.data.workCenterId = some wc)
    (hpar : DependencyGraph.getParents dag₂ u.docId = .ok parents₂)
    (hs : DateUtils.getEarliestStartTime (resolvedParentEnds acc parents₂)
      (alGetD av wc.docId now) wc.data.shifts = .ok s)
    (he : DateUtils.calculateEndDate s u.data.durationMinutes wc.data.shifts
      wc.data.maintenanceWindows = .ok e)
    (hstart : u.data.startDate = s) (hend : u.data.endDate = e) :
    scheduleStep dag₂ wcMap now (acc, ch₂, av) u
      = .ok (acc ++ [u], ch₂, alSet av wc.docId e) := by
  rw [scheduleStep]
  simp only
  rw [if_neg (by simp [hm]), hwc]
  show Except.ok wc >>= _ = _
  rw [okBind]
  show DependencyGraph.getParents dag₂ u.docId >>= _ = _
  rw [hpar, okBind]
  show DateUtils.getEarliestStartTime (resolvedParentEnds acc parents₂)
      (alGetD av wc.docId now) wc.data.shifts >>= _ = _
  rw [hs, okBind]
  show DateUtils.calculateEndDate s u.data.durationMinutes wc.data.shifts
      wc.data.maintenanceWindows >>= _ = _
  rw [he, okBind]
  show Except.ok (acc ++ [withDates u s e],
      (if u.data.startDate ≠ s ∨ u.data.endDate ≠ e then _ else ch₂),
      alSet av wc.docId e) = _
  rw [if_neg (by push_neg; exact ⟨hstart, hend⟩)]
  rw [← hstart, ← hend, withDates_self]

theorem scheduleLoop_extends (dag : DependencyGraph)
    (wcMap : List (String × WorkCenterDocument)) (now : Nat) :
    ∀ (l : List WorkOrderDocument) (st stf : SchedState),
      scheduleLoop dag wcMap now l st = .ok stf → ∃ ext, stf.1 = st.1 ++ ext := by
  intro l
  induction l with
  | nil =>
    intro st stf h
    rw [scheduleLoop] at h
    cases h
    exact ⟨[], (List.append_nil _).symm⟩
  | cons w rest ih =>
    intro st stf h
    rw [scheduleLoop] at h
    obtain ⟨st', hstep, hloop⟩ := exceptBind_ok _ _ _ h
    obtain ⟨ext, hext⟩ := ih st' stf hloop
    rcases scheduleStep_ok_cases dag wcMap now st w st' hstep with
      ⟨_, hsh⟩ | ⟨_, wc, s, e, ps, _, _, _, _, h1, _, _⟩
    · refine ⟨w :: ext, ?_⟩
      rw [hext, hsh]
      simp
    · refine ⟨withDates w s e :: ext, ?_⟩
      rw [hext, h1]
      simp

end ReflowService

namespace ReflowService

/-- Bisimulation of the scheduling pass: rerunning the loop on the
outputs of a first run, against a graph holding the updated documents,
reproduces the same updated list and availability map and logs no
changes. -/
theorem scheduleLoop_rerun (dag₁ dag₂ : DependencyGraph)
    (wcMap : List (String × WorkCenterDocument)) (now : Nat)
    (updated₁ : List WorkOrderDocument) (ch₁f : List WorkOrderChange)
    (av₁f : List (String × Nat)) (ordered : List WorkOrderDocument)
    (hres₁ : ∀ w ∈ ordered, alGet dag₁.workOrders w.docId = some w)
    (hres₂ : ∀ u ∈ updated₁, alGet dag₂.workOrders u.docId = some u)
    (hkeyed₁ : ∀ p ∈ dag₁.workOrders, p.2.docId = p.1)
    (hkeyed₂ : ∀ p ∈ dag₂.workOrders, p.2.docId = p.1)
    (hdsome₁ : ∀ w ∈ ordered, ∀ d ∈ w.data.dependsOnWorkOrderIds,
      (alGet dag₁.workOrders d).isSome)
    (hdsome₂ : ∀ u ∈ updated₁, ∀ d ∈ u.data.dependsOnWorkOrderIds,
      (alGet dag₂.workOrders d).isSome)
    (hord : ∀ pre w suf, ordered = pre ++ w :: suf →
      ∀ d ∈ w.data.dependsOnWorkOrderIds, d ∈ pre.map WorkOrderDocument.docId) :
    ∀ (rest₁ : List WorkOrderDocument) (done acc : List WorkOrderDocument)
      (ch ch₂ : List WorkOrderChange) (av : List (String × Nat))
      (outs : List WorkOrderDocument),
      ordered = done ++ rest₁ →
      acc.map WorkOrderDocument.docId = done.map WorkOrderDocument.docId →
      updated₁ = acc ++ outs →
      scheduleLoop dag₁ wcMap now rest₁ (acc, ch, av) = .ok (updated₁, ch₁f, av₁f) →
      scheduleLoop dag₂ wcMap now outs (acc, ch₂, av) = .ok (updated₁, ch₂, av₁f) := by
  intro rest₁
  induction rest₁ with
  | nil =>
    intro done acc ch ch₂ av outs hdone hacc houts h
    rw [scheduleLoop] at h
    have hode := Except.ok.inj h
    have h1 : acc = updated₁ := congrArg (fun t => t.1) hode
    have h3 : av = av₁f := congrArg (fun t => t.2.2) hode
    have houts0 : outs = [] := by
      have hlen := congrArg List.length houts
      rw [← h1, List.length_append] at hlen
      exact List.length_eq_zero.mp (by omega)
    rw [houts0, scheduleLoop, h1, h3]
  | cons w rest ih =>
    intro done acc ch ch₂ av outs hdone hacc houts h
    rw [scheduleLoop] at h
    obtain ⟨st', hstep, hloop⟩ := exceptBind_ok _ _ _ h
    obtain ⟨st1, st2, st3⟩ := st'
    have hwmem : w ∈ ordered := by
      rw [hdone]
      exact List.mem_append.mpr (Or.inr (List.mem_cons_self _ _))
    rcases scheduleStep_ok_cases dag₁ wcMap now (acc, ch, av) w (st1, st2, st3) hstep with
      ⟨hm, hsh⟩ | ⟨hm, wc, s, e, parents₁, hwc, hpar₁, hs₁, he₁, h1, h2, _⟩
    · -- maintenance: the order passes through unchanged
      have hsh1 : st1 = acc ++ [w] := congrArg (fun t => t.1) hsh
      have hsh2 : st2 = ch := congrArg (fun t => t.2.1) hsh
      have hsh3 : st3 = av := congrArg (fun t => t.2.2) hsh
      rw [hsh1, hsh2, hsh3] at hloop
      obtain ⟨ext, hext⟩ := scheduleLoop_extends dag₁ wcMap now rest
        (acc ++ [w], ch, av) (updated₁, ch₁f, av₁f) hloop
      simp only at hext
      have houts' : outs = w :: ext := by
        apply @List.append_cancel_left _ acc _ _
        rw [← houts, hext]
        simp
      rw [houts', scheduleLoop,
        scheduleStep_rerun_maint dag₂ wcMap now acc ch₂ av w hm, okBind]
      apply ih (done ++ [w]) (acc ++ [w]) ch ch₂ av ext
      · rw [hdone]
        simp
      · simp [hacc]
      · rw [hext]
      · exact hloop
    · -- scheduled order: the step recomputes the same dates
      have h1x : st1 = acc ++ [withDates w s e] := h1
      have h2x : st3 = alSet av wc.docId e := h2
      rw [h1x, h2x] at hloop
      obtain ⟨ext, hext⟩ := scheduleLoop_extends dag₁ wcMap now rest
        (acc ++ [withDates w s e], st2, alSet av wc.docId e)
        (updated₁, ch₁f, av₁f) hloop
      simp only at hext
      have houts' : outs = withDates w s e :: ext := by
        apply @List.append_cancel_left _ acc _ _
        rw [← houts, hext]
        simp
      have humem : withDates w s e ∈ updated₁ := by
        rw [houts] at hext ⊢
        rw [houts']
        exact List.mem_append.mpr (Or.inr (List.mem_cons_self _ _))
      -- the rerun step hypotheses
      have hm₂ : (withDates w s e).data.isMaintenance = false := hm
      have hwc₂ : alGet wcMap (withDates w s e).data.workCenterId = some wc := hwc
      have hpar₂ : DependencyGraph.getParents dag₂ (withDates w s e).docId
          = .ok ((withDates w s e).data.dependsOnWorkOrderIds.filterMap
              (alGet dag₂.workOrders)) := by
        rw [DependencyGraph.getParents, hres₂ (withDates w s e) humem]
      have hpids₂ : ((withDates w s e).data.dependsOnWorkOrderIds.filterMap
            (alGet dag₂.workOrders)).map WorkOrderDocument.docId
          = (withDates w s e).data.dependsOnWorkOrderIds :=
        filterMap_alGet_ids dag₂.workOrders hkeyed₂ _
          (hdsome₂ (withDates w s e) humem)
      have hpar₁' : DependencyGraph.getParents dag₁ w.docId
          = .ok (w.data.dependsOnWorkOrderIds.filterMap (alGet dag₁.workOrders)) := by
        rw [DependencyGraph.getParents, hres₁ w hwmem]
      have hpeq : parents₁ = w.data.dependsOnWorkOrderIds.filterMap (alGet dag₁.workOrders) :=
        Except.ok.inj (hpar₁.symm.trans hpar₁')
      have hpids₁ : parents₁.map WorkOrderDocument.docId = w.data.dependsOnWorkOrderIds := by
        rw [hpeq]
        exact filterMap_alGet_ids dag₁.workOrders hkeyed₁ _ (hdsome₁ w hwmem)
      have hfound : ∀ p ∈ parents₁, (acc.find? (fun a => a.docId == p.docId)).isSome := by
        intro p hp
        apply find?_docId_isSome
        rw [hacc]
        apply hord done w rest hdone
        rw [← hpids₁]
        exact List.mem_map.mpr ⟨p, hp, rfl⟩
      have hpe : resolvedParentEnds acc ((withDates w s e).data.dependsOnWorkOrderIds.filterMap
            (alGet dag₂.workOrders)) = resolvedParentEnds acc parents₁ :=
        resolvedParentEnds_congr acc parents₁ _ (by rw [hpids₂, hpids₁]; rfl) hfound
      have hs₂ : DateUtils.getEarliestStartTime
          (resolvedParentEnds acc ((withDates w s e).data.dependsOnWorkOrderIds.filterMap
            (alGet dag₂.workOrders)))
          (alGetD av wc.docId now) wc.data.shifts = .ok s := by
        rw [hpe]
        exact hs₁
      have hstep₂ := scheduleStep_rerun dag₂ wcMap now acc ch₂ av (withDates w s e) wc s e
        _ hm₂ hwc₂ hpar₂ hs₂ he₁ rfl rfl
      rw [houts', scheduleLoop, hstep₂, okBind]
      apply ih (done ++ [w]) (acc ++ [withDates w s e]) st2 ch₂ (alSet av wc.docId e) ext
      · rw [hdone]
        simp
      · simp only [List.map_append, hacc]
        rfl
      · rw [hext]
      · exact hloop

end ReflowService

namespace ReflowService

theorem scheduleLoop_skel (dag : DependencyGraph)
    (wcMap : List (String × WorkCenterDocument)) (now : Nat) :
    ∀ (l : List WorkOrderDocument) (st stf : SchedState),
      scheduleLoop dag wcMap now l st = .ok stf →
      ∃ outs, stf.1 = st.1 ++ outs ∧ List.Forall₂ SameSkel outs l := by
  intro l
  induction l with
  | nil =>
    intro st stf h
    rw [scheduleLoop] at h
    cases h
    exact ⟨[], (List.append_nil _).symm, List.Forall₂.nil⟩
  | cons w rest ih =>
    intro st stf h
    rw [scheduleLoop] at h
    obtain ⟨st', hstep, hloop⟩ := exceptBind_ok _ _ _ h
    obtain ⟨outs, houts, hskel⟩ := ih st' stf hloop
    rcases scheduleStep_ok_cases dag wcMap now st w st' hstep with
      ⟨_, hsh⟩ | ⟨_, wc, s, e, ps, _, _, _, _, h1, _, _⟩
    · refine ⟨w :: outs, ?_, List.Forall₂.cons ⟨rfl, rfl, rfl⟩ hskel⟩
      rw [houts, hsh]
      simp
    · refine ⟨withDates w s e :: outs, ?_, List.Forall₂.cons ⟨rfl, rfl, rfl⟩ hskel⟩
      rw [houts, h1]
      simp

theorem reflowPipeline_ok_intro (input : ReflowInput) (now : Nat)
    (dag : DependencyGraph) (ordered uo : List WorkOrderDocument)
    (chg : List WorkOrderChange) (ava avail : List (String × Nat))
    (violations : List ConstraintViolation)
    (hdag : DependencyGraph.buildGraph input.workOrders = .ok dag)
    (hcyc : DependencyGraph.hasCycles dag = false)
    (hord : DependencyGraph.topologicalSort dag = .ok ordered)
    (havail : initAvailability now input.workCenters [] = .ok avail)
    (hst : scheduleLoop dag (mkWcMap input.workCenters) now ordered ([], [], avail)
      = .ok (uo, chg, ava))
    (hviol : ConstraintChecker.validate uo input.workCenters = .ok violations) :
    reflowPipeline input now = .ok
      { updatedWorkOrders := uo, changes := chg
        explanation := generateExplanation input.workOrders.length (chg.length / 2)
          (decide (violations.length = 0)) violations
        isValid := decide (violations.length = 0)
        violations := violations.map (fun v => v.message) } := by
  rw [reflowPipeline, hdag]
  show Except.ok dag >>= _ = _
  rw [okBind]
  rw [if_neg (by simp [hcyc])]
  show DependencyGraph.topologicalSort dag >>= _ = _
  rw [hord, okBind]
  show initAvailability now input.workCenters [] >>= _ = _
  rw [havail, okBind]
  show scheduleLoop dag (mkWcMap input.workCenters) now ordered ([], [], avail) >>= _ = _
  rw [hst, okBind]
  show ConstraintChecker.validate uo input.workCenters >>= _ = _
  rw [hviol, okBind]

end ReflowService

/-- C8 (amended): for every input whose work-order docIds are pairwise
distinct and on which reflow succeeds with a valid schedule, rerunning
reflow at the same now on the returned updatedWorkOrders (with the same
work centers) produces an empty change list, returns the same
updatedWorkOrders, and is again valid. -/
theorem claimC8_amended (input : ReflowInput) (now : Nat)
    (hnd : (input.workOrders.map WorkOrderDocument.docId).Nodup)
    (hne : (ReflowService.reflow input now).updatedWorkOrders ≠ [])
    (hv : (ReflowService.reflow input now).isValid = true) :
    (ReflowService.reflow ⟨(ReflowService.reflow input now).updatedWorkOrders,
        input.workCenters⟩ now).changes = []
    ∧ (ReflowService.reflow ⟨(ReflowService.reflow input now).updatedWorkOrders,
        input.workCenters⟩ now).updatedWorkOrders
      = (ReflowService.reflow input now).updatedWorkOrders
    ∧ (ReflowService.reflow ⟨(ReflowService.reflow input now).updatedWorkOrders,
        input.workCenters⟩ now).isValid = true := by
  have hpok : ∃ r, ReflowService.reflowPipeline input now = .ok r
      ∧ ReflowService.reflow input now = r := by
    cases hp : ReflowService.reflowPipeline input now with
    | error e =>
      exfalso
      apply hne
      unfold ReflowService.reflow
      rw [hp]
    | ok r =>
      refine ⟨r, rfl, ?_⟩
      unfold ReflowService.reflow
      rw [hp]
  obtain ⟨r₁, hp₁, hr₁⟩ := hpok
  rw [hr₁] at hne hv ⊢
  obtain ⟨dag₁, hdag₁, hcases⟩ := ReflowService.reflowPipeline_ok_cases input now r₁ hp₁
  rcases hcases with ⟨_, hu0, _, _, _⟩ | ⟨hcyc₁, ordered, avail, st, viol₁,
    hord₁, havail, hst, hviol, hu, hc, hvv, hvm⟩
  · exact absurd hu0 hne
  obtain ⟨u₁, c₁, av₁⟩ := st
  have hu' : r₁.updatedWorkOrders = u₁ := hu
  rw [hu'] at hne ⊢
  have hviol' : ConstraintChecker.validate u₁ input.workCenters = .ok viol₁ := hviol
  -- run-1 graph and sort facts
  have hwf₁ := DependencyGraph.buildGraph_wf input.workOrders dag₁ hdag₁
  have hclean₁ := DependencyGraph.buildGraph_cleanNode input.workOrders hnd dag₁ hdag₁
  obtain ⟨Df₁, hinv₁, hlen₁⟩ := DependencyGraph.topologicalSort_ok_inv dag₁ hwf₁ ordered hord₁
  have hresDocs := hinv₁.resDocs
  have hordnd := hinv₁.resNodup
  have hordFact : ∀ pre w suf, ordered = pre ++ w :: suf →
      ∀ d ∈ w.data.dependsOnWorkOrderIds, d ∈ pre.map WorkOrderDocument.docId :=
    fun pre w suf hd d hdm => (hinv₁.resOrdered pre w suf hd (hclean₁ w.docId)).2 d hdm
  -- the returned schedule has the skeleton of the emission order
  obtain ⟨outs, houts, hskel0⟩ := ReflowService.scheduleLoop_skel dag₁
    (mkWcMap input.workCenters) now ordered ([], [], avail) (u₁, c₁, av₁) hst
  have houts' : u₁ = outs := by simpa using houts
  have hskel : List.Forall₂ SameSkel u₁ ordered := by
    rw [houts']
    exact hskel0
  have hidseq := skel_map_docId u₁ ordered hskel
  have hnd₂ : (u₁.map WorkOrderDocument.docId).Nodup := by
    rw [hidseq]
    exact hordnd
  -- dependencies of the returned schedule stay inside it
  have hdeps₂ : ∀ wo ∈ u₁, ∀ d ∈ wo.data.dependsOnWorkOrderIds,
      d ∈ u₁.map WorkOrderDocument.docId := by
    intro wo hwo d hd
    obtain ⟨pre, suf, hdec⟩ := List.append_of_mem hwo
    have hskel' : List.Forall₂ SameSkel (pre ++ wo :: suf) ordered := by
      rw [← hdec]
      exact hskel
    obtain ⟨pre₁, w₁, suf₁, hdec₁, hpre, hw, _⟩ := forall₂_decomp pre wo suf ordered hskel'
    have hdm : d ∈ w₁.data.dependsOnWorkOrderIds := by
      rw [← hw.2.1]
      exact hd
    have hpm := hordFact pre₁ w₁ suf₁ hdec₁ d hdm
    rw [hdec, List.map_append]
    apply List.mem_append.mpr
    left
    rw [skel_map_docId pre pre₁ hpre]
    exact hpm
  obtain ⟨dag₂, hdag₂⟩ := DependencyGraph.buildGraph_ok_of_deps_exist u₁ hdeps₂
  have hsort₂ := DependencyGraph.topologicalSort_rerun input.workOrders hnd dag₁ hdag₁
    ordered hord₁ u₁ hskel dag₂ hdag₂
  have hcyc₂ : DependencyGraph.hasCycles dag₂ = false := by
    unfold DependencyGraph.topologicalSort at hsort₂
    split at hsort₂
    · cases hsort₂
    · next hcond => exact Bool.eq_false_iff.mpr hcond
  -- graph-2 resolution facts
  have hwf₂ := DependencyGraph.buildGraph_wf u₁ dag₂ hdag₂
  have hw₂ := DependencyGraph.buildGraph_workOrders u₁ hnd₂ dag₂ hdag₂
  have hkeys₂ : dag₂.workOrders.map Prod.fst = u₁.map WorkOrderDocument.docId := by
    rw [hw₂, List.map_map]
    rfl
  have hres₂ : ∀ u ∈ u₁, alGet dag₂.workOrders u.docId = some u := by
    intro u hu2
    rw [hw₂]
    apply alGet_of_mem_nodup
    · rw [List.map_map]
      exact hnd₂
    · exact List.mem_map.mpr ⟨u, hu2, rfl⟩
  have hdsome₁ : ∀ w ∈ ordered, ∀ d ∈ w.data.dependsOnWorkOrderIds,
      (alGet dag₁.workOrders d).isSome := by
    intro w hw2 d hd
    obtain ⟨pre, suf, hdec⟩ := List.append_of_mem hw2
    have hpm := hordFact pre w suf hdec d hd
    have hdo : d ∈ ordered.map WorkOrderDocument.docId := by
      rw [hdec, List.map_append]
      exact List.mem_append.mpr (Or.inl hpm)
    exact alGet_isSome_of_mem _ d
      (DependencyGraph.resIds_subset_keys dag₁.workOrders ordered hresDocs d hdo)
  have hdsome₂ : ∀ u ∈ u₁, ∀ d ∈ u.data.dependsOnWorkOrderIds,
      (alGet dag₂.workOrders d).isSome := by
    intro u hu2 d hd
    apply alGet_isSome_of_mem
    rw [hkeys₂]
    exact hdeps₂ u hu2 d hd
  -- rerun the scheduling pass
  have hloop₂ := ReflowService.scheduleLoop_rerun dag₁ dag₂ (mkWcMap input.workCenters)
    now u₁ c₁ av₁ ordered hresDocs hres₂ hwf₁.keyed hwf₂.keyed hdsome₁ hdsome₂ hordFact
    ordered [] [] [] [] avail u₁ rfl rfl rfl hst
  -- assemble the second pipeline run
  have hp₂ := ReflowService.reflowPipeline_ok_intro
    { workOrders := u₁, workCenters := input.workCenters } now dag₂ u₁ u₁ [] av₁ avail
    viol₁ hdag₂ hcyc₂ hsort₂ havail hloop₂ hviol'
  have hr₂ : ReflowService.reflow { workOrders := u₁, workCenters := input.workCenters } now
      = { updatedWorkOrders := u₁, changes := []
          explanation := ReflowService.generateExplanation u₁.length (([] : List WorkOrderChange).length / 2)
            (decide (viol₁.length = 0)) viol₁
          isValid := decide (viol₁.length = 0)
          violations := viol₁.map (fun v => v.message) } := by
    unfold ReflowService.reflow
    rw [hp₂]
  rw [hr₂]
  refine ⟨rfl, rfl, ?_⟩
  rw [← hvv]
  exact hv

/-- Duplicate-id input for the C8 counterexample: two documents share
docId "a"; the graph keeps only the last ("A2", depending on "c") but
sums edge contributions of both, so "a" is emitted before its parent
"c" and is scheduled against c's stale end date. -/
def c8input : ReflowInput :=
  ⟨[⟨"a", ⟨"A1", "wc-a", mkInstant 20101 8 0, mkInstant 20101 9 0, 60, false, ["b"]⟩⟩,
    ⟨"a", ⟨"A2", "wc-a", mkInstant 20102 10 0, mkInstant 20102 11 0, 60, false, ["c"]⟩⟩,
    ⟨"b", ⟨"B", "wc-b", mkInstant 20101 8 0, mkInstant 20101 9 0, 60, false, []⟩⟩,
    ⟨"c", ⟨"C", "wc-c", mkInstant 20101 8 0, mkInstant 20102 10 0, 60, false, ["d"]⟩⟩,
    ⟨"d", ⟨"D", "wc-d", mkInstant 20101 8 0, mkInstant 20101 9 0, 60, false, []⟩⟩],
   [⟨"wc-a", ⟨"A", weekdayShifts, []⟩⟩, ⟨"wc-b", ⟨"B", weekdayShifts, []⟩⟩,
    ⟨"wc-c", ⟨"C", weekdayShifts, []⟩⟩, ⟨"wc-d", ⟨"D", weekdayShifts, []⟩⟩]⟩

/-- C8: the claim asserts idempotence for every input whose reflow
succeeds and is valid.  On a duplicate-id input the first reflow
succeeds and validates, yet rerunning reflow at the same now on its
returned updatedWorkOrders reschedules a work order: the change list
of the second run is non-empty. -/
theorem claimC8_counterexample :
    (ReflowService.reflow c8input mondayNow).updatedWorkOrders ≠ []
    ∧ (ReflowService.reflow c8input mondayNow).isValid = true
    ∧ (ReflowService.reflow ⟨(ReflowService.reflow c8input mondayNow).updatedWorkOrders,
        c8input.workCenters⟩ mondayNow).changes ≠ [] :=
  ⟨by decide, by decide, by decide⟩

/-- Distinct-id chain for the C8 witness. -/
def c8okInput : ReflowInput :=
  ⟨[⟨"x1", ⟨"X1", "wc-1", mkInstant 20101 8 0, mkInstant 20101 9 0, 60, false, []⟩⟩,
    ⟨"x2", ⟨"X2", "wc-1", mkInstant 20101 9 0, mkInstant 20101 10 0, 60, false, ["x1"]⟩⟩],
   [⟨"wc-1", ⟨"WC1", weekdayShifts, []⟩⟩]⟩

/-- C8 witness: the amended hypotheses hold on a distinct-id chain and
the second run changes nothing. -/
theorem claimC8_witness :
    (c8okInput.workOrders.map WorkOrderDocument.docId).Nodup
    ∧ (ReflowService.reflow c8okInput mondayNow).updatedWorkOrders ≠ []
    ∧ (ReflowService.reflow c8okInput mondayNow).isValid = true
    ∧ ((ReflowService.reflow ⟨(ReflowService.reflow c8okInput mondayNow).updatedWorkOrders,
          c8okInput.workCenters⟩ mondayNow).changes = []
       ∧ (ReflowService.reflow ⟨(ReflowService.reflow c8okInput mondayNow).updatedWorkOrders,
          c8okInput.workCenters⟩ mondayNow).updatedWorkOrders
         = (ReflowService.reflow c8okInput mondayNow).updatedWorkOrders
       ∧ (ReflowService.reflow ⟨(ReflowService.reflow c8okInput mondayNow).updatedWorkOrders,
          c8okInput.workCenters⟩ mondayNow).isValid = true) :=
  ⟨by decide, by decide, by decide,
   claimC8_amended c8okInput mondayNow (by decide) (by decide) (by decide)⟩
